import Mathlib

/-!
# system_monitor: process-tree reconciliation and metric sampling

A shallow embedding of the core of `ITMcAudit/system_monitor`:

* `include/ProcessInfo.h`, `src/core/ProcessTreeBuilder.cpp`: the process objects, `buildTree`,
  `deepCopy`, `getProcessTree`, `enumerationLoop`;
* `include/SystemMetrics.h`, `src/core/SystemDataCollector.cpp`: the metric snapshot and one
  iteration of `collectionLoop`;
* `include/Configuration.h`, `src/config/Configuration.cpp`: `loadFromArgs` and `validate`;
* `src/ui/MonitorUI.cpp`: the process lines of `createProcessTreeWidget`;
* the threads of the two engines and the mutex of each, as a machine that interleaves the
  accesses of the member functions to the published state.

`ProcessInfo` objects live on the C++ heap and are linked by raw `parent` pointers and owning
`children` vectors.  The heap is a list of objects, an address is an index into it, a
`unique_ptr<ProcessInfo>` or `ProcessInfo*` is an address, `nullptr` is `none`.  Allocation puts an
object at the end of the heap; an object that is deleted leaves arbitrary contents at its address
(`deleteObjects`).

`uint32_t`/`uint64_t` fields that are only stored and compared are natural numbers; `double`
fields are rationals (exact arithmetic).
-/

namespace sysmon

/-! ## include/ProcessInfo.h -/

/-- One `ProcessInfo` object.  The defaults are the member initialisers of the struct. -/
structure ProcessInfo where
  pid : Nat := 0
  parentPid : Nat := 0
  name : String := ""
  cpuPercent : ℚ := 0
  memoryBytes : Nat := 0
  creationTime : Nat := 0
  parent : Option Nat := none
  children : List Nat := []
deriving DecidableEq

instance : Inhabited ProcessInfo := ⟨{}⟩

/-- The heap of `ProcessInfo` objects; an address is an index. -/
abbrev Heap := List ProcessInfo

/-- Dereference a pointer: `*a`. -/
def deref (heap : Heap) (a : Nat) : ProcessInfo := heap.getD a {}

/-- The assignment `a->parent = q`. -/
def setParent (heap : Heap) (a : Nat) (q : Option Nat) : Heap :=
  heap.modify (fun o => { o with parent := q }) a

/-- The call `p->children.push_back(std::move(c))`. -/
def pushChild (heap : Heap) (p c : Nat) : Heap :=
  heap.modify (fun o => { o with children := o.children ++ [c] }) p

/-- A process together with the subtree it owns, as a value: the data fields of a `ProcessInfo`
and the owned children, in order.  The non-owning `parent` pointer is not part of it. -/
inductive ProcessNode where
  | mk (pid parentPid : Nat) (name : String) (cpuPercent : ℚ) (memoryBytes creationTime : Nat)
      (children : List ProcessNode)

namespace ProcessNode

def pid : ProcessNode → Nat
  | mk p _ _ _ _ _ _ => p

def parentPid : ProcessNode → Nat
  | mk _ p _ _ _ _ _ => p

def name : ProcessNode → String
  | mk _ _ n _ _ _ _ => n

def cpuPercent : ProcessNode → ℚ
  | mk _ _ _ c _ _ _ => c

def memoryBytes : ProcessNode → Nat
  | mk _ _ _ _ m _ _ => m

def creationTime : ProcessNode → Nat
  | mk _ _ _ _ _ t _ => t

def children : ProcessNode → List ProcessNode
  | mk _ _ _ _ _ _ cs => cs

end ProcessNode

/-- All successes of a list of optional values, or `none` if one of them is `none`. -/
def allOrNone {α : Type} : List (Option α) → Option (List α)
  | [] => some []
  | none :: _ => none
  | some x :: xs =>
    match allOrNone xs with
    | none => none
    | some ys => some (x :: ys)

/-- The subtree owned by the object at address `a`, read off the heap by following the `children`
vectors at most `fuel` levels deep.  `none` when an address is dangling or the fuel runs out. -/
def readTree (heap : Heap) : Nat → Nat → Option ProcessNode
  | 0, _ => none
  | fuel + 1, a =>
    match heap[a]? with
    | none => none
    | some o =>
      match allOrNone (o.children.map (readTree heap fuel)) with
      | none => none
      | some cs =>
        some (.mk o.pid o.parentPid o.name o.cpuPercent o.memoryBytes o.creationTime cs)

/-- The forest owned by a vector of `unique_ptr<ProcessInfo>`. -/
def readForest (heap : Heap) (fuel : Nat) (roots : List Nat) : Option (List ProcessNode) :=
  allOrNone (roots.map (readTree heap fuel))

mutual
/-- The member function `ProcessInfo::getTotalCpuWithChildren`, on the subtree that the object
owns. -/
def getTotalCpuWithChildren : ProcessNode → ℚ
  | .mk _ _ _ cpuPercent _ _ children => totalCpuLoop cpuPercent children
/-- The loop `for (child : children) total += child->getTotalCpuWithChildren()`. -/
def totalCpuLoop : ℚ → List ProcessNode → ℚ
  | total, [] => total
  | total, child :: rest => totalCpuLoop (total + getTotalCpuWithChildren child) rest
end

mutual
/-- The member function `ProcessInfo::getTotalMemoryWithChildren`, on the subtree that the object
owns; `total` is a `uint64_t`, so the addition wraps around at `2^64`. -/
def getTotalMemoryWithChildren : ProcessNode → Nat
  | .mk _ _ _ _ memoryBytes _ children => totalMemoryLoop memoryBytes children
/-- The loop `for (child : children) total += child->getTotalMemoryWithChildren()`. -/
def totalMemoryLoop : Nat → List ProcessNode → Nat
  | total, [] => total
  | total, child :: rest =>
    totalMemoryLoop ((total + getTotalMemoryWithChildren child) % 2 ^ 64) rest
end

/-! ## src/core/ProcessTreeBuilder.cpp: buildTree -/

/-- The `std::unordered_map<uint32_t, ProcessInfo*>`: a finite partial map from pid to address. -/
abbrev PidMap := Nat → Option Nat

/-- The assignment `pidMap[k] = v`, which inserts or overwrites. -/
def PidMap.assign (m : PidMap) (k v : Nat) : PidMap :=
  fun k' => if k' = k then some v else m k'

/-- The loop `for (proc : processes) pidMap[proc->pid] = proc.get()`. -/
def buildPidMap (heap : Heap) : List Nat → PidMap → PidMap
  | [], m => m
  | proc :: rest, m => buildPidMap heap rest (m.assign (deref heap proc).pid proc)

/-- The body of the first loop of `buildTree` for one `proc`. -/
def linkParent (pidMap : PidMap) (heap : Heap) (proc : Nat) : Heap :=
  match pidMap (deref heap proc).parentPid with
  | some parent =>
    if (deref heap parent).pid ≠ (deref heap proc).pid then
      if (deref heap parent).creationTime < (deref heap proc).creationTime then
        setParent heap proc (some parent)
      else
        setParent heap proc none
    else
      setParent heap proc none
  | none => setParent heap proc none

/-- The first loop of `buildTree`: decide every `proc->parent`. -/
def firstPass (pidMap : PidMap) (heap : Heap) (processes : List Nat) : Heap :=
  processes.foldl (linkParent pidMap) heap

/-- The second loop of `buildTree`, from the iterator position on: an element with a parent is
moved into the parent's `children` and erased from the vector, any other element stays.  The
result is the heap and what remains of the vector from the iterator position on. -/
def secondPass : Heap → List Nat → Heap × List Nat
  | heap, [] => (heap, [])
  | heap, it :: rest =>
    match (deref heap it).parent with
    | some parent => secondPass (pushChild heap parent it) rest
    | none => ((secondPass heap rest).1, it :: (secondPass heap rest).2)

/-- One evaluation of the condition and the body of `while (it != processes.end())` in the second
loop of `buildTree`.  The state is the heap, the vector `processes` and the position of the
iterator `it`; `none` when `it` is at the end, so that the loop is left.  Either the element is
pushed to its parent's `children` and erased from the vector, `it` then being the position of
the next element, or `it` is incremented. -/
def secondPassStep (s : Heap × List Nat × Nat) : Option (Heap × List Nat × Nat) :=
  match s.2.1[s.2.2]? with
  | none => none
  | some proc =>
    match (deref s.1 proc).parent with
    | some parent => some (pushChild s.1 parent proc, s.2.1.eraseIdx s.2.2, s.2.2)
    | none => some (s.1, s.2.1, s.2.2 + 1)

/-- The second loop of `buildTree` run for at most `fuel` evaluations of its condition: the heap
and the vector when the loop is left, `none` when the fuel does not suffice. -/
def secondPassLoop : Nat → Heap × List Nat × Nat → Option (Heap × List Nat)
  | 0, _ => none
  | fuel + 1, s =>
    match secondPassStep s with
    | none => some (s.1, s.2.1)
    | some next => secondPassLoop fuel next

/-- The function `ProcessTreeBuilder::buildTree(processes)`: the heap afterwards and the vector
`processes` afterwards (the roots). -/
def buildTree (heap : Heap) (processes : List Nat) : Heap × List Nat :=
  secondPass (firstPass (buildPidMap heap processes (fun _ => none)) heap processes) processes

/-! ## src/core/ProcessTreeBuilder.cpp: deepCopy, getProcessTree, enumerationLoop -/

/-- The loop over `source.children` in `deepCopy`: copy the child (`copyOne` is the recursive
call), point the child copy's `parent` at `copy`, push it to `copy->children`. -/
def copyChildren (copyOne : Heap → Nat → Option (Heap × Nat)) (copy : Nat) :
    List Nat → Heap → Option Heap
  | [], heap => some heap
  | child :: rest, heap =>
    match copyOne heap child with
    | none => none
    | some r =>
      copyChildren copyOne copy rest (pushChild (setParent r.1 r.2 (some copy)) copy r.2)

/-- The object `*copy` of `deepCopy` before the loop over the children: a default-constructed
`ProcessInfo` with the six data fields assigned from `source` and `parent` set to null. -/
def copyFields (source : ProcessInfo) : ProcessInfo :=
  { pid := source.pid, parentPid := source.parentPid, name := source.name,
    cpuPercent := source.cpuPercent, memoryBytes := source.memoryBytes,
    creationTime := source.creationTime, parent := none, children := [] }

/-- The function `ProcessTreeBuilder::deepCopy(source)`: allocates the copy (a fresh object at
the end of the heap), copies the six data fields, leaves `parent` null and copies the children
recursively.  Returns the heap afterwards and the address of the copy; `none` when an address is
dangling or the recursion is deeper than `fuel`. -/
def deepCopy : Nat → Heap → Nat → Option (Heap × Nat)
  | 0, _, _ => none
  | fuel + 1, heap, source =>
    match heap[source]? with
    | none => none
    | some s =>
      match copyChildren (deepCopy fuel) heap.length s.children (heap ++ [copyFields s]) with
      | none => none
      | some heap2 => some (heap2, heap.length)

/-- The state of a `ProcessTreeBuilder` that the tree operations use: the heap and the published
vector `processRoots_`. -/
structure ProcessTreeBuilder where
  heap : Heap
  processRoots_ : List Nat

/-- The loop `for (root : processRoots_) copy.push_back(deepCopy(*root))` of `getProcessTree`,
from some position on. -/
def copyRoots (fuel : Nat) : List Nat → Heap → List Nat → Option (Heap × List Nat)
  | [], heap, copy => some (heap, copy)
  | root :: rest, heap, copy =>
    match deepCopy fuel heap root with
    | none => none
    | some r => copyRoots fuel rest r.1 (copy ++ [r.2])

/-- The function `ProcessTreeBuilder::getProcessTree()`: the builder afterwards and the returned
vector. -/
def getProcessTree (fuel : Nat) (self : ProcessTreeBuilder) :
    Option (ProcessTreeBuilder × List Nat) :=
  match copyRoots fuel self.processRoots_ self.heap [] with
  | none => none
  | some r => some ({ self with heap := r.1 }, r.2)

/-- Enumeration, reconciliation and publication in one iteration of the `while (running_)` loop
of `enumerationLoop`: the calls `enumerateProcesses()` and `buildTree(processes)`, and the new
value of `processRoots_`.  `enumerated` are the objects that `enumerateProcesses()` allocated, in
the order of the returned vector: they are fresh, so they sit at the end of the heap.  The move
assignment to `processRoots_` also destroys the forest published before; that part of the
iteration is not in here but in `enumerationLoopIteration`. -/
def enumerationCycle (self : ProcessTreeBuilder) (enumerated : List ProcessInfo) :
    ProcessTreeBuilder :=
  { heap := (buildTree (self.heap ++ enumerated)
      (List.range' self.heap.length enumerated.length)).1
    processRoots_ := (buildTree (self.heap ++ enumerated)
      (List.range' self.heap.length enumerated.length)).2 }

/-! ## include/SystemMetrics.h, include/Configuration.h, include/ISystemCollector.h -/

/-- The struct `SystemMetrics`; the defaults are its member initialisers. -/
structure SystemMetrics where
  cpuUsagePercent : ℚ := 0
  perCoreCpuUsage : List ℚ := []
  totalMemoryBytes : Nat := 0
  usedMemoryBytes : Nat := 0
  memoryUsagePercent : ℚ := 0
  diskReadBytesPerSec : Nat := 0
  diskWriteBytesPerSec : Nat := 0
  networkRecvBytesPerSec : Nat := 0
  networkSendBytesPerSec : Nat := 0
  timestampMs : Nat := 0
deriving DecidableEq

/-- The struct `Configuration`; the defaults are its member initialisers.  The intervals are
`uint32_t` milliseconds. -/
structure Configuration where
  cpuSampleIntervalMs : Nat := 1000
  memorySampleIntervalMs : Nat := 5000
  diskSampleIntervalMs : Nat := 1000
  networkSampleIntervalMs : Nat := 1000
  processSampleIntervalMs : Nat := 2000
  cpuAlertThreshold : ℚ := 90
  memoryAlertThreshold : ℚ := 90
  targetFrameRateHz : Nat := 30
  showPerCoreStats : Bool := true
  useColors : Bool := true
  colorScheme : String := "default"
  expandTreeByDefault : Bool := false
  maxProcessDisplay : Nat := 1000
deriving DecidableEq

/-- The interface `ISystemCollector`: each collection call gets the caller's snapshot by reference
and may change the collector's own state `σ`. -/
structure ISystemCollector (σ : Type) where
  collectCPUMetrics : σ → SystemMetrics → σ × SystemMetrics
  collectMemoryMetrics : σ → SystemMetrics → σ × SystemMetrics
  collectDiskMetrics : σ → SystemMetrics → σ × SystemMetrics
  collectNetworkMetrics : σ → SystemMetrics → σ × SystemMetrics

/-! ## src/core/SystemDataCollector.cpp -/

/-- The members of `SystemDataCollector` that sampling uses: the configuration, the state of the
collector object and the published snapshot. -/
structure SystemDataCollector (σ : Type) where
  config_ : Configuration
  collector_ : σ
  currentMetrics_ : SystemMetrics

/-- The local variables of `collectionLoop`.  The `last…Sample` are `steady_clock` time points,
counted in nanoseconds; `newMetrics` and `updated` are those of the current iteration. -/
structure LoopLocals where
  lastCpuSample : Int
  lastMemorySample : Int
  lastDiskSample : Int
  lastNetworkSample : Int
  newMetrics : SystemMetrics := {}
  updated : Bool := false

/-- The value `duration_cast<milliseconds>(now - last).count()`: nanoseconds to milliseconds,
truncated toward zero. -/
def elapsedMs (now last : Int) : Int := Int.tdiv (now - last) 1000000

/-- The block `// CPU sampling` of one iteration. -/
def sampleCpu {σ : Type} (src : ISystemCollector σ) (now : Int)
    (s : SystemDataCollector σ × LoopLocals) : SystemDataCollector σ × LoopLocals :=
  if elapsedMs now s.2.lastCpuSample ≥ (s.1.config_.cpuSampleIntervalMs : Int) then
    ({ s.1 with collector_ := (src.collectCPUMetrics s.1.collector_ s.2.newMetrics).1 },
     { s.2 with newMetrics := (src.collectCPUMetrics s.1.collector_ s.2.newMetrics).2
                lastCpuSample := now
                updated := true })
  else s

/-- The block `// Memory sampling` of one iteration. -/
def sampleMemory {σ : Type} (src : ISystemCollector σ) (now : Int)
    (s : SystemDataCollector σ × LoopLocals) : SystemDataCollector σ × LoopLocals :=
  if elapsedMs now s.2.lastMemorySample ≥ (s.1.config_.memorySampleIntervalMs : Int) then
    ({ s.1 with collector_ := (src.collectMemoryMetrics s.1.collector_ s.2.newMetrics).1 },
     { s.2 with newMetrics := (src.collectMemoryMetrics s.1.collector_ s.2.newMetrics).2
                lastMemorySample := now
                updated := true })
  else s

/-- The block `// Disk sampling` of one iteration. -/
def sampleDisk {σ : Type} (src : ISystemCollector σ) (now : Int)
    (s : SystemDataCollector σ × LoopLocals) : SystemDataCollector σ × LoopLocals :=
  if elapsedMs now s.2.lastDiskSample ≥ (s.1.config_.diskSampleIntervalMs : Int) then
    ({ s.1 with collector_ := (src.collectDiskMetrics s.1.collector_ s.2.newMetrics).1 },
     { s.2 with newMetrics := (src.collectDiskMetrics s.1.collector_ s.2.newMetrics).2
                lastDiskSample := now
                updated := true })
  else s

/-- The block `// Network sampling` of one iteration. -/
def sampleNetwork {σ : Type} (src : ISystemCollector σ) (now : Int)
    (s : SystemDataCollector σ × LoopLocals) : SystemDataCollector σ × LoopLocals :=
  if elapsedMs now s.2.lastNetworkSample ≥ (s.1.config_.networkSampleIntervalMs : Int) then
    ({ s.1 with collector_ := (src.collectNetworkMetrics s.1.collector_ s.2.newMetrics).1 },
     { s.2 with newMetrics := (src.collectNetworkMetrics s.1.collector_ s.2.newMetrics).2
                lastNetworkSample := now
                updated := true })
  else s

/-- The merge of `newMetrics` into `currentMetrics_` under the lock. -/
def mergeMetrics (currentMetrics_ newMetrics : SystemMetrics) : SystemMetrics :=
  let c1 : SystemMetrics :=
    if newMetrics.cpuUsagePercent > 0 then
      { currentMetrics_ with cpuUsagePercent := newMetrics.cpuUsagePercent
                             perCoreCpuUsage := newMetrics.perCoreCpuUsage }
    else currentMetrics_
  let c2 : SystemMetrics :=
    if newMetrics.totalMemoryBytes > 0 then
      { c1 with totalMemoryBytes := newMetrics.totalMemoryBytes
                usedMemoryBytes := newMetrics.usedMemoryBytes
                memoryUsagePercent := newMetrics.memoryUsagePercent }
    else c1
  { c2 with diskReadBytesPerSec := newMetrics.diskReadBytesPerSec
            diskWriteBytesPerSec := newMetrics.diskWriteBytesPerSec
            networkRecvBytesPerSec := newMetrics.networkRecvBytesPerSec
            networkSendBytesPerSec := newMetrics.networkSendBytesPerSec
            timestampMs := newMetrics.timestampMs }

/-- The block `if (updated) { … }` of one iteration; `wallMs` is the `system_clock` reading. -/
def publish {σ : Type} (wallMs : Nat) (s : SystemDataCollector σ × LoopLocals) :
    SystemDataCollector σ × LoopLocals :=
  if s.2.updated then
    ({ s.1 with currentMetrics_ :=
          mergeMetrics s.1.currentMetrics_ { s.2.newMetrics with timestampMs := wallMs } },
     { s.2 with newMetrics := { s.2.newMetrics with timestampMs := wallMs } })
  else s

/-- One iteration of the `while (running_)` loop of `collectionLoop`, up to the sleep: `now` is
the `steady_clock` reading at the top of the iteration. -/
def collectionLoopIteration {σ : Type} (src : ISystemCollector σ) (now : Int) (wallMs : Nat)
    (self : SystemDataCollector σ) (locals : LoopLocals) : SystemDataCollector σ × LoopLocals :=
  publish wallMs
    (sampleNetwork src now
      (sampleDisk src now
        (sampleMemory src now
          (sampleCpu src now (self, { locals with newMetrics := {}, updated := false })))))

/-- The function `SystemDataCollector::collectAllMetrics()`, which is all that `refresh()`
calls. -/
def collectAllMetrics {σ : Type} (src : ISystemCollector σ) (wallMs : Nat)
    (self : SystemDataCollector σ) : SystemDataCollector σ :=
  let r1 := src.collectCPUMetrics self.collector_ {}
  let r2 := src.collectMemoryMetrics r1.1 r1.2
  let r3 := src.collectDiskMetrics r2.1 r2.2
  let r4 := src.collectNetworkMetrics r3.1 r3.2
  { self with collector_ := r4.1, currentMetrics_ := { r4.2 with timestampMs := wallMs } }

/-- The function `SystemDataCollector::refresh()`. -/
def refresh {σ : Type} (src : ISystemCollector σ) (wallMs : Nat)
    (self : SystemDataCollector σ) : SystemDataCollector σ :=
  collectAllMetrics src wallMs self

/-- The function `SystemDataCollector::getMetrics() const`: a copy of the published snapshot. -/
def SystemDataCollector.getMetrics {σ : Type} (self : SystemDataCollector σ) : SystemMetrics :=
  self.currentMetrics_

/-- The local variables of `collectionLoop` when the `while` loop is reached: the four
declarations `auto last…Sample = steady_clock::now()` read the clock one after the other, `t1`
to `t4` are the four readings. -/
def collectionLoopEntry (t1 t2 t3 t4 : Int) : LoopLocals where
  lastCpuSample := t1
  lastMemorySample := t2
  lastDiskSample := t3
  lastNetworkSample := t4

/-! ## Lifecycle and termination: start(), terminateProcess() -/

/-- The members of an engine that `start()` writes: the flag `running_` and the `std::thread`
member (`collectionThread_`, `enumerationThread_`), of which only whether it holds a thread
(`joinable()`) matters.  The defaults are those of a constructed engine. -/
structure EngineControl where
  running_ : Bool := false
  threadJoinable : Bool := false
deriving DecidableEq

/-- The function `SystemDataCollector::start()`; `init` is the call `collector_->initialize()`,
which returns a flag and may change the collector.  The result is the returned flag, the
collector and the control members afterwards.  Move-assigning to a
`std::thread` that is joinable calls `std::terminate`: there is no result then. -/
def SystemDataCollector.start {σ : Type} (init : σ → Bool × σ) (collector_ : σ)
    (ctl : EngineControl) : Option (Bool × σ × EngineControl) :=
  if !(init collector_).1 then
    some (false, (init collector_).2, ctl)
  else if ctl.threadJoinable then
    none
  else
    some (true, (init collector_).2, { running_ := true, threadJoinable := true })

/-- The function `ProcessTreeBuilder::start()`, which reads like `SystemDataCollector::start()`. -/
def ProcessTreeBuilder.start {σ : Type} (init : σ → Bool × σ) (collector_ : σ)
    (ctl : EngineControl) : Option (Bool × σ × EngineControl) :=
  if !(init collector_).1 then
    some (false, (init collector_).2, ctl)
  else if ctl.threadJoinable then
    none
  else
    some (true, (init collector_).2, { running_ := true, threadJoinable := true })

/-- The function `ProcessTreeBuilder::terminateProcess(pid)`; `terminate` is the call
`collector_->terminateProcess(pid)`, which returns a flag and may change the collector.  The
result is the returned flag, the collector afterwards and the builder afterwards. -/
def ProcessTreeBuilder.terminateProcess {σ : Type} (terminate : σ → Nat → Bool × σ)
    (collector_ : σ) (self : ProcessTreeBuilder) (pid : Nat) : Bool × σ × ProcessTreeBuilder :=
  ((terminate collector_ pid).1, (terminate collector_ pid).2, self)

/-! ## src/config/Configuration.cpp -/

/-- The exceptions of `std::stoi` and `std::stod`. -/
inductive ParseError where
  | invalidArgument
  | outOfRange
deriving DecidableEq

/-- The characters for which `std::isspace` holds in the "C" locale. -/
def isSpace (ch : Char) : Bool :=
  ch == ' ' || ch == '\t' || ch == '\n' || ch == '\x0b' || ch == '\x0c' || ch == '\r'

/-- The longest prefix of decimal digits read as a number, most significant digit first: `acc` is
the value of the digits read so far, the result is `none` when no digit has been read. -/
def readDigits : List Char → Option Nat → Option Nat
  | [], acc => acc
  | ch :: rest, acc =>
    if ch.isDigit then readDigits rest (some (acc.getD 0 * 10 + (ch.toNat - '0'.toNat)))
    else acc

/-- The library function `std::stoi(str)` (base 10): skip leading white space, read an optional
sign and the longest run of decimal digits; `std::invalid_argument` when there is no digit,
`std::out_of_range` when the value does not fit an `int`. -/
def stoi (str : String) : Except ParseError Int :=
  let afterSpace := str.toList.dropWhile isSpace
  let negative : Bool := afterSpace.head? == some '-'
  let digits : List Char :=
    if afterSpace.head? == some '-' || afterSpace.head? == some '+' then afterSpace.drop 1
    else afterSpace
  match readDigits digits none with
  | none => .error .invalidArgument
  | some n =>
    let value : Int := if negative then -(n : Int) else (n : Int)
    if value < -2147483648 ∨ 2147483647 < value then .error .outOfRange else .ok value

/-- The conversion of an `int` to `uint32_t`: reduction modulo `2^32`. -/
def toUInt32 (value : Int) : Nat := (value % 4294967296).toNat

/-- How a call of `loadFromArgs` ends: it returns (with the configuration as it is then), it
calls `std::exit` after printing the usage, or a conversion throws. -/
inductive LoadResult where
  | returned (config : Configuration)
  | exited (status : Nat)
  | threw (error : ParseError)
deriving DecidableEq

/-- The loop `for (i = 1; i < argc; ++i)` of `loadFromArgs`, from position `i` on: `args` is
`argv[i], …, argv[argc - 1]`.  An option with a value is recognised only when a further argument
follows (`i + 1 < argc`), and then consumes it.  `stod` is the library function `std::stod`. -/
def loadFromArgsLoop (stod : String → Except ParseError ℚ) :
    List String → Configuration → LoadResult
  | [], config => .returned config
  | [arg], config =>
    if arg = "--no-colors" then .returned { config with useColors := false }
    else if arg = "--expand-tree" then .returned { config with expandTreeByDefault := true }
    else if arg = "--help" ∨ arg = "-h" then .exited 0
    else .returned config
  | arg :: value :: rest, config =>
    if arg = "--cpu-interval" then
      match stoi value with
      | .error e => .threw e
      | .ok v => loadFromArgsLoop stod rest { config with cpuSampleIntervalMs := toUInt32 v }
    else if arg = "--memory-interval" then
      match stoi value with
      | .error e => .threw e
      | .ok v => loadFromArgsLoop stod rest { config with memorySampleIntervalMs := toUInt32 v }
    else if arg = "--fps" then
      match stoi value with
      | .error e => .threw e
      | .ok v => loadFromArgsLoop stod rest { config with targetFrameRateHz := toUInt32 v }
    else if arg = "--no-colors" then
      loadFromArgsLoop stod (value :: rest) { config with useColors := false }
    else if arg = "--expand-tree" then
      loadFromArgsLoop stod (value :: rest) { config with expandTreeByDefault := true }
    else if arg = "--cpu-threshold" then
      match stod value with
      | .error e => .threw e
      | .ok x => loadFromArgsLoop stod rest { config with cpuAlertThreshold := x }
    else if arg = "--memory-threshold" then
      match stod value with
      | .error e => .threw e
      | .ok x => loadFromArgsLoop stod rest { config with memoryAlertThreshold := x }
    else if arg = "--help" ∨ arg = "-h" then .exited 0
    else loadFromArgsLoop stod (value :: rest) config

/-- The function `Configuration::loadFromArgs(argc, argv)`; `argv` is the whole argument vector,
`argv[0]` (the program name) is skipped. -/
def Configuration.loadFromArgs (stod : String → Except ParseError ℚ) (argv : List String)
    (self : Configuration) : LoadResult :=
  loadFromArgsLoop stod (argv.drop 1) self

/-- The function `Configuration::validate() const`, without the message it prints. -/
def Configuration.validate (self : Configuration) : Bool :=
  if self.cpuSampleIntervalMs < 100 ∨ self.cpuSampleIntervalMs > 10000 then false
  else if self.memorySampleIntervalMs < 1000 ∨ self.memorySampleIntervalMs > 3600000 then false
  else if self.targetFrameRateHz < 1 ∨ self.targetFrameRateHz > 120 then false
  else true

/-- The lines of the usage text that `loadFromArgs` prints for `--help`. -/
def usageText : List String :=
  ["System Monitor - Usage:\n",
   "  --cpu-interval <ms>       CPU sampling interval (default: 1000)\n",
   "  --memory-interval <ms>    Memory sampling interval (default: 5000)\n",
   "  --fps <rate>              Target frame rate (default: 30)\n",
   "  --cpu-threshold <pct>     CPU alert threshold (default: 90)\n",
   "  --memory-threshold <pct>  Memory alert threshold (default: 90)\n",
   "  --no-colors               Disable color output\n",
   "  --expand-tree             Expand process tree by default\n",
   "  --help, -h                Show this help\n"]

/-! ## src/ui/MonitorUI.cpp: createProcessTreeWidget -/

/-- One process line of the widget, by what its four cells show: the pid, the CPU percentage, the
memory in bytes and the name after the indentation.  The formatting of the numbers as text and
the layout are not modelled. -/
structure ProcessLine where
  pid : Nat
  cpuPercent : ℚ
  memoryBytes : Nat
  label : String
deriving DecidableEq

/-- The conversion `static_cast<int>(x)` of a `uint32_t`. -/
def toInt32 (x : Nat) : Int :=
  if x % 4294967296 < 2147483648 then ((x % 4294967296 : Nat) : Int)
  else ((x % 4294967296 : Nat) : Int) - 4294967296

/-- The line that `addProcess` pushes for a process at a depth: the name comes after
`depth * 2` blanks. -/
def processLine (pid : Nat) (name : String) (cpuPercent : ℚ) (memoryBytes : Nat)
    (depth : Nat) : ProcessLine where
  pid := pid
  cpuPercent := cpuPercent
  memoryBytes := memoryBytes
  label := String.mk (List.replicate (depth * 2) ' ') ++ name

mutual
/-- The lambda `addProcess(proc, depth, count)` of `createProcessTreeWidget`.  The state is the
process lines pushed so far (after the two header lines) and the counter `count`, an `int` that
stays below `static_cast<int>(maxProcessDisplay)` before every increment. -/
def addProcess (config_ : Configuration) :
    ProcessNode → Nat → List ProcessLine × Int → List ProcessLine × Int
  | .mk pid _ name cpuPercent memoryBytes _ children, depth, st =>
    if st.2 ≥ toInt32 config_.maxProcessDisplay then st
    else if config_.expandTreeByDefault || depth == 0 then
      addProcessLoop config_ children (depth + 1)
        (st.1 ++ [processLine pid name cpuPercent memoryBytes depth], st.2 + 1)
    else (st.1 ++ [processLine pid name cpuPercent memoryBytes depth], st.2 + 1)
/-- The loops `for (child : proc.children) addProcess(*child, depth + 1, count)` and
`for (root : processes) addProcess(*root, 0, count)`. -/
def addProcessLoop (config_ : Configuration) :
    List ProcessNode → Nat → List ProcessLine × Int → List ProcessLine × Int
  | [], _, st => st
  | proc :: rest, depth, st => addProcessLoop config_ rest depth (addProcess config_ proc depth st)
end

/-- The process lines that `createProcessTreeWidget` renders for the forest `processes` that
`getProcessTree()` returned, below the two header lines. -/
def createProcessTreeWidget (config_ : Configuration) (processes : List ProcessNode) :
    List ProcessLine :=
  (addProcessLoop config_ processes 0 ([], 0)).1

/-! ## Threads and the mutex of an engine -/

/-- A thread of the program: the worker thread that `start()` creates for the loop of an engine
(`collectionThread_`, `enumerationThread_`), or a thread that calls the public member functions
of the engine. -/
inductive Thread where
  | worker
  | caller (id : Nat)
deriving DecidableEq

/-- What a member function does, step by step, to the published state of its engine
(`currentMetrics_`, `processRoots_`), of type `α`, and to the mutex that guards it
(`metricsMutex_`, `treeMutex_`): the constructor and the destructor of the `std::lock_guard`, a
copy of the published state, an assignment to the published state or to one of its fields. -/
inductive Access (α : Type) where
  | lock
  | unlock
  | load
  | store (assign : α → α)

/-- The published state of an engine and its mutex while several threads run calls (of type
`κ`): the holder of the mutex and, for every thread, the calls it has still to make, the first
of them with the accesses that are left of it.  For the record: the calls that are over, in the
order in which they ended, with their threads; the copies that were made, each with its thread
and with the calls that were over at that time; the threads that made an assignment; the
threads that made an access or released the mutex without holding it. -/
structure Machine (α κ : Type) where
  published : α
  owner : Option Thread
  pending : Thread → List (κ × List (Access α))
  completed : List (Thread × κ)
  loads : List (Thread × α × List (Thread × κ))
  stores : List Thread
  unguarded : List Thread

/-- The state when the engine has been constructed and every thread has its calls before it;
`accesses` are the accesses of a call, in order. -/
def Machine.start {α κ : Type} (init : α) (accesses : κ → List (Access α))
    (calls : Thread → List κ) : Machine α κ where
  published := init
  owner := none
  pending := fun t => (calls t).map (fun call => (call, accesses call))
  completed := []
  loads := []
  stores := []
  unguarded := []

/-- Thread `t` has made an access of `call`, `rest` are the accesses left of the call and `later`
the calls after it: with no access left the call is over. -/
def Machine.advance {α κ : Type} (m : Machine α κ) (t : Thread) (call : κ)
    (rest : List (Access α)) (later : List (κ × List (Access α))) : Machine α κ :=
  match rest with
  | [] => { m with pending := Function.update m.pending t later
                   completed := m.completed ++ [(t, call)] }
  | a :: as => { m with pending := Function.update m.pending t ((call, a :: as) :: later) }

/-- Thread `t` is scheduled and makes the next access of its current call (a call without
accesses is over at once).  A thread that wants the mutex while it is held stays where it
is. -/
def Machine.step {α κ : Type} (m : Machine α κ) (t : Thread) : Machine α κ :=
  match m.pending t with
  | [] => m
  | (call, []) :: later => m.advance t call [] later
  | (call, .lock :: rest) :: later =>
    if m.owner = none then
      Machine.advance { m with owner := some t } t call rest later
    else m
  | (call, .unlock :: rest) :: later =>
    Machine.advance
      { m with owner := none
               unguarded := if m.owner = some t then m.unguarded else m.unguarded ++ [t] }
      t call rest later
  | (call, .load :: rest) :: later =>
    Machine.advance
      { m with loads := m.loads ++ [(t, m.published, m.completed)]
               unguarded := if m.owner = some t then m.unguarded else m.unguarded ++ [t] }
      t call rest later
  | (call, .store assign :: rest) :: later =>
    Machine.advance
      { m with published := assign m.published, stores := m.stores ++ [t]
               unguarded := if m.owner = some t then m.unguarded else m.unguarded ++ [t] }
      t call rest later

/-- The threads are scheduled one after the other in the order of `schedule`. -/
def Machine.run {α κ : Type} (m : Machine α κ) (schedule : List Thread) : Machine α κ :=
  schedule.foldl Machine.step m

/-- The assignments of the merge block of a loop iteration, in the order of the source. -/
def mergeAccesses (newMetrics : SystemMetrics) : List (Access SystemMetrics) :=
  (if newMetrics.cpuUsagePercent > 0 then
      [.store (fun c => { c with cpuUsagePercent := newMetrics.cpuUsagePercent }),
       .store (fun c => { c with perCoreCpuUsage := newMetrics.perCoreCpuUsage })]
    else [])
  ++ (if newMetrics.totalMemoryBytes > 0 then
      [.store (fun c => { c with totalMemoryBytes := newMetrics.totalMemoryBytes }),
       .store (fun c => { c with usedMemoryBytes := newMetrics.usedMemoryBytes }),
       .store (fun c => { c with memoryUsagePercent := newMetrics.memoryUsagePercent })]
    else [])
  ++ [.store (fun c => { c with diskReadBytesPerSec := newMetrics.diskReadBytesPerSec }),
      .store (fun c => { c with diskWriteBytesPerSec := newMetrics.diskWriteBytesPerSec }),
      .store (fun c => { c with networkRecvBytesPerSec := newMetrics.networkRecvBytesPerSec }),
      .store (fun c => { c with networkSendBytesPerSec := newMetrics.networkSendBytesPerSec }),
      .store (fun c => { c with timestampMs := newMetrics.timestampMs })]

/-- What a thread can run of `SystemDataCollector` once the engine is started: an iteration of
`collectionLoop`, a call of `refresh()`, a call of `getMetrics()`.  The collection calls are made
before the mutex is taken; `updated` and `newMetrics` are what they left (the time stamp
included). -/
inductive MetricsCall where
  | collectionLoopIteration (updated : Bool) (newMetrics : SystemMetrics)
  | refresh (newMetrics : SystemMetrics)
  | getMetrics

/-- The accesses of a call to `currentMetrics_` and `metricsMutex_`, in the order of the source:
the block `if (updated) { lock_guard …; merge }`, the end of `collectAllMetrics`, the body of
`getMetrics`. -/
def MetricsCall.accesses : MetricsCall → List (Access SystemMetrics)
  | .collectionLoopIteration updated newMetrics =>
    if updated then .lock :: (mergeAccesses newMetrics ++ [.unlock]) else []
  | .refresh newMetrics => [.lock, .store (fun _ => newMetrics), .unlock]
  | .getMetrics => [.lock, .load, .unlock]

/-- A call of a public member function of `SystemDataCollector` that touches the published
snapshot; for `refresh()`, `newMetrics` is what the four collection calls of `collectAllMetrics`
left. -/
inductive MetricsRequest where
  | refresh (newMetrics : SystemMetrics)
  | getMetrics

/-- The call that a request is. -/
def MetricsRequest.call : MetricsRequest → MetricsCall
  | .refresh newMetrics => MetricsCall.refresh newMetrics
  | .getMetrics => MetricsCall.getMetrics

/-- What the threads run of a started `SystemDataCollector`.  The member `collectionLoop` is
private and `start()` hands it to the worker thread (`collectionThread_ =
std::thread(&SystemDataCollector::collectionLoop, this)`): the worker thread runs its
iterations, and nothing else.  The public member functions run on the thread of whoever calls
them: caller `id` makes the requests `requests id`. -/
def metricsCalls (iterations : List (Bool × SystemMetrics))
    (requests : Nat → List MetricsRequest) : Thread → List MetricsCall
  | .worker => iterations.map (fun i => MetricsCall.collectionLoopIteration i.1 i.2)
  | .caller id => (requests id).map MetricsRequest.call

/-- What a thread can run of `ProcessTreeBuilder` once the engine is started: an iteration of
`enumerationLoop`, which has enumerated and reconciled `forest` before it takes the mutex, or a
call of `getProcessTree()`, `refresh()` or `terminateProcess(pid)`. -/
inductive ProcessCall where
  | enumerationLoopIteration (forest : List ProcessNode)
  | getProcessTree
  | refresh
  | terminateProcess (pid : Nat)

/-- The accesses of a call to `processRoots_` (as the forest it owns) and `treeMutex_`. -/
def ProcessCall.accesses : ProcessCall → List (Access (List ProcessNode))
  | .enumerationLoopIteration forest => [.lock, .store (fun _ => forest), .unlock]
  | .getProcessTree => [.lock, .load, .unlock]
  | .refresh => []
  | .terminateProcess _ => []

/-- A call of a public member function of `ProcessTreeBuilder`. -/
inductive ProcessRequest where
  | getProcessTree
  | refresh
  | terminateProcess (pid : Nat)

/-- The call that a request is. -/
def ProcessRequest.call : ProcessRequest → ProcessCall
  | .getProcessTree => ProcessCall.getProcessTree
  | .refresh => ProcessCall.refresh
  | .terminateProcess pid => ProcessCall.terminateProcess pid

/-- What the threads run of a started `ProcessTreeBuilder`.  The member `enumerationLoop` is
private and `start()` hands it to the worker thread: the worker thread runs its iterations, and
nothing else; caller `id` makes the requests `requests id`. -/
def processCalls (forests : List (List ProcessNode))
    (requests : Nat → List ProcessRequest) : Thread → List ProcessCall
  | .worker => forests.map ProcessCall.enumerationLoopIteration
  | .caller id => (requests id).map ProcessRequest.call

/-! ## Definitions used to state and prove the properties -/

mutual
/-- The proper descendants of a node: its children, their children, and so on (pre-order). -/
def ProcessNode.descendants : ProcessNode → List ProcessNode
  | .mk _ _ _ _ _ _ children => descendantsOfForest children
/-- The nodes of a forest: every root followed by its descendants. -/
def descendantsOfForest : List ProcessNode → List ProcessNode
  | [] => []
  | root :: rest => root :: (root.descendants ++ descendantsOfForest rest)
end

/-- The 3-level chain root → A → B with CPU percents 5, 3, 2. -/
def chainB : ProcessNode := .mk 3 2 "B" 2 0 2 []
def chainA : ProcessNode := .mk 2 1 "A" 3 0 1 [chainB]
def chainRoot : ProcessNode := .mk 1 0 "root" 5 0 0 [chainA]

/-- The four metric categories, in the order in which an iteration handles them. -/
inductive Category where
  | cpu | memory | disk | network
deriving DecidableEq

/-- The collection call of a category. -/
def ISystemCollector.call {σ : Type} (src : ISystemCollector σ) :
    Category → σ × SystemMetrics → σ × SystemMetrics
  | .cpu, s => src.collectCPUMetrics s.1 s.2
  | .memory, s => src.collectMemoryMetrics s.1 s.2
  | .disk, s => src.collectDiskMetrics s.1 s.2
  | .network, s => src.collectNetworkMetrics s.1 s.2

/-- Make the given collection calls one after the other, starting from a collector state and a
snapshot. -/
def ISystemCollector.run {σ : Type} (src : ISystemCollector σ) (calls : List Category)
    (s : σ × SystemMetrics) : σ × SystemMetrics :=
  calls.foldl (fun acc c => src.call c acc) s

/-- A metric source without state whose every call writes the fields of its own category from a
fixed reading. -/
def fixedSource (reading : SystemMetrics) : ISystemCollector Unit where
  collectCPUMetrics := fun _ m =>
    ((), { m with cpuUsagePercent := reading.cpuUsagePercent
                  perCoreCpuUsage := reading.perCoreCpuUsage })
  collectMemoryMetrics := fun _ m =>
    ((), { m with totalMemoryBytes := reading.totalMemoryBytes
                  usedMemoryBytes := reading.usedMemoryBytes
                  memoryUsagePercent := reading.memoryUsagePercent })
  collectDiskMetrics := fun _ m =>
    ((), { m with diskReadBytesPerSec := reading.diskReadBytesPerSec
                  diskWriteBytesPerSec := reading.diskWriteBytesPerSec })
  collectNetworkMetrics := fun _ m =>
    ((), { m with networkRecvBytesPerSec := reading.networkRecvBytesPerSec
                  networkSendBytesPerSec := reading.networkSendBytesPerSec })

/-- The categories that are due in an iteration at time `now`: those whose elapsed time since the
last sample, in whole milliseconds, is at least the configured interval. -/
def dueCategories (config : Configuration) (now : Int) (locals : LoopLocals) : List Category :=
  (if elapsedMs now locals.lastCpuSample ≥ (config.cpuSampleIntervalMs : Int)
    then [Category.cpu] else [])
  ++ (if elapsedMs now locals.lastMemorySample ≥ (config.memorySampleIntervalMs : Int)
    then [Category.memory] else [])
  ++ (if elapsedMs now locals.lastDiskSample ≥ (config.diskSampleIntervalMs : Int)
    then [Category.disk] else [])
  ++ (if elapsedMs now locals.lastNetworkSample ≥ (config.networkSampleIntervalMs : Int)
    then [Category.network] else [])

/-- A collector that is configured with a CPU interval of 500 ms (all other settings default) and
has published disk and network rates. -/
def halfSecondCpu : SystemDataCollector Unit where
  config_ := { cpuSampleIntervalMs := 500 }
  collector_ := ()
  currentMetrics_ :=
    { cpuUsagePercent := 25, perCoreCpuUsage := [20, 30],
      diskReadBytesPerSec := 4096, diskWriteBytesPerSec := 2048,
      networkRecvBytesPerSec := 100, networkSendBytesPerSec := 200, timestampMs := 1000 }

/-- Every category but memory was last sampled 1000 ms after loop start (memory at loop start). -/
def sampledAtOneSecond : LoopLocals where
  lastCpuSample := 1000000000
  lastMemorySample := 0
  lastDiskSample := 1000000000
  lastNetworkSample := 1000000000

/-- A collector with the default configuration that has published CPU and memory readings. -/
def busyCollector : SystemDataCollector Unit where
  config_ := {}
  collector_ := ()
  currentMetrics_ :=
    { cpuUsagePercent := 50, perCoreCpuUsage := [40, 60],
      totalMemoryBytes := 8000, usedMemoryBytes := 4000, memoryUsagePercent := 50 }

/-- Every category was last sampled at loop start. -/
def sampledAtStart : LoopLocals where
  lastCpuSample := 0
  lastMemorySample := 0
  lastDiskSample := 0
  lastNetworkSample := 0

/-- Two objects that differ at most in their `parent` pointer. -/
def SameButParent (o o' : ProcessInfo) : Prop :=
  o'.pid = o.pid ∧ o'.parentPid = o.parentPid ∧ o'.name = o.name ∧
    o'.cpuPercent = o.cpuPercent ∧ o'.memoryBytes = o.memoryBytes ∧
    o'.creationTime = o.creationTime ∧ o'.children = o.children

/-- The parent that the first loop of `buildTree` accepts for `proc`: the object that the pid map
holds for `proc->parentPid`, if there is one, its pid is not that of `proc` and it was created
strictly earlier. -/
def acceptedParent (pidMap : PidMap) (heap : Heap) (proc : Nat) : Option Nat :=
  match pidMap (deref heap proc).parentPid with
  | some parent =>
    if (deref heap parent).pid ≠ (deref heap proc).pid
        ∧ (deref heap parent).creationTime < (deref heap proc).creationTime then
      some parent
    else none
  | none => none

/-- Follow the `parent` pointers upwards from `a`, at most `k` times, stopping at an object
without parent. -/
def followParents (heap : Heap) : Nat → Nat → Nat
  | 0, a => a
  | k + 1, a =>
    match (deref heap a).parent with
    | some p => followParents heap k p
    | none => a

/-- The records {pid=5, parentPid=10, t=100} and {pid=10, parentPid=0, t=150}, at addresses 0 and
1: pid 10 was reused after the parent of pid 5 exited. -/
def pidReuseHeap : Heap :=
  [{ pid := 5, parentPid := 10, creationTime := 100 },
   { pid := 10, parentPid := 0, creationTime := 150 }]

/-- The data fields of an object, without its links. -/
def ProcessInfo.data (o : ProcessInfo) : ProcessInfo :=
  { o with parent := none, children := [] }

/-- The data fields of a node of a forest, as an object without links. -/
def ProcessNode.info : ProcessNode → ProcessInfo
  | .mk pid parentPid name cpuPercent memoryBytes creationTime _ =>
    { pid := pid, parentPid := parentPid, name := name, cpuPercent := cpuPercent,
      memoryBytes := memoryBytes, creationTime := creationTime }

/-- The addresses of the subtree that the object at `a` owns, in pre-order, following the
`children` vectors at most `fuel` levels deep. -/
def subtreeAddrs (heap : Heap) : Nat → Nat → List Nat
  | 0, _ => []
  | fuel + 1, a => a :: (deref heap a).children.flatMap (subtreeAddrs heap fuel)

/-- The objects exactly `j` levels below the objects `as`. -/
def levelFrom (heap : Heap) : Nat → List Nat → List Nat
  | 0, as => as
  | j + 1, as => levelFrom heap j (as.flatMap (fun a => (deref heap a).children))

/-- Whether the chain of `parent` pointers from `a` has exactly `j` links. -/
def atDepth (heap : Heap) : Nat → Nat → Bool
  | 0, a => decide ((deref heap a).parent = none)
  | j + 1, a =>
    match (deref heap a).parent with
    | none => false
    | some p => atDepth heap j p

/-- The object `a` and its first `j` ancestors along the `parent` pointers. -/
def ancestors (heap : Heap) : Nat → Nat → List Nat
  | 0, a => [a]
  | j + 1, a =>
    a :: (match (deref heap a).parent with
          | none => []
          | some p => ancestors heap j p)

/-- What `buildTree` establishes for the vector `processes` it was given, the roots it leaves
and the heap: the roots are the elements without parent, the children of an element are the
elements whose parent it is (both in the order of the vector), and a parent is an element that
was created strictly earlier. -/
structure Reconciled (heap : Heap) (processes roots : List Nat) : Prop where
  nodup : processes.Nodup
  valid : ∀ a ∈ processes, a < heap.length
  roots_eq : roots = processes.filter (fun a => decide ((deref heap a).parent = none))
  children_eq : ∀ x ∈ processes, (deref heap x).children
    = processes.filter (fun a => decide ((deref heap a).parent = some x))
  parent_lt : ∀ a ∈ processes, ∀ p, (deref heap a).parent = some p →
    p ∈ processes ∧ (deref heap p).creationTime < (deref heap a).creationTime

/-- The records {pid 1, parent 0, t=0}, {pid 2, parent 1, t=1}, {pid 3, parent 1, t=2}, at
addresses 0, 1 and 2. -/
def scenarioHeap : Heap :=
  [{ pid := 1, parentPid := 0, creationTime := 0 },
   { pid := 2, parentPid := 1, creationTime := 1 },
   { pid := 3, parentPid := 1, creationTime := 2 }]

/-- The forest `[pid1[pid2[pid3]]]` of the records of `scenarioHeap`. -/
def scenarioChain : List ProcessNode :=
  [.mk 1 0 "" 0 0 0 [.mk 2 1 "" 0 0 1 [.mk 3 1 "" 0 0 2 []]]]

/-- The forest `[pid1[pid2, pid3]]` of the records of `scenarioHeap`. -/
def scenarioFan : List ProcessNode :=
  [.mk 1 0 "" 0 0 0 [.mk 2 1 "" 0 0 1 [], .mk 3 1 "" 0 0 2 []]]

/-- Two records that name each other as parent and were created at the same time, and one that
names itself. -/
def tangledHeap : Heap :=
  [{ pid := 1, parentPid := 2, creationTime := 7 },
   { pid := 2, parentPid := 1, creationTime := 7 },
   { pid := 3, parentPid := 3, creationTime := 9 }]

/-- An object without its `parent` pointer: its data fields and the children it owns. -/
def ProcessInfo.owned (o : ProcessInfo) : ProcessInfo :=
  { o with parent := none }

/-- Every object at an address from `lo` on has its children at later addresses, and each of
these children points back to it with `parent`. -/
def LinkedFrom (heap : Heap) (lo : Nat) : Prop :=
  ∀ x, lo ≤ x → x < heap.length → ∀ c ∈ (deref heap x).children,
    x < c ∧ c < heap.length ∧ (deref heap c).parent = some x

/-- What `deepCopy` of a subtree `t` leaves: the copy is the object that was allocated first, at
the old end of the heap; the objects that existed are untouched; the copy owns a subtree equal to
`t`, has no parent, and the allocated objects are linked among themselves. -/
def DeepCopied (fuel : Nat) (heap : Heap) (t : ProcessNode) (heap' : Heap) : Prop :=
  heap.length < heap'.length ∧
  (∀ x, x < heap.length → heap'[x]? = heap[x]?) ∧
  readTree heap' fuel heap.length = some t ∧
  (deref heap' heap.length).parent = none ∧
  LinkedFrom heap' heap.length

/-- The invariant of the loop over `source.children` in `deepCopy`: `heap0` is the heap when
`deepCopy` was entered, `s0` the copy as it was allocated, `ccs` the child copies pushed so far
and `ts` the subtrees they own. -/
def CopyLoopInv (fuel : Nat) (heap0 : Heap) (s0 : ProcessInfo) (h : Heap) (ccs : List Nat)
    (ts : List ProcessNode) : Prop :=
  heap0.length < h.length ∧
  (∀ x, x < heap0.length → h[x]? = heap0[x]?) ∧
  deref h heap0.length = { s0 with children := ccs } ∧
  readForest h fuel ccs = some ts ∧
  LinkedFrom h heap0.length

/-- The invariant of the loop over `processRoots_` in `getProcessTree`: `heap0` is the heap when
`getProcessTree` was entered, `copy` the vector built so far and `ts` the forest it owns. -/
def CopyRootsInv (fuel : Nat) (heap0 : Heap) (h : Heap) (copy : List Nat)
    (ts : List ProcessNode) : Prop :=
  heap0.length ≤ h.length ∧
  (∀ x, x < heap0.length → h[x]? = heap0[x]?) ∧
  readForest h fuel copy = some ts ∧
  (∀ r ∈ copy, heap0.length ≤ r ∧ r < h.length ∧ (deref h r).parent = none) ∧
  LinkedFrom h heap0.length

/-- A builder whose published forest is pid 1 with the children pid 2 and pid 3. -/
def scenarioBuilder : ProcessTreeBuilder where
  heap := (buildTree scenarioHeap [0, 1, 2]).1
  processRoots_ := (buildTree scenarioHeap [0, 1, 2]).2

/-- A parent with 2^64 - 1 bytes and one child with 2 bytes. -/
def wrappingParent : ProcessNode :=
  .mk 1 0 "parent" 0 18446744073709551615 0 [.mk 2 1 "child" 0 2 1 []]

/-- The tuple (pid, parentPid, name, cpuPercent, memoryBytes, creationTime) of an object. -/
def ProcessInfo.record (o : ProcessInfo) : Nat × Nat × String × ℚ × Nat × Nat :=
  (o.pid, o.parentPid, o.name, o.cpuPercent, o.memoryBytes, o.creationTime)

/-- The tuple (pid, parentPid, name, cpuPercent, memoryBytes, creationTime) of a forest node. -/
def ProcessNode.record (n : ProcessNode) : Nat × Nat × String × ℚ × Nat × Nat :=
  (n.pid, n.parentPid, n.name, n.cpuPercent, n.memoryBytes, n.creationTime)

/-- What happens to a started `SystemDataCollector`: an iteration of `collectionLoop` on the
worker thread, or a call of `refresh()` by a client. -/
inductive Event where
  | tick (now : Int) (wallMs : Nat)
  | refresh (wallMs : Nat)

/-- The effect of an event on the collector and on the local variables of `collectionLoop`.  The
locals are out of the scope of `refresh()`. -/
def step {σ : Type} (src : ISystemCollector σ) (s : SystemDataCollector σ × LoopLocals) :
    Event → SystemDataCollector σ × LoopLocals
  | .tick now wallMs => collectionLoopIteration src now wallMs s.1 s.2
  | .refresh wallMs => (refresh src wallMs s.1, s.2)

/-- The effect of a sequence of events. -/
def runEvents {σ : Type} (src : ISystemCollector σ) (s : SystemDataCollector σ × LoopLocals)
    (events : List Event) : SystemDataCollector σ × LoopLocals :=
  events.foldl (step src) s

/-- The percentages of a snapshot lie in [0, 100]. -/
def SystemMetrics.PercentagesInRange (m : SystemMetrics) : Prop :=
  (0 ≤ m.cpuUsagePercent ∧ m.cpuUsagePercent ≤ 100) ∧
  (∀ p ∈ m.perCoreCpuUsage, 0 ≤ p ∧ p ≤ 100) ∧
  (0 ≤ m.memoryUsagePercent ∧ m.memoryUsagePercent ≤ 100)

/-- A metric source whose every call fails softly: it returns without writing anything. -/
def failingSource : ISystemCollector Unit where
  collectCPUMetrics := fun _ m => ((), m)
  collectMemoryMetrics := fun _ m => ((), m)
  collectDiskMetrics := fun _ m => ((), m)
  collectNetworkMetrics := fun _ m => ((), m)

/-- A collector with the default configuration that has published readings of all four
categories. -/
def publishedAll : SystemDataCollector Unit where
  config_ := {}
  collector_ := ()
  currentMetrics_ :=
    { cpuUsagePercent := 25, perCoreCpuUsage := [20, 30],
      totalMemoryBytes := 8000, usedMemoryBytes := 4000, memoryUsagePercent := 50,
      diskReadBytesPerSec := 4096, diskWriteBytesPerSec := 2048,
      networkRecvBytesPerSec := 100, networkSendBytesPerSec := 200, timestampMs := 5000 }

/-- Every category was last sampled 5000 ms after loop start. -/
def sampledAtFiveSeconds : LoopLocals where
  lastCpuSample := 5000000000
  lastMemorySample := 5000000000
  lastDiskSample := 5000000000
  lastNetworkSample := 5000000000

/-- A metric source that writes only percentages in [0, 100]: no call takes a snapshot whose
percentages are in range to one whose percentages are not. -/
def WritesPercentagesInRange {σ : Type} (src : ISystemCollector σ) : Prop :=
  ∀ (c : Category) (s : σ) (m : SystemMetrics),
    m.PercentagesInRange → (src.call c (s, m)).2.PercentagesInRange

/-- A metric source whose CPU call always writes `k` per-core values and whose other calls leave
the CPU fields of the snapshot alone. -/
def WritesCores {σ : Type} (src : ISystemCollector σ) (k : Nat) : Prop :=
  (∀ (s : σ) (m : SystemMetrics), (src.collectCPUMetrics s m).2.perCoreCpuUsage.length = k) ∧
  (∀ (c : Category) (s : σ) (m : SystemMetrics), c ≠ Category.cpu →
    (src.call c (s, m)).2.cpuUsagePercent = m.cpuUsagePercent ∧
    (src.call c (s, m)).2.perCoreCpuUsage = m.perCoreCpuUsage)

/-- A collector that has published nothing yet. -/
def freshCollector : SystemDataCollector Unit where
  config_ := {}
  collector_ := ()
  currentMetrics_ := {}

/-- A process source that logs the pids it is asked to terminate and always answers
`answer`. -/
def loggingTerminate (answer : Bool) : List Nat → Nat → Bool × List Nat :=
  fun log pid => (answer, log ++ [pid])

/-- A metric source that logs the categories of the calls made to it and writes nothing. -/
def recordingSource : ISystemCollector (List Category) where
  collectCPUMetrics := fun log m => (log ++ [Category.cpu], m)
  collectMemoryMetrics := fun log m => (log ++ [Category.memory], m)
  collectDiskMetrics := fun log m => (log ++ [Category.disk], m)
  collectNetworkMetrics := fun log m => (log ++ [Category.network], m)

/-- The last-sample time that `collectionLoop` keeps for a category. -/
def LoopLocals.lastSample (locals : LoopLocals) : Category → Int
  | .cpu => locals.lastCpuSample
  | .memory => locals.lastMemorySample
  | .disk => locals.lastDiskSample
  | .network => locals.lastNetworkSample

/-- The configured sampling interval of a category, in milliseconds. -/
def Configuration.sampleIntervalMs (config : Configuration) : Category → Nat
  | .cpu => config.cpuSampleIntervalMs
  | .memory => config.memorySampleIntervalMs
  | .disk => config.diskSampleIntervalMs
  | .network => config.networkSampleIntervalMs

/-- The locals of `collectionLoop` when the loop is entered at time `start`: every last-sample
time is the loop start. -/
def LoopLocals.atStart (start : Int) : LoopLocals where
  lastCpuSample := start
  lastMemorySample := start
  lastDiskSample := start
  lastNetworkSample := start

/-- The iterations of the loop when they happen exactly every 100 ms from loop start:
iteration `j` at `start + j * 100 ms`, for `j = 0, …, n`. -/
def regularTicks (start : Int) (n : Nat) : List Event :=
  (List.range (n + 1)).map
    (fun j : Nat => Event.tick (start + (j : Int) * 100000000) (j * 100))

/-- The collector and the locals after the iterations `0, …, n` of a loop that was entered at
time `start`, on the source that logs its calls. -/
def afterTicks (config : Configuration) (start : Int) (n : Nat) :
    SystemDataCollector (List Category) × LoopLocals :=
  runEvents recordingSource
    ({ config_ := config, collector_ := [], currentMetrics_ := {} }, LoopLocals.atStart start)
    (regularTicks start n)

/-- The number of times a category has been sampled within `T` milliseconds of loop start: the
number of its collection calls in the iterations that happen up to `T`. -/
def samplesWithin (config : Configuration) (start : Int) (T : Nat) (c : Category) : Nat :=
  (afterTicks config start (T / 100)).1.collector_.count c

/-- The decimal digits of `n`, most significant first, put in front of `acc`; `fuel` bounds the
number of digits. -/
def decimalDigitsAux : Nat → Nat → List Char → List Char
  | 0, _, acc => acc
  | fuel + 1, n, acc =>
    if n < 10 then Nat.digitChar n :: acc
    else decimalDigitsAux fuel (n / 10) (Nat.digitChar (n % 10) :: acc)

/-- The decimal digits of a natural number, most significant first (`0` for zero). -/
def decimalDigits (n : Nat) : List Char := decimalDigitsAux (n + 1) n []

/-- The decimal text of an integer: a minus sign for a negative number, then the digits of the
absolute value, without leading zeros. -/
def decimal (v : Int) : String :=
  String.mk (if v < 0 then '-' :: decimalDigits v.natAbs else decimalDigits v.natAbs)

/-- Two families whose records come interleaved: pid 10 and its child pid 11, pid 20 and its
children pid 21 and pid 22, at addresses 0 to 4. -/
def interleavedHeap : Heap :=
  [{ pid := 10, parentPid := 0, memoryBytes := 100, creationTime := 1 },
   { pid := 20, parentPid := 0, memoryBytes := 200, creationTime := 2 },
   { pid := 21, parentPid := 20, memoryBytes := 30, creationTime := 5 },
   { pid := 11, parentPid := 10, memoryBytes := 40, creationTime := 6 },
   { pid := 22, parentPid := 20, memoryBytes := 50, creationTime := 7 }]

/-- The fields of a category are the same in two snapshots. -/
def SystemMetrics.SameFields (m m' : SystemMetrics) : Category → Prop
  | .cpu => m.cpuUsagePercent = m'.cpuUsagePercent ∧ m.perCoreCpuUsage = m'.perCoreCpuUsage
  | .memory => m.totalMemoryBytes = m'.totalMemoryBytes ∧
      m.usedMemoryBytes = m'.usedMemoryBytes ∧ m.memoryUsagePercent = m'.memoryUsagePercent
  | .disk => m.diskReadBytesPerSec = m'.diskReadBytesPerSec ∧
      m.diskWriteBytesPerSec = m'.diskWriteBytesPerSec
  | .network => m.networkRecvBytesPerSec = m'.networkRecvBytesPerSec ∧
      m.networkSendBytesPerSec = m'.networkSendBytesPerSec

/-- The fields of a category have the values of a default-constructed `SystemMetrics`: zero, and
no per-core values. -/
def SystemMetrics.ZeroInitialised (m : SystemMetrics) (c : Category) : Prop :=
  m.SameFields {} c

/-- A metric source whose every call leaves the fields of the other categories alone, as the
three platform collectors do. -/
def WritesOwnFields {σ : Type} (src : ISystemCollector σ) : Prop :=
  ∀ (c c' : Category), c ≠ c' → ∀ (s : σ) (m : SystemMetrics),
    (src.call c (s, m)).2.SameFields m c'

/-- A metric source together with a log of the categories of the calls made to it. -/
def ISystemCollector.logged {σ : Type} (src : ISystemCollector σ) :
    ISystemCollector (σ × List Category) where
  collectCPUMetrics := fun s m =>
    (((src.collectCPUMetrics s.1 m).1, s.2 ++ [Category.cpu]), (src.collectCPUMetrics s.1 m).2)
  collectMemoryMetrics := fun s m =>
    (((src.collectMemoryMetrics s.1 m).1, s.2 ++ [Category.memory]),
      (src.collectMemoryMetrics s.1 m).2)
  collectDiskMetrics := fun s m =>
    (((src.collectDiskMetrics s.1 m).1, s.2 ++ [Category.disk]),
      (src.collectDiskMetrics s.1 m).2)
  collectNetworkMetrics := fun s m =>
    (((src.collectNetworkMetrics s.1 m).1, s.2 ++ [Category.network]),
      (src.collectNetworkMetrics s.1 m).2)

/-- The iterations of the loop at the given `steady_clock` and `system_clock` readings. -/
def ticksAt (times : List (Int × Nat)) : List Event :=
  times.map (fun t => Event.tick t.1 t.2)

/-- A reading of 50 % CPU on two cores and 4000 of 8000 bytes of memory in use. -/
def steadyReading : SystemMetrics where
  cpuUsagePercent := 50
  perCoreCpuUsage := [45, 55]
  totalMemoryBytes := 8000
  usedMemoryBytes := 4000
  memoryUsagePercent := 50

mutual
/-- A node and its descendants in pre-order, each with its depth, the node being at `depth`. -/
def ProcessNode.withDepth : ProcessNode → Nat → List (ProcessNode × Nat)
  | .mk pid parentPid name cpuPercent memoryBytes creationTime children, depth =>
    (.mk pid parentPid name cpuPercent memoryBytes creationTime children, depth)
      :: forestWithDepth children (depth + 1)
/-- The nodes of a forest in pre-order, each with its depth, the roots being at `depth`. -/
def forestWithDepth : List ProcessNode → Nat → List (ProcessNode × Nat)
  | [], _ => []
  | root :: rest, depth => root.withDepth depth ++ forestWithDepth rest depth
end

/-- The visible nodes of a forest, in pre-order, each with its depth: all nodes when the tree is
expanded, otherwise the roots and their direct children. -/
def visibleNodes (expandTree : Bool) (forest : List ProcessNode) : List (ProcessNode × Nat) :=
  if expandTree then forestWithDepth forest 0
  else forest.flatMap (fun root => (root, 0) :: root.children.map (fun child => (child, 1)))

/-- The process line of a node at a depth. -/
def lineOf (node : ProcessNode × Nat) : ProcessLine :=
  processLine node.1.pid node.1.name node.1.cpuPercent node.1.memoryBytes node.2

mutual
/-- The nodes that `addProcess` visits from a node at `depth` when no limit stops it, each with
its depth. -/
def visited (expandTree : Bool) : ProcessNode → Nat → List (ProcessNode × Nat)
  | .mk pid parentPid name cpuPercent memoryBytes creationTime children, depth =>
    (.mk pid parentPid name cpuPercent memoryBytes creationTime children, depth)
      :: (if expandTree || depth == 0 then visitedLoop expandTree children (depth + 1) else [])
/-- The nodes that the loop over a vector visits when no limit stops it. -/
def visitedLoop (expandTree : Bool) : List ProcessNode → Nat → List (ProcessNode × Nat)
  | [], _ => []
  | proc :: rest, depth => visited expandTree proc depth ++ visitedLoop expandTree rest depth
end

/-- A forest of five processes: pid 1 with children pid 2 (which has the child pid 3) and pid 4,
and pid 5. -/
def widgetForest : List ProcessNode :=
  [.mk 1 0 "init" 1 10 0 [.mk 2 1 "shell" 2 20 1 [.mk 3 2 "job" 3 30 2 []],
                            .mk 4 1 "daemon" 4 40 3 []],
   .mk 5 0 "kernel" 5 50 0 []]

/-- The loop `for (child : children) total += child->…()` on the heap: `callee` is the recursive
call, without a result when the recursion is cut off, `add` is the addition of the type of
`total`. -/
def totalLoopOn {α : Type} (callee : Nat → Option α) (add : α → α → α) :
    List Nat → α → Option α
  | [], total => some total
  | child :: rest, total =>
    match callee child with
    | none => none
    | some value => totalLoopOn callee add rest (add total value)

/-- The member function `getTotalCpuWithChildren` called on the object at address `a`, following
the pointers in `children` at most `fuel` levels deep: `none` when an address is dangling or the
recursion is deeper than `fuel`. -/
def totalCpuOn (heap : Heap) : Nat → Nat → Option ℚ
  | 0, _ => none
  | fuel + 1, a =>
    match heap[a]? with
    | none => none
    | some o => totalLoopOn (totalCpuOn heap fuel) (fun x y => x + y) o.children o.cpuPercent

/-- The member function `getTotalMemoryWithChildren` called on the object at address `a`,
following the pointers in `children` at most `fuel` levels deep. -/
def totalMemoryOn (heap : Heap) : Nat → Nat → Option Nat
  | 0, _ => none
  | fuel + 1, a =>
    match heap[a]? with
    | none => none
    | some o =>
      totalLoopOn (totalMemoryOn heap fuel) (fun x y => (x + y) % 2 ^ 64) o.children
        o.memoryBytes

/-- The effect of a list of accesses on the published state: the assignments, in order. -/
def applyStores {α : Type} : List (Access α) → α → α
  | [], v => v
  | .store assign :: rest, v => applyStores rest (assign v)
  | .lock :: rest, v => applyStores rest v
  | .unlock :: rest, v => applyStores rest v
  | .load :: rest, v => applyStores rest v

/-- The effect of a whole call on `currentMetrics_`, as the functions `publish` and
`collectAllMetrics` have it. -/
def MetricsCall.effect : MetricsCall → SystemMetrics → SystemMetrics
  | .collectionLoopIteration updated newMetrics, current =>
    if updated then mergeMetrics current newMetrics else current
  | .refresh newMetrics, _ => newMetrics
  | .getMetrics, current => current

/-- The effect of a whole call on the published forest. -/
def ProcessCall.effect : ProcessCall → List ProcessNode → List ProcessNode
  | .enumerationLoopIteration forest, _ => forest
  | _, current => current

/-- The published state after the calls of `history` have been made one after the other, each
as a whole, from the initial state. -/
def sequentially {α κ : Type} (effect : κ → α → α) (init : α) (history : List (Thread × κ)) :
    α :=
  history.foldl (fun current e => effect e.2 current) init

/-- The calls of thread `t` in a history, in order. -/
def callsOf {κ : Type} (t : Thread) (history : List (Thread × κ)) : List κ :=
  (history.filter (fun e => decide (e.1 = t))).map Prod.snd

/-- The accesses between taking and releasing the mutex: only copies, or only assignments. -/
def CriticalSection {α : Type} (body : List (Access α)) : Prop :=
  (∀ a ∈ body, a = Access.load) ∨ (∀ a ∈ body, ∃ assign, a = Access.store assign)

/-- The accesses of a call are nothing, or one critical section that has the effect of the
call. -/
def Bracketed {α : Type} (accesses : List (Access α)) (effect : α → α) : Prop :=
  (accesses = [] ∧ ∀ v, effect v = v) ∨
  ∃ body, accesses = Access.lock :: (body ++ [Access.unlock]) ∧ CriticalSection body ∧
    ∀ v, applyStores body v = effect v

/-- The invariant of a run of threads whose calls are critical sections.  When the mutex is
free, the published state is that of the calls that are over, made one after the other.  A
thread that does not hold the mutex has whole calls before it.  The thread that holds the
mutex is in the critical section of its current call, and what is left of it completes the
effect of the call on the state of the calls that are over; as long as it only copies, the
published state is that state.  Every copy is the state of the calls that were over when it
was made.  The calls of a thread that are over and those it has still to make are its calls. -/
structure Disciplined {α κ : Type} (accesses : κ → List (Access α)) (effect : κ → α → α)
    (init : α) (calls : Thread → List κ) (m : Machine α κ) : Prop where
  free : m.owner = none → m.published = sequentially effect init m.completed
  outside : ∀ t, m.owner ≠ some t → ∀ e ∈ m.pending t, e.2 = accesses e.1
  inside : ∀ t, m.owner = some t → ∃ call body later,
    m.pending t = (call, body ++ [Access.unlock]) :: later ∧ CriticalSection body ∧
    (∀ a ∈ body, a ∈ accesses call) ∧
    applyStores body m.published = effect call (sequentially effect init m.completed) ∧
    (body ≠ [] → (∀ a ∈ body, a = Access.load) →
      m.published = sequentially effect init m.completed) ∧
    ∀ e ∈ later, e.2 = accesses e.1
  loads : ∀ e ∈ m.loads, e.2.1 = sequentially effect init e.2.2 ∧ e.2.2 <+: m.completed ∧
    ∃ call ∈ calls e.1, Access.load ∈ accesses call
  stores : ∀ t ∈ m.stores, ∃ call ∈ calls t, ∃ assign, Access.store assign ∈ accesses call
  unguarded : m.unguarded = []
  conform : ∀ t, callsOf t m.completed ++ (m.pending t).map Prod.fst = calls t

/-- The run of a started metric engine: the worker thread runs the given iterations of
`collectionLoop`, the callers make the given requests, the threads are scheduled in the order of
`schedule`. -/
def metricsRun (init : SystemMetrics) (iterations : List (Bool × SystemMetrics))
    (requests : Nat → List MetricsRequest) (schedule : List Thread) :
    Machine SystemMetrics MetricsCall :=
  (Machine.start init MetricsCall.accesses (metricsCalls iterations requests)).run schedule

/-- The run of a started process engine: the worker thread runs iterations of `enumerationLoop`
that publish the given forests, the callers make the given requests. -/
def processRun (init : List ProcessNode) (forests : List (List ProcessNode))
    (requests : Nat → List ProcessRequest) (schedule : List Thread) :
    Machine (List ProcessNode) ProcessCall :=
  (Machine.start init ProcessCall.accesses (processCalls forests requests)).run schedule

/-- Caller 0 calls `refresh()`, which has collected a reading of 50 % CPU; nobody else calls
anything. -/
def refreshRequest : Nat → List MetricsRequest
  | 0 => [MetricsRequest.refresh steadyReading]
  | _ => []

/-- The iterations of the worker in the busy run: two that publish, with time stamps 1 and 2. -/
def busyIterations : List (Bool × SystemMetrics) :=
  [(true, { steadyReading with timestampMs := 1 }),
   (true, { steadyReading with timestampMs := 2 })]

/-- The requests of the callers in the busy run: caller 0 calls `getMetrics()` twice, caller 1
calls `refresh()` (time stamp 7) and `getMetrics()`. -/
def busyRequests : Nat → List MetricsRequest
  | 0 => [MetricsRequest.getMetrics, MetricsRequest.getMetrics]
  | 1 => [MetricsRequest.refresh { steadyReading with timestampMs := 7 },
          MetricsRequest.getMetrics]
  | _ => []

/-- The requests of the callers of the process engine in the busy run: caller 0 calls
`refresh()`, `getProcessTree()` and `terminateProcess(3)`. -/
def busyProcessRequests : Nat → List ProcessRequest
  | 0 => [ProcessRequest.refresh, ProcessRequest.getProcessTree,
          ProcessRequest.terminateProcess 3]
  | _ => []

/-- A schedule in which the worker is interrupted in the middle of its first merge by the two
callers, who have to wait for the mutex; caller 0 then copies the snapshot between the two
iterations, the worker is interrupted again in its second merge, caller 1 refreshes, and both
callers copy the snapshot. -/
def busySchedule : List Thread :=
  [.worker, .worker, .worker, .caller 0, .caller 1, .caller 0]
    ++ List.replicate 9 .worker
    ++ [.caller 0, .caller 0, .caller 0]
    ++ List.replicate 5 .worker
    ++ [.caller 1, .caller 0]
    ++ List.replicate 7 .worker
    ++ [.caller 1, .caller 1, .caller 1, .caller 0, .caller 0, .caller 0,
        .caller 1, .caller 1, .caller 1]

/-- The heap after the objects at the addresses `freed` have been deleted.  A deleted object is
gone and its storage may be used again, so what is found at its address afterwards is arbitrary:
it is `garbage`. -/
def deleteObjects (garbage : Nat → ProcessInfo) (freed : List Nat) (heap : Heap) : Heap :=
  heap.mapIdx (fun x o => if x ∈ freed then garbage x else o)

/-- What an iteration of `enumerationLoop` gets from outside: the objects that
`enumerateProcesses()` allocated, what is found afterwards at the addresses of the objects that
the iteration deletes, and the number of levels to which the destructors recurse (in the source
they recurse through the whole forest: `levels` is then at least its depth). -/
structure Enumeration where
  enumerated : List ProcessInfo
  garbage : Nat → ProcessInfo
  levels : Nat

/-- One iteration of the `while (running_)` loop of `enumerationLoop`, up to the sleep.  After
`enumerateProcesses()` and `buildTree(processes)`, the move assignment
`processRoots_ = std::move(processes)` destroys the `unique_ptr`s that `processRoots_` held: each
deletes its object, whose destructor destroys its `children` in turn, so that every object owned
by the forest published before (`subtreeAddrs`) is deleted. -/
def enumerationLoopIteration (self : ProcessTreeBuilder) (e : Enumeration) :
    ProcessTreeBuilder where
  heap := deleteObjects e.garbage
    (self.processRoots_.flatMap
      (subtreeAddrs (enumerationCycle self e.enumerated).heap e.levels))
    (enumerationCycle self e.enumerated).heap
  processRoots_ := (enumerationCycle self e.enumerated).processRoots_

/-- The objects at the addresses from `lo` up to `hi` are those of `snapshot`, and the published
forest of the builder stays clear of them: its roots are in a set of objects of the heap,
outside these addresses, that is closed under `children`. -/
structure Apart (lo hi : Nat) (snapshot : Heap) (s : ProcessTreeBuilder) : Prop where
  length_le : hi ≤ s.heap.length
  snapshot_eq : ∀ x, lo ≤ x → x < hi → s.heap[x]? = snapshot[x]?
  live : ∃ S : Nat → Prop, (∀ r ∈ s.processRoots_, S r) ∧
    ∀ x, S x → x < s.heap.length ∧ ¬ (lo ≤ x ∧ x < hi) ∧ ∀ c ∈ (deref s.heap x).children, S c

/-- What is found at the address of a deleted object in the scenarios: an object with pid 999
whose only child is at address `x + 3`. -/
def scenarioGarbage (x : Nat) : ProcessInfo :=
  { pid := 999, children := [x + 3] }

/-- Two later iterations: one that enumerates the records of `pidReuseHeap`, one that enumerates
nothing. -/
def scenarioCycles : List Enumeration :=
  [{ enumerated := pidReuseHeap, garbage := scenarioGarbage, levels := 3 },
   { enumerated := [], garbage := scenarioGarbage, levels := 3 }]

/-! ## Theorems -/

/-! ### Heap operations -/

theorem deref_modify (f : ProcessInfo → ProcessInfo) (heap : Heap) (a x : Nat) :
    deref (List.modify f a heap) x
      = if a = x ∧ x < heap.length then f (deref heap x) else deref heap x := by
  unfold deref
  rw [List.getD_eq_getElem?_getD, List.getD_eq_getElem?_getD, List.getElem?_modify]
  by_cases hx : x < heap.length
  · rw [List.getElem?_eq_getElem hx]
    by_cases hax : a = x <;> simp [hax, hx]
  · rw [List.getElem?_eq_none (by omega)]
    simp [hx]

theorem deref_of_lt {heap : Heap} {a : Nat} (h : a < heap.length) :
    heap[a]? = some (deref heap a) := by
  unfold deref
  rw [List.getD_eq_getElem?_getD, List.getElem?_eq_getElem h]
  rfl

theorem deref_of_le {heap : Heap} {a : Nat} (h : heap.length ≤ a) : deref heap a = {} := by
  unfold deref
  rw [List.getD_eq_getElem?_getD, List.getElem?_eq_none h]
  rfl

@[simp] theorem length_setParent (heap : Heap) (a : Nat) (q : Option Nat) :
    (setParent heap a q).length = heap.length := by
  simp [setParent]

@[simp] theorem length_pushChild (heap : Heap) (p c : Nat) :
    (pushChild heap p c).length = heap.length := by
  simp [pushChild]

theorem deref_setParent (heap : Heap) (a : Nat) (q : Option Nat) (x : Nat) :
    deref (setParent heap a q) x
      = if a = x ∧ x < heap.length then { deref heap x with parent := q } else deref heap x := by
  simp [setParent, deref_modify]

theorem deref_pushChild (heap : Heap) (p c x : Nat) :
    deref (pushChild heap p c) x
      = if p = x ∧ x < heap.length then
          { deref heap x with children := (deref heap x).children ++ [c] }
        else deref heap x := by
  simp [pushChild, deref_modify]

theorem SameButParent.refl (o : ProcessInfo) : SameButParent o o :=
  ⟨rfl, rfl, rfl, rfl, rfl, rfl, rfl⟩

theorem SameButParent.trans {o₁ o₂ o₃ : ProcessInfo} (h : SameButParent o₁ o₂)
    (h' : SameButParent o₂ o₃) : SameButParent o₁ o₃ := by
  obtain ⟨a1, a2, a3, a4, a5, a6, a7⟩ := h
  obtain ⟨b1, b2, b3, b4, b5, b6, b7⟩ := h'
  exact ⟨b1.trans a1, b2.trans a2, b3.trans a3, b4.trans a4, b5.trans a5, b6.trans a6,
    b7.trans a7⟩

theorem sameButParent_setParent (heap : Heap) (a : Nat) (q : Option Nat) (x : Nat) :
    SameButParent (deref heap x) (deref (setParent heap a q) x) := by
  rw [deref_setParent]
  split
  · exact ⟨rfl, rfl, rfl, rfl, rfl, rfl, rfl⟩
  · exact SameButParent.refl _

/-! ### The pid map -/

theorem buildPidMap_some (heap : Heap) :
    ∀ (processes : List Nat) (m : PidMap) (k a : Nat),
      buildPidMap heap processes m k = some a →
        m k = some a ∨ (a ∈ processes ∧ (deref heap a).pid = k)
  | [], m, k, a, h => Or.inl h
  | proc :: rest, m, k, a, h => by
    rw [buildPidMap] at h
    rcases buildPidMap_some heap rest _ k a h with h1 | ⟨h1, h2⟩
    · unfold PidMap.assign at h1
      split at h1
      · rename_i hk
        right
        simp only [Option.some.injEq] at h1
        subst h1
        exact ⟨List.mem_cons_self _ _, hk.symm⟩
      · exact Or.inl h1
    · exact Or.inr ⟨List.mem_cons_of_mem _ h1, h2⟩

theorem buildPidMap_of_not_mem (heap : Heap) :
    ∀ (processes : List Nat) (m : PidMap) (k : Nat),
      (∀ a ∈ processes, (deref heap a).pid ≠ k) → buildPidMap heap processes m k = m k
  | [], _, _, _ => rfl
  | proc :: rest, m, k, h => by
    rw [buildPidMap, buildPidMap_of_not_mem heap rest _ k
      (fun a ha => h a (List.mem_cons_of_mem _ ha))]
    unfold PidMap.assign
    rw [if_neg]
    exact fun hk => h proc (List.mem_cons_self _ _) hk.symm

/-- With pairwise distinct pids the map sends the pid of every element to that element. -/
theorem buildPidMap_of_mem (heap : Heap) :
    ∀ (processes : List Nat) (m : PidMap) (a : Nat),
      (processes.map (fun x => (deref heap x).pid)).Nodup → a ∈ processes →
        buildPidMap heap processes m (deref heap a).pid = some a
  | proc :: rest, m, a, hnd, ha => by
    rw [List.map_cons, List.nodup_cons] at hnd
    rw [buildPidMap]
    rcases List.mem_cons.1 ha with rfl | ha'
    · rw [buildPidMap_of_not_mem]
      · simp [PidMap.assign]
      · intro b hb hpid
        exact hnd.1 (List.mem_map.2 ⟨b, hb, hpid⟩)
    · exact buildPidMap_of_mem heap rest _ a hnd.2 ha'

/-! ### The first loop of `buildTree` -/

theorem linkParent_eq (pidMap : PidMap) (heap : Heap) (proc : Nat) :
    linkParent pidMap heap proc = setParent heap proc (acceptedParent pidMap heap proc) := by
  unfold linkParent acceptedParent
  split
  · split_ifs <;> simp_all
  · rfl

theorem acceptedParent_congr (pidMap : PidMap) (heap heap' : Heap)
    (h : ∀ x, SameButParent (deref heap x) (deref heap' x)) (proc : Nat) :
    acceptedParent pidMap heap' proc = acceptedParent pidMap heap proc := by
  unfold acceptedParent
  rw [(h proc).2.1, (h proc).1]
  split
  · rename_i parent _
    rw [(h parent).1, (h parent).2.2.2.2.2.1, (h proc).2.2.2.2.2.1]
  · rfl

theorem length_firstPass (pidMap : PidMap) :
    ∀ (processes : List Nat) (heap : Heap),
      (firstPass pidMap heap processes).length = heap.length
  | [], _ => rfl
  | proc :: rest, heap => by
    show (firstPass pidMap (linkParent pidMap heap proc) rest).length = _
    rw [length_firstPass pidMap rest, linkParent_eq, length_setParent]

theorem sameButParent_firstPass (pidMap : PidMap) :
    ∀ (processes : List Nat) (heap : Heap) (x : Nat),
      SameButParent (deref heap x) (deref (firstPass pidMap heap processes) x)
  | [], _, _ => SameButParent.refl _
  | proc :: rest, heap, x => by
    show SameButParent _ (deref (firstPass pidMap (linkParent pidMap heap proc) rest) x)
    refine SameButParent.trans ?_ (sameButParent_firstPass pidMap rest _ x)
    rw [linkParent_eq]
    exact sameButParent_setParent _ _ _ _

/-- After the first loop the `parent` of an element of the vector is its accepted parent, and the
`parent` of any other object is what it was. -/
theorem parent_firstPass (pidMap : PidMap) :
    ∀ (processes : List Nat) (heap : Heap) (x : Nat),
      (deref (firstPass pidMap heap processes) x).parent
        = if x ∈ processes ∧ x < heap.length then acceptedParent pidMap heap x
          else (deref heap x).parent
  | [], _, _ => by simp [firstPass]
  | proc :: rest, heap, x => by
    show (deref (firstPass pidMap (linkParent pidMap heap proc) rest) x).parent = _
    rw [parent_firstPass pidMap rest, linkParent_eq, length_setParent,
      acceptedParent_congr pidMap heap _ (fun y => sameButParent_setParent heap proc _ y),
      deref_setParent]
    by_cases hx : x < heap.length
    · by_cases hr : x ∈ rest
      · simp [hx, hr]
      · by_cases hp : proc = x
        · subst hp; simp [hx, hr]
        · have hp' : ¬ x = proc := fun h => hp h.symm
          simp [hx, hr, hp, hp']
    · simp [hx]

theorem acceptedParent_some {pidMap : PidMap} {heap : Heap} {proc p : Nat}
    (h : acceptedParent pidMap heap proc = some p) :
    pidMap (deref heap proc).parentPid = some p ∧ (deref heap p).pid ≠ (deref heap proc).pid ∧
      (deref heap p).creationTime < (deref heap proc).creationTime := by
  unfold acceptedParent at h
  split at h
  · rename_i parent hm
    split at h
    · rename_i hc
      simp only [Option.some.injEq] at h
      subst h
      exact ⟨hm, hc.1, hc.2⟩
    · simp at h
  · simp at h

theorem acceptedParent_eq_some_iff {pidMap : PidMap} {heap : Heap} {proc p : Nat} :
    acceptedParent pidMap heap proc = some p ↔
      pidMap (deref heap proc).parentPid = some p ∧
        (deref heap p).pid ≠ (deref heap proc).pid ∧
        (deref heap p).creationTime < (deref heap proc).creationTime := by
  refine ⟨acceptedParent_some, fun ⟨h1, h2, h3⟩ => ?_⟩
  unfold acceptedParent
  rw [h1]
  simp [h2, h3]

/-! ### The second loop of `buildTree` -/

theorem sameButChildren_pushChild (heap : Heap) (p c x : Nat) :
    (deref (pushChild heap p c) x).parent = (deref heap x).parent ∧
    (deref (pushChild heap p c) x).pid = (deref heap x).pid ∧
    (deref (pushChild heap p c) x).parentPid = (deref heap x).parentPid ∧
    (deref (pushChild heap p c) x).name = (deref heap x).name ∧
    (deref (pushChild heap p c) x).cpuPercent = (deref heap x).cpuPercent ∧
    (deref (pushChild heap p c) x).memoryBytes = (deref heap x).memoryBytes ∧
    (deref (pushChild heap p c) x).creationTime = (deref heap x).creationTime := by
  rw [deref_pushChild]
  split <;> simp

theorem length_secondPass :
    ∀ (processes : List Nat) (heap : Heap), (secondPass heap processes).1.length = heap.length
  | [], _ => rfl
  | it :: rest, heap => by
    rw [secondPass]
    split
    · rw [length_secondPass rest, length_pushChild]
    · exact length_secondPass rest heap

/-- The second loop changes nothing but `children` vectors. -/
theorem sameButChildren_secondPass :
    ∀ (processes : List Nat) (heap : Heap) (x : Nat),
      (deref (secondPass heap processes).1 x).parent = (deref heap x).parent ∧
      (deref (secondPass heap processes).1 x).pid = (deref heap x).pid ∧
      (deref (secondPass heap processes).1 x).parentPid = (deref heap x).parentPid ∧
      (deref (secondPass heap processes).1 x).name = (deref heap x).name ∧
      (deref (secondPass heap processes).1 x).cpuPercent = (deref heap x).cpuPercent ∧
      (deref (secondPass heap processes).1 x).memoryBytes = (deref heap x).memoryBytes ∧
      (deref (secondPass heap processes).1 x).creationTime = (deref heap x).creationTime
  | [], _, _ => ⟨rfl, rfl, rfl, rfl, rfl, rfl, rfl⟩
  | it :: rest, heap, x => by
    rw [secondPass]
    split
    · rename_i parent _
      obtain ⟨a1, a2, a3, a4, a5, a6, a7⟩ := sameButChildren_secondPass rest
        (pushChild heap parent it) x
      obtain ⟨b1, b2, b3, b4, b5, b6, b7⟩ := sameButChildren_pushChild heap parent it x
      exact ⟨a1.trans b1, a2.trans b2, a3.trans b3, a4.trans b4, a5.trans b5, a6.trans b6,
        a7.trans b7⟩
    · exact sameButChildren_secondPass rest heap x

/-- What remains in the vector after the second loop: the elements without parent, in order. -/
theorem roots_secondPass :
    ∀ (processes : List Nat) (heap : Heap),
      (secondPass heap processes).2
        = processes.filter (fun a => decide ((deref heap a).parent = none))
  | [], _ => rfl
  | it :: rest, heap => by
    rw [secondPass]
    split
    · rename_i parent hp
      rw [roots_secondPass rest, List.filter_cons_of_neg (by simp [hp])]
      congr 1
      funext a
      rw [(sameButChildren_pushChild heap parent it a).1]
    · rename_i hp
      show it :: (secondPass heap rest).2 = _
      rw [roots_secondPass rest, List.filter_cons_of_pos (by simp [hp])]

/-- The `children` of an object after the second loop: what they were, followed by the elements
of the vector whose parent the object is, in order. -/
theorem children_secondPass :
    ∀ (processes : List Nat) (heap : Heap) (x : Nat), x < heap.length →
      (deref (secondPass heap processes).1 x).children
        = (deref heap x).children
            ++ processes.filter (fun a => decide ((deref heap a).parent = some x))
  | [], _, _, _ => by simp [secondPass]
  | it :: rest, heap, x, hx => by
    rw [secondPass]
    split
    · rename_i parent hp
      rw [children_secondPass rest _ x (by simpa using hx), deref_pushChild]
      have hfil : rest.filter (fun a => decide ((deref (pushChild heap parent it) a).parent
          = some x)) = rest.filter (fun a => decide ((deref heap a).parent = some x)) := by
        congr 1
        funext a
        rw [(sameButChildren_pushChild heap parent it a).1]
      rw [hfil]
      by_cases hpx : parent = x
      · subst hpx
        rw [if_pos ⟨rfl, hx⟩, List.filter_cons_of_pos (by simp [hp])]
        simp
      · rw [if_neg (fun h => hpx h.1), List.filter_cons_of_neg (by simp [hp, hpx])]
    · rename_i hp
      show (deref (secondPass heap rest).1 x).children = _
      rw [children_secondPass rest heap x hx, List.filter_cons_of_neg (by simp [hp])]

/-! ### `buildTree` as a whole -/

theorem buildTree_roots (heap : Heap) (processes : List Nat)
    (hvalid : ∀ a ∈ processes, a < heap.length) :
    (buildTree heap processes).2
      = processes.filter (fun a =>
          decide (acceptedParent (buildPidMap heap processes (fun _ => none)) heap a = none)) := by
  rw [buildTree, roots_secondPass]
  apply List.filter_congr
  intro a ha
  rw [parent_firstPass, if_pos ⟨ha, hvalid a ha⟩]

theorem buildTree_children (heap : Heap) (processes : List Nat)
    (hvalid : ∀ a ∈ processes, a < heap.length) (x : Nat) (hx : x < heap.length) :
    (deref (buildTree heap processes).1 x).children
      = (deref heap x).children ++ processes.filter (fun a =>
          decide (acceptedParent (buildPidMap heap processes (fun _ => none)) heap a
            = some x)) := by
  rw [buildTree, children_secondPass _ _ _ (by rw [length_firstPass]; exact hx),
    (sameButParent_firstPass _ _ _ _).2.2.2.2.2.2]
  congr 1
  apply List.filter_congr
  intro a ha
  rw [parent_firstPass, if_pos ⟨ha, hvalid a ha⟩]

theorem buildTree_parent (heap : Heap) (processes : List Nat) (x : Nat) :
    (deref (buildTree heap processes).1 x).parent
      = if x ∈ processes ∧ x < heap.length then
          acceptedParent (buildPidMap heap processes (fun _ => none)) heap x
        else (deref heap x).parent := by
  rw [buildTree, (sameButChildren_secondPass _ _ _).1, parent_firstPass]

theorem length_buildTree (heap : Heap) (processes : List Nat) :
    (buildTree heap processes).1.length = heap.length := by
  rw [buildTree, length_secondPass, length_firstPass]

/-- The data fields of every object are what they were before `buildTree`. -/
theorem buildTree_data (heap : Heap) (processes : List Nat) (x : Nat) :
    (deref (buildTree heap processes).1 x).pid = (deref heap x).pid ∧
    (deref (buildTree heap processes).1 x).parentPid = (deref heap x).parentPid ∧
    (deref (buildTree heap processes).1 x).name = (deref heap x).name ∧
    (deref (buildTree heap processes).1 x).cpuPercent = (deref heap x).cpuPercent ∧
    (deref (buildTree heap processes).1 x).memoryBytes = (deref heap x).memoryBytes ∧
    (deref (buildTree heap processes).1 x).creationTime = (deref heap x).creationTime := by
  obtain ⟨_, a2, a3, a4, a5, a6, a7⟩ := sameButChildren_secondPass processes
    (firstPass (buildPidMap heap processes (fun _ => none)) heap processes) x
  obtain ⟨b1, b2, b3, b4, b5, b6, _⟩ := sameButParent_firstPass
    (buildPidMap heap processes (fun _ => none)) processes heap x
  exact ⟨a2.trans b1, a3.trans b2, a4.trans b3, a5.trans b4, a6.trans b5, a7.trans b6⟩

/-- An accepted parent is an element of the vector that was created strictly earlier. -/
theorem acceptedParent_mem_lt {heap : Heap} {processes : List Nat} {a p : Nat}
    (h : acceptedParent (buildPidMap heap processes (fun _ => none)) heap a = some p) :
    p ∈ processes ∧ (deref heap p).creationTime < (deref heap a).creationTime := by
  obtain ⟨h1, _, h3⟩ := acceptedParent_some h
  rcases buildPidMap_some heap processes _ _ _ h1 with h0 | ⟨hm, _⟩
  · simp at h0
  · exact ⟨hm, h3⟩

/-- With pairwise distinct pids, the accepted parent of `n` is `p` exactly when `p` has the pid
that `n` names as its parent, is not `n` itself by pid, and is strictly older. -/
theorem acceptedParent_iff_of_nodup {heap : Heap} {processes : List Nat}
    (hpids : (processes.map (fun a => (deref heap a).pid)).Nodup) {n p : Nat}
    (hp : p ∈ processes) :
    acceptedParent (buildPidMap heap processes (fun _ => none)) heap n = some p ↔
      (deref heap p).pid = (deref heap n).parentPid ∧
        (deref heap p).pid ≠ (deref heap n).pid ∧
        (deref heap p).creationTime < (deref heap n).creationTime := by
  rw [acceptedParent_eq_some_iff]
  constructor
  · rintro ⟨h1, h2, h3⟩
    rcases buildPidMap_some heap processes _ _ _ h1 with h0 | ⟨_, hpid⟩
    · simp at h0
    · exact ⟨hpid, h2, h3⟩
  · rintro ⟨h1, h2, h3⟩
    exact ⟨h1 ▸ buildPidMap_of_mem heap processes _ p hpids hp, h2, h3⟩

/-- C1: for an enumeration whose records have pairwise distinct pids and no children yet, after
`buildTree` a node `n` is a direct child of a node `p` exactly when `p.pid = n.parentPid`,
`p.pid ≠ n.pid` and `p.creationTime < n.creationTime`, and `n` is a root exactly when there is no
such `p`. -/
theorem C1_child_iff_older_parent_by_pid (heap : Heap) (processes : List Nat)
    (hvalid : ∀ a ∈ processes, a < heap.length)
    (hpids : (processes.map (fun a => (deref heap a).pid)).Nodup)
    (hleaf : ∀ a ∈ processes, (deref heap a).children = []) :
    ∀ n ∈ processes,
      (∀ p ∈ processes,
        n ∈ (deref (buildTree heap processes).1 p).children ↔
          ((deref heap p).pid = (deref heap n).parentPid ∧
            (deref heap p).pid ≠ (deref heap n).pid ∧
            (deref heap p).creationTime < (deref heap n).creationTime)) ∧
      (n ∈ (buildTree heap processes).2 ↔
        ¬ ∃ p ∈ processes,
          (deref heap p).pid = (deref heap n).parentPid ∧
            (deref heap p).pid ≠ (deref heap n).pid ∧
            (deref heap p).creationTime < (deref heap n).creationTime) := by
  intro n hn
  constructor
  · intro p hp
    rw [buildTree_children heap processes hvalid p (hvalid p hp), hleaf p hp, List.nil_append,
      List.mem_filter, decide_eq_true_eq, acceptedParent_iff_of_nodup hpids hp]
    exact ⟨fun h => h.2, fun h => ⟨hn, h⟩⟩
  · rw [buildTree_roots heap processes hvalid, List.mem_filter, decide_eq_true_eq]
    constructor
    · rintro ⟨_, hnone⟩ ⟨p, hp, hc⟩
      rw [(acceptedParent_iff_of_nodup hpids hp).2 hc] at hnone
      exact Option.noConfusion hnone
    · intro hno
      refine ⟨hn, ?_⟩
      cases hacc : acceptedParent (buildPidMap heap processes (fun _ => none)) heap n with
      | none => rfl
      | some p =>
        have hp := (acceptedParent_mem_lt hacc).1
        exact absurd ⟨p, hp, (acceptedParent_iff_of_nodup hpids hp).1 hacc⟩ hno

/-- C1 on the records {pid=5, parentPid=10, t=100}, {pid=10, parentPid=0, t=150}: node 5 (address
0) is a root and is not a child of node 10 (address 1). -/
theorem C1_pid_reuse_witness :
    ((∀ a ∈ [0, 1], a < pidReuseHeap.length) ∧
      ([0, 1].map (fun a => (deref pidReuseHeap a).pid)).Nodup ∧
      (∀ a ∈ [0, 1], (deref pidReuseHeap a).children = [])) ∧
    (0 ∈ (buildTree pidReuseHeap [0, 1]).2 ∧
      0 ∉ (deref (buildTree pidReuseHeap [0, 1]).1 1).children) := by
  have hv : ∀ a ∈ [0, 1], a < pidReuseHeap.length := by decide
  have hp : ([0, 1].map (fun a => (deref pidReuseHeap a).pid)).Nodup := by decide
  have hl : ∀ a ∈ [0, 1], (deref pidReuseHeap a).children = [] := by decide
  have h := C1_child_iff_older_parent_by_pid pidReuseHeap [0, 1] hv hp hl 0 (by decide)
  refine ⟨⟨hv, hp, hl⟩, h.2.2 ?_, fun hc => ?_⟩
  · decide
  · exact absurd ((h.1 1 (by decide)).1 hc).2.2 (by decide)

/-! ### Subtrees, level by level -/

theorem flatMap_subtreeAddrs_succ (heap : Heap) (k : Nat) (as : List Nat) :
    List.Perm (as.flatMap (subtreeAddrs heap (k + 1)))
      (as ++ (as.flatMap (fun a => (deref heap a).children)).flatMap (subtreeAddrs heap k)) := by
  have h1 : as.flatMap (subtreeAddrs heap (k + 1))
      = as.flatMap (fun a => [a] ++ (deref heap a).children.flatMap (subtreeAddrs heap k)) := by
    congr 1
  have h2 : as.flatMap (fun a => [a]) = as := by
    induction as with
    | nil => rfl
    | cons a as ih => simp [List.flatMap_cons, ih]
  rw [h1, List.flatMap_assoc]
  refine ((List.flatMap_append_perm as (fun a => [a])
    (fun a => (deref heap a).children.flatMap (subtreeAddrs heap k))).symm).trans ?_
  rw [h2]

theorem flatMap_levelFrom_succ (heap : Heap) (as : List Nat) (k : Nat) :
    (List.range (k + 1)).flatMap (fun j => levelFrom heap j as)
      = as ++ (List.range k).flatMap
          (fun j => levelFrom heap j (as.flatMap (fun a => (deref heap a).children))) := by
  rw [List.range_succ_eq_map, List.flatMap_cons, List.flatMap_map]
  rfl

/-- The subtrees of `as`, to depth `k`, consist of the levels `0, …, k - 1` below `as`. -/
theorem flatMap_subtreeAddrs_perm (heap : Heap) :
    ∀ (k : Nat) (as : List Nat),
      List.Perm (as.flatMap (subtreeAddrs heap k))
        ((List.range k).flatMap (fun j => levelFrom heap j as))
  | 0, as => by
    have : as.flatMap (subtreeAddrs heap 0) = [] := by
      induction as with
      | nil => rfl
      | cons a as ih => simp [List.flatMap_cons, ih, subtreeAddrs]
    rw [this]
    exact List.Perm.refl _
  | k + 1, as => by
    rw [flatMap_levelFrom_succ]
    exact (flatMap_subtreeAddrs_succ heap k as).trans
      (List.Perm.append (List.Perm.refl _) (flatMap_subtreeAddrs_perm heap k _))

/-! ### Depth along the parent links -/

theorem atDepth_succ_iff (heap : Heap) (j a : Nat) :
    atDepth heap (j + 1) a = true ↔
      ∃ p, (deref heap a).parent = some p ∧ atDepth heap j p = true := by
  rw [atDepth]
  cases h : (deref heap a).parent with
  | none => simp
  | some p => simp

theorem atDepth_unique (heap : Heap) :
    ∀ (i j a : Nat), atDepth heap i a = true → atDepth heap j a = true → i = j
  | 0, 0, _, _, _ => rfl
  | 0, j + 1, a, h0, hj => by
    obtain ⟨p, hp, _⟩ := (atDepth_succ_iff heap j a).1 hj
    simp [atDepth, hp] at h0
  | i + 1, 0, a, hi, h0 => by
    obtain ⟨p, hp, _⟩ := (atDepth_succ_iff heap i a).1 hi
    simp [atDepth, hp] at h0
  | i + 1, j + 1, a, hi, hj => by
    obtain ⟨p, hp, hpi⟩ := (atDepth_succ_iff heap i a).1 hi
    obtain ⟨q, hq, hqj⟩ := (atDepth_succ_iff heap j a).1 hj
    rw [hp] at hq
    cases hq
    rw [atDepth_unique heap i j p hpi hqj]

/-- Every element has a depth: the parent links lead to strictly earlier creation times. -/
theorem exists_atDepth {heap : Heap} {processes roots : List Nat}
    (R : Reconciled heap processes roots) :
    ∀ (t a : Nat), a ∈ processes → (deref heap a).creationTime ≤ t →
      ∃ j, atDepth heap j a = true
  | 0, a, ha, ht => by
    cases hp : (deref heap a).parent with
    | none => exact ⟨0, by simp [atDepth, hp]⟩
    | some p => have := (R.parent_lt a ha p hp).2; omega
  | t + 1, a, ha, ht => by
    cases hp : (deref heap a).parent with
    | none => exact ⟨0, by simp [atDepth, hp]⟩
    | some p =>
      obtain ⟨hmem, hlt⟩ := R.parent_lt a ha p hp
      obtain ⟨j, hj⟩ := exists_atDepth R t p hmem (by omega)
      exact ⟨j + 1, (atDepth_succ_iff heap j a).2 ⟨p, hp, hj⟩⟩

/-- The ancestors of an element of depth `j` are `j + 1` distinct elements. -/
theorem ancestors_spec {heap : Heap} {processes roots : List Nat}
    (R : Reconciled heap processes roots) :
    ∀ (j a : Nat), a ∈ processes → atDepth heap j a = true →
      (ancestors heap j a).length = j + 1 ∧
      (∀ y ∈ ancestors heap j a,
        y ∈ processes ∧ (deref heap y).creationTime ≤ (deref heap a).creationTime) ∧
      (ancestors heap j a).Nodup
  | 0, a, ha, _ => by
    refine ⟨rfl, ?_, by simp [ancestors]⟩
    intro y hy
    simp only [ancestors, List.mem_singleton] at hy
    subst hy
    exact ⟨ha, le_refl _⟩
  | j + 1, a, ha, hd => by
    obtain ⟨p, hp, hpj⟩ := (atDepth_succ_iff heap j a).1 hd
    obtain ⟨hmem, hlt⟩ := R.parent_lt a ha p hp
    obtain ⟨hlen, hall, hnd⟩ := ancestors_spec R j p hmem hpj
    have hanc : ancestors heap (j + 1) a = a :: ancestors heap j p := by
      rw [ancestors, hp]
    rw [hanc]
    refine ⟨by simp [hlen], ?_, ?_⟩
    · intro y hy
      rcases List.mem_cons.1 hy with rfl | hy'
      · exact ⟨ha, le_refl _⟩
      · exact ⟨(hall y hy').1, by have := (hall y hy').2; omega⟩
    · refine List.nodup_cons.2 ⟨fun hin => ?_, hnd⟩
      have := (hall a hin).2
      omega

/-- The depth of an element is below the number of elements. -/
theorem atDepth_lt_length {heap : Heap} {processes roots : List Nat}
    (R : Reconciled heap processes roots) {j a : Nat} (ha : a ∈ processes)
    (hd : atDepth heap j a = true) : j < processes.length := by
  obtain ⟨hlen, hall, hnd⟩ := ancestors_spec R j a ha hd
  have hsub : ancestors heap j a ⊆ processes := fun y hy => (hall y hy).1
  have := (List.subperm_of_subset hnd hsub).length_le
  omega

/-! ### The levels of a reconciled forest -/

/-- The children of the elements of depth `i` are the elements of depth `i + 1`. -/
theorem children_of_depth_perm {heap : Heap} {processes roots : List Nat}
    (R : Reconciled heap processes roots) (i : Nat) :
    List.Perm
      ((processes.filter (atDepth heap i)).flatMap (fun a => (deref heap a).children))
      (processes.filter (atDepth heap (i + 1))) := by
  have hnd : ((processes.filter (atDepth heap i)).flatMap
      (fun a => (deref heap a).children)).Nodup := by
    rw [List.nodup_flatMap]
    constructor
    · intro x hx
      rw [R.children_eq x (List.mem_filter.1 hx).1]
      exact R.nodup.filter _
    · have hpw : List.Pairwise (fun x y => x ≠ y) (processes.filter (atDepth heap i)) :=
        R.nodup.filter _
      have hall : ∀ x ∈ processes.filter (atDepth heap i), x ∈ processes :=
        fun x hx => (List.mem_filter.1 hx).1
      refine (List.Pairwise.and_mem.1 hpw).imp ?_
      rintro x y ⟨hx, hy, hne⟩
      show List.Disjoint (deref heap x).children (deref heap y).children
      rw [R.children_eq x (hall x hx), R.children_eq y (hall y hy)]
      intro c hcx hcy
      have h1 := (List.mem_filter.1 hcx).2
      have h2 := (List.mem_filter.1 hcy).2
      simp only [decide_eq_true_eq] at h1 h2
      rw [h1] at h2
      exact hne (Option.some.inj h2)
  refine (List.perm_ext_iff_of_nodup hnd (R.nodup.filter _)).2 ?_
  intro c
  rw [List.mem_flatMap, List.mem_filter, atDepth_succ_iff]
  constructor
  · rintro ⟨x, hx, hc⟩
    obtain ⟨hxm, hxd⟩ := List.mem_filter.1 hx
    rw [R.children_eq x hxm] at hc
    obtain ⟨hcm, hcp⟩ := List.mem_filter.1 hc
    simp only [decide_eq_true_eq] at hcp
    exact ⟨hcm, x, hcp, hxd⟩
  · rintro ⟨hcm, p, hp, hpd⟩
    have hpm := (R.parent_lt c hcm p hp).1
    refine ⟨p, List.mem_filter.2 ⟨hpm, hpd⟩, ?_⟩
    rw [R.children_eq p hpm]
    exact List.mem_filter.2 ⟨hcm, by simpa using hp⟩

theorem levelFrom_perm {heap : Heap} {processes roots : List Nat}
    (R : Reconciled heap processes roots) :
    ∀ (j i : Nat) (as : List Nat), List.Perm as (processes.filter (atDepth heap i)) →
      List.Perm (levelFrom heap j as) (processes.filter (atDepth heap (i + j)))
  | 0, _, _, h => h
  | j + 1, i, as, h => by
    rw [levelFrom, show i + (j + 1) = (i + 1) + j by omega]
    exact levelFrom_perm R j (i + 1) _
      ((List.Perm.flatMap_right _ h).trans (children_of_depth_perm R i))

theorem roots_eq_depth_zero {heap : Heap} {processes roots : List Nat}
    (R : Reconciled heap processes roots) : roots = processes.filter (atDepth heap 0) := by
  rw [R.roots_eq]
  rfl

/-- The elements of depth below `k`, for `k` at least the number of elements, are all the
elements. -/
theorem depths_perm {heap : Heap} {processes roots : List Nat}
    (R : Reconciled heap processes roots) (k : Nat) (hk : processes.length ≤ k) :
    List.Perm ((List.range k).flatMap (fun j => processes.filter (atDepth heap j)))
      processes := by
  have hnd : ((List.range k).flatMap (fun j => processes.filter (atDepth heap j))).Nodup := by
    rw [List.nodup_flatMap]
    refine ⟨fun j _ => R.nodup.filter _, ?_⟩
    have hpw : List.Pairwise (fun x y => x ≠ y) (List.range k) := List.nodup_range k
    refine hpw.imp ?_
    intro i j hne
    show List.Disjoint (processes.filter (atDepth heap i)) (processes.filter (atDepth heap j))
    intro c hci hcj
    exact hne (atDepth_unique heap i j c (List.mem_filter.1 hci).2 (List.mem_filter.1 hcj).2)
  refine (List.perm_ext_iff_of_nodup hnd R.nodup).2 ?_
  intro c
  rw [List.mem_flatMap]
  constructor
  · rintro ⟨j, _, hc⟩
    exact (List.mem_filter.1 hc).1
  · intro hc
    obtain ⟨j, hj⟩ := exists_atDepth R _ c hc (le_refl _)
    have := atDepth_lt_length R hc hj
    exact ⟨j, List.mem_range.2 (by omega), List.mem_filter.2 ⟨hc, hj⟩⟩

/-- The subtrees of the roots, read with fuel at least the number of elements, hold every element
exactly once. -/
theorem subtreeAddrs_roots_perm {heap : Heap} {processes roots : List Nat}
    (R : Reconciled heap processes roots) (k : Nat) (hk : processes.length ≤ k) :
    List.Perm (roots.flatMap (subtreeAddrs heap k)) processes := by
  refine (flatMap_subtreeAddrs_perm heap k roots).trans ?_
  refine (List.Perm.flatMap_left _ (fun j _ => ?_)).trans (depths_perm R k hk)
  have := levelFrom_perm R j 0 roots (by rw [roots_eq_depth_zero R])
  simpa using this

/-! ### Reading a forest off the heap -/

theorem allOrNone_eq_some_iff {α : Type} :
    ∀ (l : List (Option α)) (ys : List α), allOrNone l = some ys ↔ l = ys.map some
  | [], ys => by
    cases ys <;> simp [allOrNone]
  | none :: l, ys => by
    cases ys <;> simp [allOrNone]
  | some x :: l, ys => by
    rw [allOrNone]
    cases h : allOrNone l with
    | none =>
      cases ys with
      | nil => simp
      | cons y ys =>
        have := (allOrNone_eq_some_iff l ys).not.1 (by simp [h])
        simp [this]
    | some zs =>
      have hl := (allOrNone_eq_some_iff l zs).1 h
      cases ys with
      | nil => simp
      | cons y ys =>
        subst hl
        simp only [Option.some.injEq, List.cons.injEq, List.map_cons]
        constructor
        · rintro ⟨rfl, rfl⟩
          exact ⟨rfl, rfl⟩
        · rintro ⟨rfl, h2⟩
          exact ⟨rfl, (List.map_injective_iff.2 (Option.some_injective _) h2)⟩

theorem allOrNone_map_isSome {α β : Type} (f : α → Option β) :
    ∀ (as : List α), (∀ a ∈ as, ∃ b, f a = some b) → ∃ bs, allOrNone (as.map f) = some bs
  | [], _ => ⟨[], rfl⟩
  | a :: as, h => by
    obtain ⟨b, hb⟩ := h a (List.mem_cons_self _ _)
    obtain ⟨bs, hbs⟩ := allOrNone_map_isSome f as (fun x hx => h x (List.mem_cons_of_mem _ hx))
    exact ⟨b :: bs, by simp [allOrNone, hb, hbs]⟩

theorem readForest_nil (heap : Heap) (k : Nat) : readForest heap k [] = some [] := rfl

theorem readForest_cons_eq_some {heap : Heap} {k a : Nat} {as : List Nat}
    {forest : List ProcessNode} (h : readForest heap k (a :: as) = some forest) :
    ∃ t ts, readTree heap k a = some t ∧ readForest heap k as = some ts ∧ forest = t :: ts := by
  unfold readForest at h ⊢
  rw [List.map_cons] at h
  cases ht : readTree heap k a with
  | none => rw [ht] at h; simp [allOrNone] at h
  | some t =>
    rw [ht, allOrNone] at h
    cases hts : allOrNone (as.map (readTree heap k)) with
    | none => rw [hts] at h; simp at h
    | some ts =>
      rw [hts] at h
      exact ⟨t, ts, rfl, rfl, (Option.some.inj h).symm⟩

theorem readForest_cons_of_some {heap : Heap} {k a : Nat} {as : List Nat} {t : ProcessNode}
    {ts : List ProcessNode} (ht : readTree heap k a = some t)
    (hts : readForest heap k as = some ts) : readForest heap k (a :: as) = some (t :: ts) := by
  unfold readForest at hts ⊢
  simp [allOrNone, ht, hts]

theorem readTree_succ_eq_some {heap : Heap} {k a : Nat} {t : ProcessNode}
    (h : readTree heap (k + 1) a = some t) :
    ∃ cs, a < heap.length ∧ readForest heap k (deref heap a).children = some cs ∧
      t = .mk (deref heap a).pid (deref heap a).parentPid (deref heap a).name
            (deref heap a).cpuPercent (deref heap a).memoryBytes (deref heap a).creationTime cs := by
  rw [readTree] at h
  by_cases ha : a < heap.length
  · rw [deref_of_lt ha] at h
    simp only at h
    cases hcs : allOrNone ((deref heap a).children.map (readTree heap k)) with
    | none => rw [hcs] at h; simp at h
    | some cs =>
      rw [hcs] at h
      exact ⟨cs, ha, hcs, (Option.some.inj h).symm⟩
  · rw [List.getElem?_eq_none (by omega)] at h
    simp at h

theorem readTree_succ_of_some {heap : Heap} {k a : Nat} {cs : List ProcessNode}
    (ha : a < heap.length) (h : readForest heap k (deref heap a).children = some cs) :
    readTree heap (k + 1) a
      = some (.mk (deref heap a).pid (deref heap a).parentPid (deref heap a).name
            (deref heap a).cpuPercent (deref heap a).memoryBytes (deref heap a).creationTime cs) := by
  unfold readForest at h
  rw [readTree, deref_of_lt ha]
  simp only
  rw [h]

/-- The nodes of a forest that was read off the heap are the objects of the subtrees, in
pre-order. -/
theorem readForest_nodes_of_tree (heap : Heap) (k : Nat)
    (ih : ∀ a t, readTree heap k a = some t →
      (t :: t.descendants).map ProcessNode.info
        = (subtreeAddrs heap k a).map (fun x => (deref heap x).data)) :
    ∀ (as : List Nat) (forest : List ProcessNode), readForest heap k as = some forest →
      (descendantsOfForest forest).map ProcessNode.info
        = (as.flatMap (subtreeAddrs heap k)).map (fun x => (deref heap x).data)
  | [], forest, h => by
    rw [readForest_nil] at h
    cases h
    rfl
  | a :: as, forest, h => by
    obtain ⟨t, ts, ht, hts, rfl⟩ := readForest_cons_eq_some h
    rw [descendantsOfForest, List.flatMap_cons, List.map_append, ← ih a t ht,
      ← readForest_nodes_of_tree heap k ih as ts hts]
    simp

theorem readTree_nodes (heap : Heap) :
    ∀ (k a : Nat) (t : ProcessNode), readTree heap k a = some t →
      (t :: t.descendants).map ProcessNode.info
        = (subtreeAddrs heap k a).map (fun x => (deref heap x).data)
  | 0, _, _, h => by simp [readTree] at h
  | k + 1, a, t, h => by
    obtain ⟨cs, _, hcs, rfl⟩ := readTree_succ_eq_some h
    rw [subtreeAddrs, List.map_cons, List.map_cons, ProcessNode.descendants,
      readForest_nodes_of_tree heap k (readTree_nodes heap k) _ cs hcs]
    rfl

theorem readForest_nodes (heap : Heap) (k : Nat) (as : List Nat) (forest : List ProcessNode)
    (h : readForest heap k as = some forest) :
    (descendantsOfForest forest).map ProcessNode.info
      = (as.flatMap (subtreeAddrs heap k)).map (fun x => (deref heap x).data) :=
  readForest_nodes_of_tree heap k (readTree_nodes heap k) as forest h

/-- Fuel that covers the levels below an element suffices to read its subtree. -/
theorem readTree_isSome {heap : Heap} {processes roots : List Nat}
    (R : Reconciled heap processes roots) :
    ∀ (k j a : Nat), a ∈ processes → atDepth heap j a = true → processes.length ≤ j + k →
      ∃ t, readTree heap k a = some t
  | 0, j, a, ha, hd, hk => by
    have := atDepth_lt_length R ha hd
    omega
  | k + 1, j, a, ha, hd, hk => by
    have hch : ∀ c ∈ (deref heap a).children, ∃ t, readTree heap k c = some t := by
      intro c hc
      rw [R.children_eq a ha] at hc
      obtain ⟨hcm, hcp⟩ := List.mem_filter.1 hc
      simp only [decide_eq_true_eq] at hcp
      exact readTree_isSome R k (j + 1) c hcm
        ((atDepth_succ_iff heap j c).2 ⟨a, hcp, hd⟩) (by omega)
    obtain ⟨cs, hcs⟩ := allOrNone_map_isSome (readTree heap k) _ hch
    exact ⟨_, readTree_succ_of_some (R.valid a ha) hcs⟩

/-- The forest of a reconciled vector can be read with fuel at least the number of elements, and
its nodes are the elements, each exactly once. -/
theorem Reconciled.forest {heap : Heap} {processes roots : List Nat}
    (R : Reconciled heap processes roots) (k : Nat) (hk : processes.length ≤ k) :
    ∃ forest, readForest heap k roots = some forest ∧
      List.Perm ((descendantsOfForest forest).map ProcessNode.info)
        (processes.map (fun x => (deref heap x).data)) := by
  have hroots : ∀ r ∈ roots, ∃ t, readTree heap k r = some t := by
    intro r hr
    rw [roots_eq_depth_zero R] at hr
    obtain ⟨hrm, hrd⟩ := List.mem_filter.1 hr
    exact readTree_isSome R k 0 r hrm hrd (by omega)
  obtain ⟨forest, hf⟩ := allOrNone_map_isSome (readTree heap k) roots hroots
  refine ⟨forest, hf, ?_⟩
  rw [readForest_nodes heap k roots forest hf]
  exact (subtreeAddrs_roots_perm R k hk).map _

/-- After `buildTree` on a vector of distinct valid addresses of objects without children, the
heap and the vector are reconciled. -/
theorem buildTree_reconciled (heap : Heap) (processes : List Nat)
    (hvalid : ∀ a ∈ processes, a < heap.length) (hnodup : processes.Nodup)
    (hleaf : ∀ a ∈ processes, (deref heap a).children = []) :
    Reconciled (buildTree heap processes).1 processes (buildTree heap processes).2 where
  nodup := hnodup
  valid := fun a ha => by rw [length_buildTree]; exact hvalid a ha
  roots_eq := by
    rw [buildTree_roots heap processes hvalid]
    apply List.filter_congr
    intro a ha
    rw [buildTree_parent, if_pos ⟨ha, hvalid a ha⟩]
  children_eq := fun x hx => by
    rw [buildTree_children heap processes hvalid x (hvalid x hx), hleaf x hx, List.nil_append]
    apply List.filter_congr
    intro a ha
    rw [buildTree_parent, if_pos ⟨ha, hvalid a ha⟩]
  parent_lt := fun a ha p hp => by
    rw [buildTree_parent, if_pos ⟨ha, hvalid a ha⟩] at hp
    obtain ⟨hm, hlt⟩ := acceptedParent_mem_lt hp
    rw [(buildTree_data heap processes p).2.2.2.2.2, (buildTree_data heap processes a).2.2.2.2.2]
    exact ⟨hm, hlt⟩

theorem data_buildTree (heap : Heap) (processes : List Nat) (x : Nat) :
    (deref (buildTree heap processes).1 x).data = (deref heap x).data := by
  obtain ⟨h1, h2, h3, h4, h5, h6⟩ := buildTree_data heap processes x
  simp [ProcessInfo.data, h1, h2, h3, h4, h5, h6]

/-- The forest that `buildTree` leaves holds every record exactly once. -/
theorem buildTree_forest (heap : Heap) (processes : List Nat)
    (hvalid : ∀ a ∈ processes, a < heap.length) (hnodup : processes.Nodup)
    (hleaf : ∀ a ∈ processes, (deref heap a).children = [])
    (k : Nat) (hk : processes.length ≤ k) :
    ∃ forest, readForest (buildTree heap processes).1 k (buildTree heap processes).2
        = some forest ∧
      List.Perm ((descendantsOfForest forest).map ProcessNode.info)
        (processes.map (fun x => (deref heap x).data)) := by
  obtain ⟨forest, hf, hperm⟩ :=
    (buildTree_reconciled heap processes hvalid hnodup hleaf).forest k hk
  refine ⟨forest, hf, ?_⟩
  have : processes.map (fun x => (deref (buildTree heap processes).1 x).data)
      = processes.map (fun x => (deref heap x).data) := by
    apply List.map_congr_left
    intro a _
    exact data_buildTree heap processes a
  rw [← this]
  exact hperm

theorem followParents_reaches_root_of_mem (heap : Heap) (processes : List Nat)
    (hlt : ∀ a ∈ processes, ∀ p, (deref heap a).parent = some p →
      p ∈ processes ∧ (deref heap p).creationTime < (deref heap a).creationTime) :
    ∀ (t a : Nat), a ∈ processes → (deref heap a).creationTime ≤ t →
      ∃ k, k ≤ t ∧ (deref heap (followParents heap k a)).parent = none
  | 0, a, ha, ht => by
    refine ⟨0, le_refl _, ?_⟩
    cases hp : (deref heap a).parent with
    | none => simpa [followParents] using hp
    | some p => have := (hlt a ha p hp).2; omega
  | t + 1, a, ha, ht => by
    cases hp : (deref heap a).parent with
    | none => exact ⟨0, Nat.zero_le _, by simpa [followParents] using hp⟩
    | some p =>
      obtain ⟨hm, hlt'⟩ := hlt a ha p hp
      obtain ⟨k, hk, hroot⟩ := followParents_reaches_root_of_mem heap processes hlt t p hm
        (by omega)
      refine ⟨k + 1, by omega, ?_⟩
      simpa [followParents, hp] using hroot

theorem firstPass_parent_lt (heap : Heap) (processes : List Nat) (a : Nat) (ha : a ∈ processes)
    (p : Nat)
    (hp : (deref (firstPass (buildPidMap heap processes (fun _ => none)) heap processes)
      a).parent = some p) :
    p ∈ processes ∧
      (deref (firstPass (buildPidMap heap processes (fun _ => none)) heap processes)
          p).creationTime
        < (deref (firstPass (buildPidMap heap processes (fun _ => none)) heap processes)
          a).creationTime := by
  rw [parent_firstPass] at hp
  by_cases hv : a < heap.length
  · rw [if_pos ⟨ha, hv⟩] at hp
    obtain ⟨hm, hlt⟩ := acceptedParent_mem_lt hp
    rw [(sameButParent_firstPass _ _ _ p).2.2.2.2.2.1,
      (sameButParent_firstPass _ _ _ a).2.2.2.2.2.1]
    exact ⟨hm, hlt⟩
  · rw [if_neg (fun h => hv h.2), deref_of_le (by omega)] at hp
    simp at hp

/-- C3: whatever the enumeration (duplicate pids, self-parent records, equal timestamps), a
parent link that the first loop of `buildTree` accepts leads to an element of the vector with a
strictly smaller `creationTime`, so following the accepted links from any element reaches an
element without accepted parent after finitely many steps: there is no cycle. -/
theorem C3_accepted_links_strictly_older_no_cycle (heap : Heap) (processes : List Nat) :
    (∀ a ∈ processes, ∀ p,
      (deref (firstPass (buildPidMap heap processes (fun _ => none)) heap processes) a).parent
          = some p →
        p ∈ processes ∧
        (deref (firstPass (buildPidMap heap processes (fun _ => none)) heap processes)
            p).creationTime
          < (deref (firstPass (buildPidMap heap processes (fun _ => none)) heap processes)
            a).creationTime) ∧
    (∀ a ∈ processes, ∃ k,
      (deref (firstPass (buildPidMap heap processes (fun _ => none)) heap processes)
        (followParents (firstPass (buildPidMap heap processes (fun _ => none)) heap processes)
          k a)).parent = none) := by
  refine ⟨firstPass_parent_lt heap processes, fun a ha => ?_⟩
  obtain ⟨k, _, hk⟩ := followParents_reaches_root_of_mem _ processes
    (firstPass_parent_lt heap processes) _ a ha (le_refl _)
  exact ⟨k, hk⟩

/-- C4: after `buildTree` on an enumeration of records without children, the forest (read with
fuel at least the number of records) has as many nodes, roots and descendants together, as there
are records. -/
theorem C4_forest_node_count_eq_record_count (heap : Heap) (processes : List Nat)
    (hvalid : ∀ a ∈ processes, a < heap.length) (hnodup : processes.Nodup)
    (hleaf : ∀ a ∈ processes, (deref heap a).children = [])
    (fuel : Nat) (hfuel : processes.length ≤ fuel) :
    ∃ forest,
      readForest (buildTree heap processes).1 fuel (buildTree heap processes).2 = some forest ∧
      (descendantsOfForest forest).length = processes.length := by
  obtain ⟨forest, hf, hperm⟩ := buildTree_forest heap processes hvalid hnodup hleaf fuel hfuel
  refine ⟨forest, hf, ?_⟩
  have := hperm.length_eq
  simpa using this

/-- C4 on three records of which two name each other as parent and one names itself: the forest
has three nodes. -/
theorem C4_tangled_witness :
    ((∀ a ∈ [0, 1, 2], a < tangledHeap.length) ∧ [0, 1, 2].Nodup ∧
      (∀ a ∈ [0, 1, 2], (deref tangledHeap a).children = []) ∧ [0, 1, 2].length ≤ 3) ∧
    ∃ forest,
      readForest (buildTree tangledHeap [0, 1, 2]).1 3 (buildTree tangledHeap [0, 1, 2]).2
        = some forest ∧
      (descendantsOfForest forest).length = [0, 1, 2].length :=
  ⟨⟨by decide, by decide, by decide, by decide⟩,
    C4_forest_node_count_eq_record_count tangledHeap [0, 1, 2] (by decide) (by decide)
      (by decide) 3 (by decide)⟩

theorem buildTree_scenarioHeap :
    buildTree scenarioHeap [0, 1, 2]
      = ([{ pid := 1, parentPid := 0, creationTime := 0, children := [1, 2] },
          { pid := 2, parentPid := 1, creationTime := 1, parent := some 0 },
          { pid := 3, parentPid := 1, creationTime := 2, parent := some 0 }], [0]) := by
  rfl

theorem readForest_scenario (fuel : Nat) :
    readForest (buildTree scenarioHeap [0, 1, 2]).1 (fuel + 2) (buildTree scenarioHeap [0, 1, 2]).2
      = some scenarioFan := by
  rw [buildTree_scenarioHeap]
  simp [readForest, readTree, allOrNone, scenarioFan]

/-- C9, as stated, fails: with no amount of fuel is the forest of the records {pid 1, parent 0,
t=0}, {pid 2, parent 1, t=1}, {pid 3, parent 1, t=2} after `buildTree` the chain
`[pid1[pid2[pid3]]]`. -/
theorem C9_not_a_chain :
    ¬ ∃ fuel, readForest (buildTree scenarioHeap [0, 1, 2]).1 fuel
        (buildTree scenarioHeap [0, 1, 2]).2 = some scenarioChain := by
  rintro ⟨fuel, h⟩
  match fuel, h with
  | 0, h => simp [buildTree_scenarioHeap, readForest, readTree, allOrNone] at h
  | 1, h => simp [buildTree_scenarioHeap, readForest, readTree, allOrNone] at h
  | fuel + 2, h =>
    rw [readForest_scenario] at h
    simp [scenarioFan, scenarioChain] at h

/-- C9, amended: reconciling the records {pid 1, parent 0, t=0}, {pid 2, parent 1, t=1},
{pid 3, parent 1, t=2}, in that order, yields the forest `[pid1[pid2, pid3]]`: the single root
pid 1 has the two children pid 2 and pid 3, in that order, and they have no children. -/
theorem C9_scenario_is_a_fan :
    (buildTree scenarioHeap [0, 1, 2]).2 = [0] ∧
    (deref (buildTree scenarioHeap [0, 1, 2]).1 0).children = [1, 2] ∧
    (deref (buildTree scenarioHeap [0, 1, 2]).1 1).children = [] ∧
    (deref (buildTree scenarioHeap [0, 1, 2]).1 2).children = [] ∧
    readForest (buildTree scenarioHeap [0, 1, 2]).1 3 (buildTree scenarioHeap [0, 1, 2]).2
      = some scenarioFan := by
  refine ⟨by decide, by decide, by decide, by decide, readForest_scenario 1⟩

/-! ### Reading the same forest off two heaps -/

theorem readForest_congr (h h' : Heap) (k : Nat) :
    ∀ (as : List Nat), (∀ a ∈ as, readTree h' k a = readTree h k a) →
      readForest h' k as = readForest h k as := by
  intro as hall
  unfold readForest
  rw [List.map_congr_left hall]

/-- Reading a subtree only looks at the objects of a region that is closed under `children`, and
not at their `parent` pointers. -/
theorem readTree_congr_region (h h' : Heap) (lo hi : Nat)
    (hclosed : ∀ x, lo ≤ x → x < hi → ∀ c ∈ (deref h x).children, lo ≤ c ∧ c < hi)
    (hagree : ∀ x, lo ≤ x → x < hi →
      h'[x]?.map ProcessInfo.owned = h[x]?.map ProcessInfo.owned) :
    ∀ (k a : Nat), lo ≤ a → a < hi → readTree h' k a = readTree h k a
  | 0, _, _, _ => rfl
  | k + 1, a, hlo, hhi => by
    have hag := hagree a hlo hhi
    rw [readTree, readTree]
    cases ho : h[a]? with
    | none =>
      rw [ho] at hag
      cases ho' : h'[a]? with
      | none => rfl
      | some o' => rw [ho'] at hag; simp at hag
    | some o =>
      rw [ho] at hag
      cases ho' : h'[a]? with
      | none => rw [ho'] at hag; simp at hag
      | some o' =>
        rw [ho'] at hag
        simp only [Option.map_some', Option.some.injEq, ProcessInfo.owned] at hag
        have hderef : deref h a = o := by
          unfold deref
          rw [List.getD_eq_getElem?_getD, ho]
          rfl
        have hch : o'.children = o.children := by
          have := congrArg ProcessInfo.children hag
          simpa using this
        have hmap : o'.children.map (readTree h' k) = o.children.map (readTree h k) := by
          rw [hch]
          apply List.map_congr_left
          intro c hc
          rw [← hderef] at hc
          obtain ⟨h1, h2⟩ := hclosed a hlo hhi c hc
          exact readTree_congr_region h h' lo hi hclosed hagree k c h1 h2
        simp only
        rw [hmap]
        have e1 := congrArg ProcessInfo.pid hag
        have e2 := congrArg ProcessInfo.parentPid hag
        have e3 := congrArg ProcessInfo.name hag
        have e4 := congrArg ProcessInfo.cpuPercent hag
        have e5 := congrArg ProcessInfo.memoryBytes hag
        have e6 := congrArg ProcessInfo.creationTime hag
        simp only at e1 e2 e3 e4 e5 e6
        rw [e1, e2, e3, e4, e5, e6]

theorem readForest_of_agree_of_tree (heap h : Heap) (k : Nat)
    (ih : ∀ a t, readTree heap k a = some t → readTree h k a = some t) :
    ∀ (as : List Nat) (ts : List ProcessNode), readForest heap k as = some ts →
      readForest h k as = some ts
  | [], ts, hts => by
    rw [readForest_nil] at hts ⊢
    exact hts
  | a :: as, ts, hts => by
    obtain ⟨t, ts', ht, hts', rfl⟩ := readForest_cons_eq_some hts
    exact readForest_cons_of_some (ih a t ht)
      (readForest_of_agree_of_tree heap h k ih as ts' hts')

/-- A subtree that can be read off a heap can be read off every heap that has the same objects at
the addresses of the first heap. -/
theorem readTree_of_agree (heap h : Heap) (hagree : ∀ x, x < heap.length → h[x]? = heap[x]?) :
    ∀ (k a : Nat) (t : ProcessNode), readTree heap k a = some t → readTree h k a = some t
  | 0, _, _, ht => by simp [readTree] at ht
  | k + 1, a, t, ht => by
    obtain ⟨cs, ha, hcs, rfl⟩ := readTree_succ_eq_some ht
    have hha : h[a]? = some (deref heap a) := by rw [hagree a ha, deref_of_lt ha]
    have hcs' := readForest_of_agree_of_tree heap h k (readTree_of_agree heap h hagree k) _ cs hcs
    unfold readForest at hcs'
    rw [readTree, hha]
    simp only
    rw [hcs']

theorem readForest_of_agree (heap h : Heap) (hagree : ∀ x, x < heap.length → h[x]? = heap[x]?)
    (k : Nat) (as : List Nat) (ts : List ProcessNode) (hts : readForest heap k as = some ts) :
    readForest h k as = some ts :=
  readForest_of_agree_of_tree heap h k (readTree_of_agree heap h hagree k) as ts hts

theorem readForest_append_singleton {heap : Heap} {k : Nat} :
    ∀ {as : List Nat} {ts : List ProcessNode} {a : Nat} {t : ProcessNode},
      readForest heap k as = some ts → readTree heap k a = some t →
        readForest heap k (as ++ [a]) = some (ts ++ [t])
  | [], ts, a, t, hts, ht => by
    rw [readForest_nil] at hts
    cases hts
    exact readForest_cons_of_some ht (readForest_nil heap k)
  | b :: as, ts, a, t, hts, ht => by
    obtain ⟨t', ts', ht', hts', rfl⟩ := readForest_cons_eq_some hts
    exact readForest_cons_of_some ht' (readForest_append_singleton hts' ht)

theorem deref_eq_of_getElem?_eq {h h' : Heap} {x : Nat} (hx : h'[x]? = h[x]?) :
    deref h' x = deref h x := by
  unfold deref
  rw [List.getD_eq_getElem?_getD, List.getD_eq_getElem?_getD, hx]

theorem getElem?_setParent_ne (heap : Heap) {a x : Nat} (q : Option Nat) (h : a ≠ x) :
    (setParent heap a q)[x]? = heap[x]? := by
  unfold setParent
  exact List.getElem?_modify_ne _ _ h

theorem getElem?_pushChild_ne (heap : Heap) {p x : Nat} (c : Nat) (h : p ≠ x) :
    (pushChild heap p c)[x]? = heap[x]? := by
  unfold pushChild
  exact List.getElem?_modify_ne _ _ h

theorem owned_setParent (heap : Heap) (a x : Nat) (q : Option Nat) :
    (setParent heap a q)[x]?.map ProcessInfo.owned = heap[x]?.map ProcessInfo.owned := by
  unfold setParent
  rw [List.getElem?_modify]
  cases heap[x]? with
  | none => rfl
  | some o =>
    by_cases hax : a = x <;> simp [hax, ProcessInfo.owned]

/-! ### `deepCopy` -/

/-- One round of the loop over `source.children` keeps the loop invariant. -/
theorem copyLoopInv_step {fuel : Nat} {heap0 : Heap} {s0 : ProcessInfo} {h h1 : Heap}
    {ccs : List Nat} {ts : List ProcessNode} {ti : ProcessNode}
    (hinv : CopyLoopInv fuel heap0 s0 h ccs ts) (hcopy : DeepCopied fuel h ti h1) :
    CopyLoopInv fuel heap0 s0
      (pushChild (setParent h1 h.length (some heap0.length)) heap0.length h.length)
      (ccs ++ [h.length]) (ts ++ [ti]) := by
  obtain ⟨i1, i2, i3, i4, i5⟩ := hinv
  obtain ⟨d1, d2, d3, d4, d5⟩ := hcopy
  have hne : h.length ≠ heap0.length := by omega
  -- objects other than the copy and the new child copy are those of `h1`
  have key : ∀ y, y ≠ heap0.length → y ≠ h.length →
      (pushChild (setParent h1 h.length (some heap0.length)) heap0.length h.length)[y]?
        = h1[y]? := by
    intro y hy1 hy2
    rw [getElem?_pushChild_ne _ _ (Ne.symm hy1), getElem?_setParent_ne _ _ (Ne.symm hy2)]
  have keyh : ∀ y, y ≠ heap0.length → y < h.length →
      (pushChild (setParent h1 h.length (some heap0.length)) heap0.length h.length)[y]?
        = h[y]? := by
    intro y hy1 hy2
    rw [key y hy1 (by omega), d2 y hy2]
  have hcopyobj : deref (pushChild (setParent h1 h.length (some heap0.length)) heap0.length
      h.length) heap0.length = { s0 with children := ccs ++ [h.length] } := by
    rw [deref_pushChild, if_pos ⟨rfl, by rw [length_setParent]; omega⟩, deref_setParent,
      if_neg (fun hc => hne hc.1), deref_eq_of_getElem?_eq (d2 _ i1), i3]
  have hchild : deref (pushChild (setParent h1 h.length (some heap0.length)) heap0.length
      h.length) h.length = { deref h1 h.length with parent := some heap0.length } := by
    rw [deref_pushChild, if_neg (fun hc => hne hc.1.symm), deref_setParent,
      if_pos ⟨rfl, d1⟩]
  refine ⟨by rw [length_pushChild, length_setParent]; omega, ?_, hcopyobj, ?_, ?_⟩
  · intro x hx
    rw [keyh x (by omega) (by omega), i2 x hx]
  · refine readForest_append_singleton ?_ ?_
    · rw [← i4]
      apply readForest_congr
      intro a ha
      have hreg := i5 heap0.length (le_refl _) i1 a (by rw [i3]; exact ha)
      refine readTree_congr_region h _ (heap0.length + 1) h.length ?_ ?_ fuel a
        (by omega) hreg.2.1
      · intro x hx1 hx2 c hc
        have := i5 x (by omega) hx2 c hc
        exact ⟨by omega, this.2.1⟩
      · intro x hx1 hx2
        rw [keyh x (by omega) hx2]
    · rw [← d3]
      refine readTree_congr_region h1 _ h.length h1.length ?_ ?_ fuel h.length (le_refl _) d1
      · intro x hx1 hx2 c hc
        have := d5 x hx1 hx2 c hc
        exact ⟨by omega, this.2.1⟩
      · intro x hx1 hx2
        rw [getElem?_pushChild_ne _ _ (by omega), owned_setParent]
  · intro x hx1 hx2 c hc
    rw [length_pushChild, length_setParent] at hx2 ⊢
    by_cases hx0 : x = heap0.length
    · subst hx0
      rw [hcopyobj] at hc
      simp only [List.mem_append, List.mem_singleton] at hc
      rcases hc with hc | hc
      · obtain ⟨c1, c2, c3⟩ := i5 heap0.length (le_refl _) i1 c (by rw [i3]; exact hc)
        refine ⟨c1, by omega, ?_⟩
        rw [deref_eq_of_getElem?_eq (keyh c (by omega) c2)]
        exact c3
      · subst hc
        refine ⟨i1, d1, ?_⟩
        rw [hchild]
    · by_cases hxh : x < h.length
      · rw [deref_eq_of_getElem?_eq (keyh x hx0 hxh)] at hc
        obtain ⟨c1, c2, c3⟩ := i5 x hx1 hxh c hc
        refine ⟨c1, by omega, ?_⟩
        rw [deref_eq_of_getElem?_eq (keyh c (by omega) c2)]
        exact c3
      · have hch : (deref (pushChild (setParent h1 h.length (some heap0.length)) heap0.length
            h.length) x).children = (deref h1 x).children := by
          rw [deref_pushChild, if_neg (fun hcx => hx0 hcx.1.symm)]
          exact (sameButParent_setParent h1 h.length _ x).2.2.2.2.2.2
        rw [hch] at hc
        obtain ⟨c1, c2, c3⟩ := d5 x (by omega) hx2 c hc
        refine ⟨c1, c2, ?_⟩
        rw [deref_eq_of_getElem?_eq (key c (by omega) (by omega))]
        exact c3

/-- The loop over `source.children` copies every child, given that the recursive calls do. -/
theorem copyChildren_spec (fuel : Nat)
    (ih : ∀ (h : Heap) (a : Nat) (t : ProcessNode), readTree h fuel a = some t →
      ∃ h1, deepCopy fuel h a = some (h1, h.length) ∧ DeepCopied fuel h t h1)
    (heap0 : Heap) (s0 : ProcessInfo) :
    ∀ (rest : List Nat) (trest : List ProcessNode) (h : Heap) (ccs : List Nat)
      (ts : List ProcessNode),
      readForest heap0 fuel rest = some trest → CopyLoopInv fuel heap0 s0 h ccs ts →
        ∃ h' ccs', copyChildren (deepCopy fuel) heap0.length rest h = some h' ∧
          CopyLoopInv fuel heap0 s0 h' ccs' (ts ++ trest)
  | [], trest, h, ccs, ts, hrest, hinv => by
    rw [readForest_nil] at hrest
    cases hrest
    exact ⟨h, ccs, rfl, by simpa using hinv⟩
  | ci :: rest, trest, h, ccs, ts, hrest, hinv => by
    obtain ⟨ti, trest', hti, hrest', rfl⟩ := readForest_cons_eq_some hrest
    obtain ⟨h1, hdc, hcopied⟩ := ih h ci ti (readTree_of_agree heap0 h hinv.2.1 fuel ci ti hti)
    obtain ⟨h', ccs', hloop, hinv'⟩ := copyChildren_spec fuel ih heap0 s0 rest trest' _
      (ccs ++ [h.length]) (ts ++ [ti]) hrest' (copyLoopInv_step hinv hcopied)
    refine ⟨h', ccs', ?_, by simpa using hinv'⟩
    rw [copyChildren, hdc]
    exact hloop

/-- Copying a subtree that can be read with the given fuel: `deepCopy` returns, with the same
fuel, a copy that owns an equal subtree. -/
theorem deepCopy_spec :
    ∀ (fuel : Nat) (heap : Heap) (source : Nat) (t : ProcessNode),
      readTree heap fuel source = some t →
        ∃ heap', deepCopy fuel heap source = some (heap', heap.length) ∧
          DeepCopied fuel heap t heap'
  | 0, _, _, _, ht => by simp [readTree] at ht
  | fuel + 1, heap, source, t, ht => by
    obtain ⟨cs, hsrc, hcs, rfl⟩ := readTree_succ_eq_some ht
    have hobj : deref (heap ++ [copyFields (deref heap source)]) heap.length
        = copyFields (deref heap source) := by
      unfold deref
      rw [List.getD_eq_getElem?_getD, List.getElem?_append_right (le_refl _)]
      simp
    have hinit : CopyLoopInv fuel heap (copyFields (deref heap source))
        (heap ++ [copyFields (deref heap source)]) [] [] := by
      refine ⟨by simp, ?_, ?_, readForest_nil _ _, ?_⟩
      · intro x hx
        exact List.getElem?_append_left hx
      · rw [hobj]
        rfl
      · intro x hx1 hx2 c hc
        have hx : x = heap.length := by
          simp only [List.length_append, List.length_singleton] at hx2
          omega
        subst hx
        rw [hobj] at hc
        simp [copyFields] at hc
    obtain ⟨h', ccs', hloop, i1, i2, i3, i4, i5⟩ := copyChildren_spec fuel (deepCopy_spec fuel)
      heap _ _ cs _ [] [] hcs hinit
    refine ⟨h', ?_, i1, i2, ?_, by rw [i3]; rfl, i5⟩
    · rw [deepCopy, deref_of_lt hsrc]
      simp only
      rw [hloop]
    · have hread := @readTree_succ_of_some h' fuel heap.length cs i1 (by rw [i3]; simpa using i4)
      rw [hread, i3]
      rfl

/-! ### `getProcessTree` -/

theorem copyRootsInv_step {fuel : Nat} {heap0 h h1 : Heap} {copy : List Nat}
    {ts : List ProcessNode} {ti : ProcessNode}
    (hinv : CopyRootsInv fuel heap0 h copy ts) (hcopy : DeepCopied fuel h ti h1) :
    CopyRootsInv fuel heap0 h1 (copy ++ [h.length]) (ts ++ [ti]) := by
  obtain ⟨i1, i2, i3, i4, i5⟩ := hinv
  obtain ⟨d1, d2, d3, d4, d5⟩ := hcopy
  refine ⟨by omega, fun x hx => by rw [d2 x (by omega), i2 x hx], ?_, ?_, ?_⟩
  · refine readForest_append_singleton ?_ d3
    rw [← i3]
    apply readForest_congr
    intro a ha
    obtain ⟨a1, a2, _⟩ := i4 a ha
    refine readTree_congr_region h h1 heap0.length h.length ?_ ?_ fuel a a1 a2
    · intro x hx1 hx2 c hc
      have := i5 x hx1 hx2 c hc
      exact ⟨by omega, this.2.1⟩
    · intro x _ hx2
      rw [d2 x hx2]
  · intro r hr
    rcases List.mem_append.1 hr with hr | hr
    · obtain ⟨a1, a2, a3⟩ := i4 r hr
      exact ⟨a1, by omega, by rw [deref_eq_of_getElem?_eq (d2 r a2)]; exact a3⟩
    · rw [List.mem_singleton] at hr
      subst hr
      exact ⟨i1, d1, d4⟩
  · intro x hx1 hx2 c hc
    by_cases hxh : x < h.length
    · rw [deref_eq_of_getElem?_eq (d2 x hxh)] at hc
      obtain ⟨c1, c2, c3⟩ := i5 x hx1 hxh c hc
      exact ⟨c1, by omega, by rw [deref_eq_of_getElem?_eq (d2 c c2)]; exact c3⟩
    · exact d5 x (by omega) hx2 c hc

theorem copyRoots_spec (fuel : Nat) (heap0 : Heap) :
    ∀ (rest : List Nat) (trest : List ProcessNode) (h : Heap) (copy : List Nat)
      (ts : List ProcessNode),
      readForest heap0 fuel rest = some trest → CopyRootsInv fuel heap0 h copy ts →
        ∃ h' copy', copyRoots fuel rest h copy = some (h', copy') ∧
          CopyRootsInv fuel heap0 h' copy' (ts ++ trest)
  | [], trest, h, copy, ts, hrest, hinv => by
    rw [readForest_nil] at hrest
    cases hrest
    exact ⟨h, copy, rfl, by simpa using hinv⟩
  | root :: rest, trest, h, copy, ts, hrest, hinv => by
    obtain ⟨ti, trest', hti, hrest', rfl⟩ := readForest_cons_eq_some hrest
    obtain ⟨h1, hdc, hcopied⟩ := deepCopy_spec fuel h root ti
      (readTree_of_agree heap0 h hinv.2.1 fuel root ti hti)
    obtain ⟨h', copy', hloop, hinv'⟩ := copyRoots_spec fuel heap0 rest trest' h1
      (copy ++ [h.length]) (ts ++ [ti]) hrest' (copyRootsInv_step hinv hcopied)
    refine ⟨h', copy', ?_, by simpa using hinv'⟩
    rw [copyRoots, hdc]
    exact hloop

theorem readForest_length {heap : Heap} {k : Nat} :
    ∀ {as : List Nat} {ts : List ProcessNode}, readForest heap k as = some ts →
      ts.length = as.length
  | [], ts, h => by
    rw [readForest_nil] at h
    cases h
    rfl
  | a :: as, ts, h => by
    obtain ⟨t, ts', _, hts', rfl⟩ := readForest_cons_eq_some h
    simp [readForest_length hts']

/-- The result of `getProcessTree` on a builder whose published forest can be read with the
given fuel. -/
theorem getProcessTree_spec (fuel : Nat) (self : ProcessTreeBuilder) (forest : List ProcessNode)
    (hforest : readForest self.heap fuel self.processRoots_ = some forest) :
    ∃ heap' copy,
      getProcessTree fuel self = some ({ self with heap := heap' }, copy) ∧
      CopyRootsInv fuel self.heap heap' copy forest := by
  have hinit : CopyRootsInv fuel self.heap self.heap [] [] :=
    ⟨le_refl _, fun _ _ => rfl, readForest_nil _ _, fun r hr => by simp at hr,
      fun x _ hx2 c hc => by omega⟩
  obtain ⟨h', copy', hloop, hinv⟩ := copyRoots_spec fuel self.heap self.processRoots_ forest
    self.heap [] [] hforest hinit
  refine ⟨h', copy', ?_, by simpa using hinv⟩
  rw [getProcessTree, hloop]

/-! ### Frame of `buildTree` and of an enumeration cycle -/

theorem getElem?_firstPass_of_not_mem (pidMap : PidMap) :
    ∀ (processes : List Nat) (heap : Heap) (x : Nat), x ∉ processes →
      (firstPass pidMap heap processes)[x]? = heap[x]?
  | [], _, _, _ => rfl
  | proc :: rest, heap, x, hx => by
    show (firstPass pidMap (linkParent pidMap heap proc) rest)[x]? = _
    rw [getElem?_firstPass_of_not_mem pidMap rest _ x (fun h => hx (List.mem_cons_of_mem _ h)),
      linkParent_eq,
      getElem?_setParent_ne _ _ (fun h => hx (by rw [← h]; exact List.mem_cons_self _ _))]

theorem getElem?_secondPass_of_not_parent (x : Nat) :
    ∀ (processes : List Nat) (heap : Heap),
      (∀ a ∈ processes, (deref heap a).parent ≠ some x) →
        (secondPass heap processes).1[x]? = heap[x]?
  | [], _, _ => rfl
  | it :: rest, heap, hpar => by
    rw [secondPass]
    split
    · rename_i parent hp
      have hne : parent ≠ x := fun h => hpar it (List.mem_cons_self _ _) (h ▸ hp)
      rw [getElem?_secondPass_of_not_parent x rest, getElem?_pushChild_ne _ _ hne]
      intro a ha
      rw [(sameButChildren_pushChild heap parent it a).1]
      exact hpar a (List.mem_cons_of_mem _ ha)
    · exact getElem?_secondPass_of_not_parent x rest heap
        (fun a ha => hpar a (List.mem_cons_of_mem _ ha))

/-- No object outside the vector that `buildTree` is given is touched by it. -/
theorem getElem?_buildTree_of_not_mem (heap : Heap) (processes : List Nat) (x : Nat)
    (hx : x ∉ processes) : (buildTree heap processes).1[x]? = heap[x]? := by
  rw [buildTree, getElem?_secondPass_of_not_parent x, getElem?_firstPass_of_not_mem _ _ _ _ hx]
  intro a ha hp
  exact hx (firstPass_parent_lt heap processes a ha x hp).1

theorem enumerationCycle_frame (self : ProcessTreeBuilder) (enumerated : List ProcessInfo) :
    self.heap.length ≤ (enumerationCycle self enumerated).heap.length ∧
    ∀ x, x < self.heap.length → (enumerationCycle self enumerated).heap[x]? = self.heap[x]? := by
  constructor
  · show _ ≤ (buildTree _ _).1.length
    rw [length_buildTree, List.length_append]
    omega
  · intro x hx
    show (buildTree _ _).1[x]? = _
    rw [getElem?_buildTree_of_not_mem _ _ _ (by rw [List.mem_range']; omega),
      List.getElem?_append_left hx]

/-- C5: `getProcessTree` on a published forest (one that can be read off the heap) returns a
vector that owns an equal forest: as many roots, in the same order, every node with the same
pid, parentPid, name, cpuPercent, memoryBytes and creationTime and with equal children in the
same order.  The copy consists of newly allocated objects; its roots have no parent, and every
child of a copied node points to that node with its `parent`. -/
theorem C5_getProcessTree_returns_equal_forest_with_own_parent_links (fuel : Nat)
    (self : ProcessTreeBuilder) (forest : List ProcessNode)
    (hforest : readForest self.heap fuel self.processRoots_ = some forest) :
    ∃ self' copy,
      getProcessTree fuel self = some (self', copy) ∧
      readForest self'.heap fuel copy = some forest ∧
      copy.length = self.processRoots_.length ∧
      (∀ r ∈ copy, self.heap.length ≤ r ∧ r < self'.heap.length ∧
        (deref self'.heap r).parent = none) ∧
      (∀ x, self.heap.length ≤ x → x < self'.heap.length →
        ∀ c ∈ (deref self'.heap x).children,
          x < c ∧ c < self'.heap.length ∧ (deref self'.heap c).parent = some x) := by
  obtain ⟨heap', copy, hget, _, _, i3, i4, i5⟩ := getProcessTree_spec fuel self forest hforest
  refine ⟨_, copy, hget, i3, ?_, i4, i5⟩
  rw [← readForest_length i3, readForest_length hforest]

/-- C5 on the builder that has published pid 1 with the children pid 2 and pid 3. -/
theorem C5_scenario_witness :
    readForest scenarioBuilder.heap 3 scenarioBuilder.processRoots_ = some scenarioFan ∧
    ∃ self' copy,
      getProcessTree 3 scenarioBuilder = some (self', copy) ∧
      readForest self'.heap 3 copy = some scenarioFan ∧
      copy.length = scenarioBuilder.processRoots_.length ∧
      (∀ r ∈ copy, scenarioBuilder.heap.length ≤ r ∧ r < self'.heap.length ∧
        (deref self'.heap r).parent = none) ∧
      (∀ x, scenarioBuilder.heap.length ≤ x → x < self'.heap.length →
        ∀ c ∈ (deref self'.heap x).children,
          x < c ∧ c < self'.heap.length ∧ (deref self'.heap c).parent = some x) :=
  ⟨readForest_scenario 1,
    C5_getProcessTree_returns_equal_forest_with_own_parent_links 3 scenarioBuilder scenarioFan
      (readForest_scenario 1)⟩

mutual
theorem getTotalCpuWithChildren_eq_sum : ∀ n : ProcessNode,
    getTotalCpuWithChildren n = n.cpuPercent + (n.descendants.map ProcessNode.cpuPercent).sum
  | .mk _ _ _ cpu _ _ cs => by
    rw [getTotalCpuWithChildren, ProcessNode.descendants, ProcessNode.cpuPercent]
    exact totalCpuLoop_eq_sum cpu cs
theorem totalCpuLoop_eq_sum : ∀ (total : ℚ) (cs : List ProcessNode),
    totalCpuLoop total cs = total + ((descendantsOfForest cs).map ProcessNode.cpuPercent).sum
  | total, [] => by simp [totalCpuLoop, descendantsOfForest]
  | total, c :: cs => by
    rw [totalCpuLoop, totalCpuLoop_eq_sum _ cs, getTotalCpuWithChildren_eq_sum c,
      descendantsOfForest]
    simp only [List.map_cons, List.sum_cons, List.map_append, List.sum_append]
    ring
end

/-- C10: `getTotalCpuWithChildren(n)` is `n.cpuPercent` plus the sum of `cpuPercent` over all
descendants of `n`; on the chain root → A → B with CPU percents 5, 3, 2 it is 10 at the root, 5 at
A and 2 at B. -/
theorem C10_total_cpu_is_own_plus_descendants :
    (∀ n : ProcessNode,
      getTotalCpuWithChildren n
        = n.cpuPercent + (n.descendants.map ProcessNode.cpuPercent).sum) ∧
    getTotalCpuWithChildren chainRoot = 10 ∧
    getTotalCpuWithChildren chainA = 5 ∧
    getTotalCpuWithChildren chainB = 2 := by
  refine ⟨getTotalCpuWithChildren_eq_sum, ?_, ?_, ?_⟩ <;>
    simp [chainRoot, chainA, chainB, getTotalCpuWithChildren, totalCpuLoop] <;> norm_num

/-! ### One iteration of `collectionLoop` -/

theorem mem_dueCategories (config : Configuration) (now : Int) (locals : LoopLocals) :
    (Category.cpu ∈ dueCategories config now locals ↔
      Int.tdiv (now - locals.lastCpuSample) 1000000 ≥ (config.cpuSampleIntervalMs : Int)) ∧
    (Category.memory ∈ dueCategories config now locals ↔
      Int.tdiv (now - locals.lastMemorySample) 1000000
        ≥ (config.memorySampleIntervalMs : Int)) ∧
    (Category.disk ∈ dueCategories config now locals ↔
      Int.tdiv (now - locals.lastDiskSample) 1000000 ≥ (config.diskSampleIntervalMs : Int)) ∧
    (Category.network ∈ dueCategories config now locals ↔
      Int.tdiv (now - locals.lastNetworkSample) 1000000
        ≥ (config.networkSampleIntervalMs : Int)) := by
  by_cases h1 : (config.cpuSampleIntervalMs : Int) ≤ elapsedMs now locals.lastCpuSample <;>
  by_cases h2 : (config.memorySampleIntervalMs : Int) ≤ elapsedMs now locals.lastMemorySample <;>
  by_cases h3 : (config.diskSampleIntervalMs : Int) ≤ elapsedMs now locals.lastDiskSample <;>
  by_cases h4 : (config.networkSampleIntervalMs : Int)
      ≤ elapsedMs now locals.lastNetworkSample <;>
  simp [dueCategories, h1, h2, h3, h4] <;>
  simp only [elapsedMs] at h1 h2 h3 h4 <;>
  omega

theorem collectionLoopIteration_calls {σ : Type} (src : ISystemCollector σ)
    (now : Int) (wallMs : Nat) (self : SystemDataCollector σ) (locals : LoopLocals) :
    (collectionLoopIteration src now wallMs self locals).1.collector_
      = (src.run (dueCategories self.config_ now locals) (self.collector_, {})).1 ∧
    (collectionLoopIteration src now wallMs self locals).2.newMetrics
      = (if dueCategories self.config_ now locals = [] then {}
         else { (src.run (dueCategories self.config_ now locals) (self.collector_, {})).2 with
                timestampMs := wallMs }) := by
  by_cases h1 : (self.config_.cpuSampleIntervalMs : Int) ≤ elapsedMs now locals.lastCpuSample <;>
  by_cases h2 : (self.config_.memorySampleIntervalMs : Int)
      ≤ elapsedMs now locals.lastMemorySample <;>
  by_cases h3 : (self.config_.diskSampleIntervalMs : Int)
      ≤ elapsedMs now locals.lastDiskSample <;>
  by_cases h4 : (self.config_.networkSampleIntervalMs : Int)
      ≤ elapsedMs now locals.lastNetworkSample <;>
  simp [collectionLoopIteration, publish, sampleNetwork, sampleDisk, sampleMemory, sampleCpu,
    dueCategories, ISystemCollector.run, ISystemCollector.call, h1, h2, h3, h4]

theorem collectionLoopIteration_last {σ : Type} (src : ISystemCollector σ)
    (now : Int) (wallMs : Nat) (self : SystemDataCollector σ) (locals : LoopLocals) :
    (collectionLoopIteration src now wallMs self locals).2.lastCpuSample
      = (if Category.cpu ∈ dueCategories self.config_ now locals then now
         else locals.lastCpuSample) ∧
    (collectionLoopIteration src now wallMs self locals).2.lastMemorySample
      = (if Category.memory ∈ dueCategories self.config_ now locals then now
         else locals.lastMemorySample) ∧
    (collectionLoopIteration src now wallMs self locals).2.lastDiskSample
      = (if Category.disk ∈ dueCategories self.config_ now locals then now
         else locals.lastDiskSample) ∧
    (collectionLoopIteration src now wallMs self locals).2.lastNetworkSample
      = (if Category.network ∈ dueCategories self.config_ now locals then now
         else locals.lastNetworkSample) := by
  by_cases h1 : (self.config_.cpuSampleIntervalMs : Int) ≤ elapsedMs now locals.lastCpuSample <;>
  by_cases h2 : (self.config_.memorySampleIntervalMs : Int)
      ≤ elapsedMs now locals.lastMemorySample <;>
  by_cases h3 : (self.config_.diskSampleIntervalMs : Int)
      ≤ elapsedMs now locals.lastDiskSample <;>
  by_cases h4 : (self.config_.networkSampleIntervalMs : Int)
      ≤ elapsedMs now locals.lastNetworkSample <;>
  simp [collectionLoopIteration, publish, sampleNetwork, sampleDisk, sampleMemory, sampleCpu,
    dueCategories, h1, h2, h3, h4]

/-- C8: in a tick at time `now` each category is decided on its own: it is due exactly when the
elapsed time `now - L` since its last sample, truncated to whole milliseconds, is at least its
interval; the collection calls made in the tick are those of the due categories (in the order
CPU, memory, disk, network, on the scratch snapshot); and the last-sample time of a category
becomes `now` when it is due and is unchanged otherwise. -/
theorem C8_category_sampled_iff_interval_elapsed {σ : Type} (src : ISystemCollector σ)
    (now : Int) (wallMs : Nat) (self : SystemDataCollector σ) (locals : LoopLocals) :
    ((Category.cpu ∈ dueCategories self.config_ now locals ↔
        Int.tdiv (now - locals.lastCpuSample) 1000000
          ≥ (self.config_.cpuSampleIntervalMs : Int)) ∧
      (Category.memory ∈ dueCategories self.config_ now locals ↔
        Int.tdiv (now - locals.lastMemorySample) 1000000
          ≥ (self.config_.memorySampleIntervalMs : Int)) ∧
      (Category.disk ∈ dueCategories self.config_ now locals ↔
        Int.tdiv (now - locals.lastDiskSample) 1000000
          ≥ (self.config_.diskSampleIntervalMs : Int)) ∧
      (Category.network ∈ dueCategories self.config_ now locals ↔
        Int.tdiv (now - locals.lastNetworkSample) 1000000
          ≥ (self.config_.networkSampleIntervalMs : Int))) ∧
    ((collectionLoopIteration src now wallMs self locals).1.collector_
        = (src.run (dueCategories self.config_ now locals) (self.collector_, {})).1 ∧
      (collectionLoopIteration src now wallMs self locals).2.newMetrics
        = (if dueCategories self.config_ now locals = [] then {}
           else { (src.run (dueCategories self.config_ now locals) (self.collector_, {})).2 with
                  timestampMs := wallMs })) ∧
    ((collectionLoopIteration src now wallMs self locals).2.lastCpuSample
        = (if Category.cpu ∈ dueCategories self.config_ now locals then now
           else locals.lastCpuSample) ∧
      (collectionLoopIteration src now wallMs self locals).2.lastMemorySample
        = (if Category.memory ∈ dueCategories self.config_ now locals then now
           else locals.lastMemorySample) ∧
      (collectionLoopIteration src now wallMs self locals).2.lastDiskSample
        = (if Category.disk ∈ dueCategories self.config_ now locals then now
           else locals.lastDiskSample) ∧
      (collectionLoopIteration src now wallMs self locals).2.lastNetworkSample
        = (if Category.network ∈ dueCategories self.config_ now locals then now
           else locals.lastNetworkSample)) :=
  ⟨mem_dueCategories self.config_ now locals,
    collectionLoopIteration_calls src now wallMs self locals,
    collectionLoopIteration_last src now wallMs self locals⟩

/-- C2: a tick 1500 ms after loop start of a collector with CPU interval 500 ms and disk and
network interval 1000 ms, all three last sampled at 1000 ms: only the CPU is due, its call is the
only one made, and yet the published disk and network rates (4096, 2048, 100, 200 before the
tick) are 0 after it. -/
theorem C2_unsampled_disk_network_overwritten :
    (collectionLoopIteration (fixedSource { cpuUsagePercent := 50, perCoreCpuUsage := [45, 55] })
        1500000000 1500 halfSecondCpu sampledAtOneSecond).2.lastDiskSample = 1000000000 ∧
    (collectionLoopIteration (fixedSource { cpuUsagePercent := 50, perCoreCpuUsage := [45, 55] })
        1500000000 1500 halfSecondCpu sampledAtOneSecond).2.lastNetworkSample = 1000000000 ∧
    halfSecondCpu.currentMetrics_.diskReadBytesPerSec = 4096 ∧
    halfSecondCpu.currentMetrics_.networkRecvBytesPerSec = 100 ∧
    (collectionLoopIteration (fixedSource { cpuUsagePercent := 50, perCoreCpuUsage := [45, 55] })
        1500000000 1500 halfSecondCpu sampledAtOneSecond).1.currentMetrics_
      = { cpuUsagePercent := 50, perCoreCpuUsage := [45, 55],
          diskReadBytesPerSec := 0, diskWriteBytesPerSec := 0,
          networkRecvBytesPerSec := 0, networkSendBytesPerSec := 0, timestampMs := 1500 } := by
  have h1 : elapsedMs 1500000000 1000000000 = 500 := by decide
  have h2 : elapsedMs 1500000000 0 = 1500 := by decide
  simp [collectionLoopIteration, publish, sampleNetwork, sampleDisk, sampleMemory, sampleCpu,
    mergeMetrics, fixedSource, halfSecondCpu, sampledAtOneSecond, h1, h2]

/-- C7: a tick 5000 ms after loop start with the default configuration, every category last
sampled at loop start: all four categories are sampled; the source reads 0 % CPU with per-core
values `[0, 0]` and 0 bytes of total memory, and the published CPU fields and memory fields keep
their values from before the tick (50, `[40, 60]`, 8000, 4000, 50). -/
theorem C7_sampled_zero_reading_not_published :
    (collectionLoopIteration
        (fixedSource { cpuUsagePercent := 0, perCoreCpuUsage := [0, 0], totalMemoryBytes := 0,
                       usedMemoryBytes := 0, memoryUsagePercent := 0, diskReadBytesPerSec := 7 })
        5000000000 5000 busyCollector sampledAtStart).2.lastCpuSample = 5000000000 ∧
    (collectionLoopIteration
        (fixedSource { cpuUsagePercent := 0, perCoreCpuUsage := [0, 0], totalMemoryBytes := 0,
                       usedMemoryBytes := 0, memoryUsagePercent := 0, diskReadBytesPerSec := 7 })
        5000000000 5000 busyCollector sampledAtStart).2.lastMemorySample = 5000000000 ∧
    (collectionLoopIteration
        (fixedSource { cpuUsagePercent := 0, perCoreCpuUsage := [0, 0], totalMemoryBytes := 0,
                       usedMemoryBytes := 0, memoryUsagePercent := 0, diskReadBytesPerSec := 7 })
        5000000000 5000 busyCollector sampledAtStart).1.currentMetrics_
      = { cpuUsagePercent := 50, perCoreCpuUsage := [40, 60],
          totalMemoryBytes := 8000, usedMemoryBytes := 4000, memoryUsagePercent := 50,
          diskReadBytesPerSec := 7, timestampMs := 5000 } := by
  have h1 : elapsedMs 5000000000 0 = 5000 := by decide
  simp [collectionLoopIteration, publish, sampleNetwork, sampleDisk, sampleMemory, sampleCpu,
    mergeMetrics, fixedSource, busyCollector, sampledAtStart, h1]

/-! ### Total memory of a subtree -/

mutual
theorem getTotalMemoryWithChildren_mod : ∀ n : ProcessNode,
    getTotalMemoryWithChildren n % 2 ^ 64
      = (n.memoryBytes + (n.descendants.map ProcessNode.memoryBytes).sum) % 2 ^ 64
  | .mk _ _ _ _ mem _ cs => by
    rw [getTotalMemoryWithChildren, ProcessNode.descendants, ProcessNode.memoryBytes]
    exact totalMemoryLoop_mod mem cs
theorem totalMemoryLoop_mod : ∀ (total : Nat) (cs : List ProcessNode),
    totalMemoryLoop total cs % 2 ^ 64
      = (total + ((descendantsOfForest cs).map ProcessNode.memoryBytes).sum) % 2 ^ 64
  | total, [] => by simp [totalMemoryLoop, descendantsOfForest]
  | total, c :: cs => by
    rw [totalMemoryLoop, totalMemoryLoop_mod _ cs, descendantsOfForest]
    simp only [List.map_cons, List.sum_cons, List.map_append, List.sum_append]
    have h := getTotalMemoryWithChildren_mod c
    omega
end

theorem totalMemoryLoop_lt : ∀ (total : Nat) (cs : List ProcessNode), total < 2 ^ 64 →
    totalMemoryLoop total cs < 2 ^ 64
  | _, [], h => h
  | total, c :: cs, _ => by
    rw [totalMemoryLoop]
    exact totalMemoryLoop_lt _ cs (Nat.mod_lt _ (by norm_num))

theorem getTotalMemoryWithChildren_lt (n : ProcessNode) (h : n.memoryBytes < 2 ^ 64) :
    getTotalMemoryWithChildren n < 2 ^ 64 := by
  cases n with
  | mk pid ppid name cpu mem t cs =>
    rw [getTotalMemoryWithChildren]
    exact totalMemoryLoop_lt mem cs h

/-- C11: for a node whose `memoryBytes` is a `uint64_t` value, `getTotalMemoryWithChildren(n)` is
the sum of `memoryBytes` over `n` and all of its descendants, reduced modulo `2^64`, and it is
the exact sum whenever that sum is below `2^64`. -/
theorem C11_total_memory_is_sum_mod_two_pow_64 (n : ProcessNode)
    (hn : n.memoryBytes < 2 ^ 64) :
    getTotalMemoryWithChildren n
      = (n.memoryBytes + (n.descendants.map ProcessNode.memoryBytes).sum) % 2 ^ 64 ∧
    (n.memoryBytes + (n.descendants.map ProcessNode.memoryBytes).sum < 2 ^ 64 →
      getTotalMemoryWithChildren n
        = n.memoryBytes + (n.descendants.map ProcessNode.memoryBytes).sum) := by
  have h1 := getTotalMemoryWithChildren_mod n
  have h2 := getTotalMemoryWithChildren_lt n hn
  rw [Nat.mod_eq_of_lt h2] at h1
  refine ⟨h1, fun hlt => ?_⟩
  rw [h1, Nat.mod_eq_of_lt hlt]

/-- C11 on a parent with 2^64 - 1 bytes and a child with 2 bytes: the total wraps around to 1. -/
theorem C11_wrapping_witness :
    wrappingParent.memoryBytes < 2 ^ 64 ∧
    getTotalMemoryWithChildren wrappingParent = 1 ∧
    (wrappingParent.memoryBytes
      + (wrappingParent.descendants.map ProcessNode.memoryBytes).sum) % 2 ^ 64 = 1 := by
  have h := C11_total_memory_is_sum_mod_two_pow_64 wrappingParent (by decide)
  refine ⟨by decide, ?_, by decide⟩
  rw [h.1]
  decide

/-! ### Every record is in the forest exactly once -/

theorem record_info (n : ProcessNode) : n.info.record = n.record := by
  cases n
  rfl

theorem record_data (o : ProcessInfo) : o.data.record = o.record := rfl

theorem buildTree_forest_records (heap : Heap) (processes : List Nat)
    (hvalid : ∀ a ∈ processes, a < heap.length) (hnodup : processes.Nodup)
    (hleaf : ∀ a ∈ processes, (deref heap a).children = [])
    (k : Nat) (hk : processes.length ≤ k) :
    ∃ forest, readForest (buildTree heap processes).1 k (buildTree heap processes).2
        = some forest ∧
      List.Perm ((descendantsOfForest forest).map ProcessNode.record)
        (processes.map (fun a => (deref heap a).record)) := by
  obtain ⟨forest, hf, hperm⟩ := buildTree_forest heap processes hvalid hnodup hleaf k hk
  refine ⟨forest, hf, ?_⟩
  have h := hperm.map ProcessInfo.record
  simp only [List.map_map] at h
  have e1 : (ProcessInfo.record ∘ ProcessNode.info) = ProcessNode.record := by
    funext n
    exact record_info n
  have e2 : (ProcessInfo.record ∘ fun x => (deref heap x).data)
      = fun a => (deref heap a).record := by
    funext a
    rfl
  rw [e1, e2] at h
  exact h

/-- C16: after `buildTree` on an enumeration of records without children, every record is in the
forest exactly once, with its data fields unchanged: the multiset of the tuples (pid, parentPid,
name, cpuPercent, memoryBytes, creationTime) of the forest nodes is the multiset of the tuples of
the records, and the objects owned by the roots, listed subtree by subtree, are the elements of
the vector without repetition. -/
theorem C16_forest_nodes_are_the_records_once (heap : Heap) (processes : List Nat)
    (hvalid : ∀ a ∈ processes, a < heap.length) (hnodup : processes.Nodup)
    (hleaf : ∀ a ∈ processes, (deref heap a).children = [])
    (fuel : Nat) (hfuel : processes.length ≤ fuel) :
    ∃ forest,
      readForest (buildTree heap processes).1 fuel (buildTree heap processes).2 = some forest ∧
      Multiset.ofList ((descendantsOfForest forest).map ProcessNode.record)
        = Multiset.ofList (processes.map (fun a => (deref heap a).record)) ∧
      List.Perm ((buildTree heap processes).2.flatMap
        (subtreeAddrs (buildTree heap processes).1 fuel)) processes ∧
      ((buildTree heap processes).2.flatMap
        (subtreeAddrs (buildTree heap processes).1 fuel)).Nodup := by
  obtain ⟨forest, hf, hperm⟩ :=
    buildTree_forest_records heap processes hvalid hnodup hleaf fuel hfuel
  have haddr := subtreeAddrs_roots_perm
    (buildTree_reconciled heap processes hvalid hnodup hleaf) fuel hfuel
  exact ⟨forest, hf, Multiset.coe_eq_coe.2 hperm, haddr, haddr.nodup_iff.2 hnodup⟩

/-- C16 on the records {pid=5, parentPid=10, t=100}, {pid=10, parentPid=0, t=150}. -/
theorem C16_pid_reuse_witness :
    ((∀ a ∈ [0, 1], a < pidReuseHeap.length) ∧ [0, 1].Nodup ∧
      (∀ a ∈ [0, 1], (deref pidReuseHeap a).children = []) ∧ [0, 1].length ≤ 2) ∧
    ∃ forest,
      readForest (buildTree pidReuseHeap [0, 1]).1 2 (buildTree pidReuseHeap [0, 1]).2
        = some forest ∧
      Multiset.ofList ((descendantsOfForest forest).map ProcessNode.record)
        = Multiset.ofList ([0, 1].map (fun a => (deref pidReuseHeap a).record)) ∧
      List.Perm ((buildTree pidReuseHeap [0, 1]).2.flatMap
        (subtreeAddrs (buildTree pidReuseHeap [0, 1]).1 2)) [0, 1] ∧
      ((buildTree pidReuseHeap [0, 1]).2.flatMap
        (subtreeAddrs (buildTree pidReuseHeap [0, 1]).1 2)).Nodup :=
  ⟨⟨by decide, by decide, by decide, by decide⟩,
    C16_forest_nodes_are_the_records_once pidReuseHeap [0, 1] (by decide) (by decide)
      (by decide) 2 (by decide)⟩

/-! ### An enumeration cycle does not depend on the heap before it -/

theorem deref_append_add (pre en : Heap) (a : Nat) :
    deref (pre ++ en) (pre.length + a) = deref en a := by
  unfold deref
  rw [List.getD_eq_getElem?_getD, List.getD_eq_getElem?_getD,
    List.getElem?_append_right (Nat.le_add_right _ _), Nat.add_sub_cancel_left]

theorem buildPidMap_shift (pre en : Heap) :
    ∀ (l : List Nat) (m m' : PidMap),
      (∀ k, m' k = (m k).map (fun x => pre.length + x)) →
      ∀ k, buildPidMap (pre ++ en) (l.map (fun x => pre.length + x)) m' k
        = (buildPidMap en l m k).map (fun x => pre.length + x)
  | [], _, _, h, k => h k
  | a :: l, m, m', h, k => by
    rw [List.map_cons, buildPidMap, buildPidMap, deref_append_add]
    apply buildPidMap_shift pre en l
    intro k'
    unfold PidMap.assign
    split
    · rfl
    · exact h k'

theorem acceptedParent_shift (pre en : Heap) (pm1 pm2 : PidMap)
    (hpm : ∀ k, pm2 k = (pm1 k).map (fun x => pre.length + x)) (a : Nat) :
    acceptedParent pm2 (pre ++ en) (pre.length + a)
      = (acceptedParent pm1 en a).map (fun x => pre.length + x) := by
  unfold acceptedParent
  rw [deref_append_add, hpm]
  cases pm1 (deref en a).parentPid with
  | none => rfl
  | some p =>
    simp only [Option.map_some', deref_append_add]
    split <;> rfl

/-- Reading a subtree at shifted addresses: if the objects from `d` on of one heap are those of
another heap, with the addresses of the children shifted by `d`, the subtrees are equal. -/
theorem readTree_shift (h1 h2 : Heap) (d : Nat) (hlen : h2.length = d + h1.length)
    (hdata : ∀ a, a < h1.length →
      (deref h2 (d + a)).pid = (deref h1 a).pid ∧
      (deref h2 (d + a)).parentPid = (deref h1 a).parentPid ∧
      (deref h2 (d + a)).name = (deref h1 a).name ∧
      (deref h2 (d + a)).cpuPercent = (deref h1 a).cpuPercent ∧
      (deref h2 (d + a)).memoryBytes = (deref h1 a).memoryBytes ∧
      (deref h2 (d + a)).creationTime = (deref h1 a).creationTime ∧
      (deref h2 (d + a)).children = (deref h1 a).children.map (fun x => d + x)) :
    ∀ (k a : Nat), readTree h2 k (d + a) = readTree h1 k a
  | 0, _ => rfl
  | k + 1, a => by
    rw [readTree, readTree]
    by_cases ha : a < h1.length
    · obtain ⟨e1, e2, e3, e4, e5, e6, e7⟩ := hdata a ha
      rw [deref_of_lt ha, deref_of_lt (show d + a < h2.length by omega)]
      simp only
      rw [e7, List.map_map]
      have hmap : (deref h1 a).children.map (readTree h2 k ∘ fun x => d + x)
          = (deref h1 a).children.map (readTree h1 k) := by
        apply List.map_congr_left
        intro c _
        exact readTree_shift h1 h2 d hlen hdata k c
      rw [hmap, e1, e2, e3, e4, e5, e6]
    · rw [List.getElem?_eq_none (show h1.length ≤ a by omega),
        List.getElem?_eq_none (show h2.length ≤ d + a by omega)]

theorem readForest_shift (h1 h2 : Heap) (d : Nat) (k : Nat) (roots : List Nat)
    (h : ∀ a, readTree h2 k (d + a) = readTree h1 k a) :
    readForest h2 k (roots.map (fun x => d + x)) = readForest h1 k roots := by
  unfold readForest
  rw [List.map_map]
  congr 1
  apply List.map_congr_left
  intro a _
  exact h a

theorem filter_range' (d n : Nat) (p : Nat → Bool) :
    (List.range' d n).filter p
      = ((List.range n).filter (fun a => p (d + a))).map (fun x => d + x) := by
  rw [List.range'_eq_map_range, List.filter_map]
  rfl

theorem deref_mem {heap : Heap} {a : Nat} (h : a < heap.length) : deref heap a ∈ heap :=
  List.getElem?_mem (deref_of_lt h)

/-- The roots after `buildTree` on objects that sit behind other objects are those after
`buildTree` on the objects alone, shifted, and they own the same subtrees. -/
theorem buildTree_append_shift (pre en : Heap) (hleaf : ∀ o ∈ en, o.children = []) :
    (buildTree (pre ++ en) (List.range' pre.length en.length)).2
      = (buildTree en (List.range en.length)).2.map (fun x => pre.length + x) ∧
    ∀ (k a : Nat),
      readTree (buildTree (pre ++ en) (List.range' pre.length en.length)).1 k (pre.length + a)
        = readTree (buildTree en (List.range en.length)).1 k a := by
  have hv1 : ∀ a ∈ List.range en.length, a < en.length := fun a ha => List.mem_range.1 ha
  have hv2 : ∀ a ∈ List.range' pre.length en.length, a < (pre ++ en).length := by
    intro a ha
    rw [List.mem_range'_1] at ha
    rw [List.length_append]
    exact ha.2
  have hpm : ∀ k, buildPidMap (pre ++ en) (List.range' pre.length en.length) (fun _ => none) k
      = (buildPidMap en (List.range en.length) (fun _ => none) k).map
          (fun x => pre.length + x) := by
    rw [List.range'_eq_map_range]
    exact buildPidMap_shift pre en (List.range en.length) (fun _ => none) (fun _ => none)
      (fun _ => rfl)
  have hacc := acceptedParent_shift pre en _ _ hpm
  have hinj : ∀ (o : Option Nat) (a : Nat),
      (o.map (fun x => pre.length + x) = some (pre.length + a)) ↔ o = some a := by
    intro o a
    cases o with
    | none => simp
    | some b => simp
  have hnone : ∀ (o : Option Nat), (o.map (fun x => pre.length + x) = none) ↔ o = none := by
    intro o
    cases o <;> simp
  constructor
  · rw [buildTree_roots _ _ hv2, buildTree_roots _ _ hv1, filter_range']
    congr 1
    apply List.filter_congr
    intro a _
    simp only [hacc, hnone]
  · apply readTree_shift
    · rw [length_buildTree, length_buildTree, List.length_append]
    · intro a ha
      obtain ⟨e1, e2, e3, e4, e5, e6⟩ := buildTree_data (pre ++ en)
        (List.range' pre.length en.length) (pre.length + a)
      obtain ⟨f1, f2, f3, f4, f5, f6⟩ := buildTree_data en (List.range en.length) a
      rw [length_buildTree] at ha
      have hl1 : (deref en a).children = [] := hleaf _ (deref_mem ha)
      rw [e1, e2, e3, e4, e5, e6, f1, f2, f3, f4, f5, f6, deref_append_add]
      refine ⟨rfl, rfl, rfl, rfl, rfl, rfl, ?_⟩
      rw [buildTree_children _ _ hv2 _ (by rw [List.length_append]; omega),
        buildTree_children _ _ hv1 _ ha, deref_append_add, hl1, List.nil_append,
        List.nil_append, filter_range']
      congr 1
      apply List.filter_congr
      intro b _
      simp only [hacc, hinj]

/-- The forest that an enumeration cycle publishes is the forest of `buildTree` on the
enumerated objects alone. -/
theorem readForest_enumerationCycle (self : ProcessTreeBuilder) (enumerated : List ProcessInfo)
    (hleaf : ∀ o ∈ enumerated, o.children = []) (fuel : Nat) :
    readForest (enumerationCycle self enumerated).heap fuel
        (enumerationCycle self enumerated).processRoots_
      = readForest (buildTree enumerated (List.range enumerated.length)).1 fuel
          (buildTree enumerated (List.range enumerated.length)).2 := by
  obtain ⟨hroots, htree⟩ := buildTree_append_shift self.heap enumerated hleaf
  show readForest (buildTree _ _).1 fuel (buildTree _ _).2 = _
  rw [hroots]
  exact readForest_shift _ _ _ fuel _ (htree fuel)

/-- C12: the forest that an enumeration cycle publishes is the reconciliation (`buildTree`) of
the objects enumerated in that cycle, whatever the builder held before: it is the forest that
`buildTree` makes of these objects on a heap of their own, and with fuel at least their number
it can be read and holds every enumerated record once; the vector published before is not
looked at.  After an empty enumeration the published forest is empty. -/
theorem C12_cycle_publishes_reconciliation_of_enumeration (self : ProcessTreeBuilder)
    (enumerated : List ProcessInfo) (hleaf : ∀ o ∈ enumerated, o.children = []) :
    (∀ fuel,
      readForest (enumerationCycle self enumerated).heap fuel
          (enumerationCycle self enumerated).processRoots_
        = readForest (buildTree enumerated (List.range enumerated.length)).1 fuel
            (buildTree enumerated (List.range enumerated.length)).2) ∧
    (∀ fuel, enumerated.length ≤ fuel →
      ∃ forest,
        readForest (enumerationCycle self enumerated).heap fuel
          (enumerationCycle self enumerated).processRoots_ = some forest ∧
        List.Perm ((descendantsOfForest forest).map ProcessNode.record)
          (enumerated.map ProcessInfo.record)) ∧
    (∀ published : List Nat,
      enumerationCycle { self with processRoots_ := published } enumerated
        = enumerationCycle self enumerated) ∧
    ((enumerationCycle self []).processRoots_ = [] ∧
      ∀ fuel, readForest (enumerationCycle self []).heap fuel
        (enumerationCycle self []).processRoots_ = some []) := by
  refine ⟨readForest_enumerationCycle self enumerated hleaf, fun fuel hfuel => ?_,
    fun _ => rfl, rfl, fun _ => rfl⟩
  rw [readForest_enumerationCycle self enumerated hleaf]
  obtain ⟨forest, hf, hperm⟩ := buildTree_forest_records enumerated
    (List.range enumerated.length) (fun a ha => List.mem_range.1 ha) (List.nodup_range _)
    (fun a ha => hleaf _ (deref_mem (List.mem_range.1 ha))) fuel (by simpa using hfuel)
  refine ⟨forest, hf, ?_⟩
  have hmap : (List.range enumerated.length).map (fun a => (deref enumerated a).record)
      = enumerated.map ProcessInfo.record := by
    apply List.ext_getElem?
    intro i
    rw [List.getElem?_map, List.getElem?_map]
    by_cases hi : i < enumerated.length
    · rw [List.getElem?_range hi, deref_of_lt hi]
      rfl
    · rw [List.getElem?_eq_none (by simpa using hi), List.getElem?_eq_none (by omega)]
      rfl
  rw [← hmap]
  exact hperm

/-- C12 on the builder that has published pid 1 with the children pid 2 and pid 3, followed by
the enumeration of the records {pid=5, parentPid=10, t=100}, {pid=10, parentPid=0, t=150}, and
by an empty enumeration. -/
theorem C12_after_nonempty_witness :
    (∀ o ∈ pidReuseHeap, o.children = []) ∧
    readForest scenarioBuilder.heap 3 scenarioBuilder.processRoots_ = some scenarioFan ∧
    ((∀ fuel,
        readForest (enumerationCycle scenarioBuilder pidReuseHeap).heap fuel
            (enumerationCycle scenarioBuilder pidReuseHeap).processRoots_
          = readForest (buildTree pidReuseHeap (List.range pidReuseHeap.length)).1 fuel
              (buildTree pidReuseHeap (List.range pidReuseHeap.length)).2) ∧
      (∀ fuel, pidReuseHeap.length ≤ fuel →
        ∃ forest,
          readForest (enumerationCycle scenarioBuilder pidReuseHeap).heap fuel
            (enumerationCycle scenarioBuilder pidReuseHeap).processRoots_ = some forest ∧
          List.Perm ((descendantsOfForest forest).map ProcessNode.record)
            (pidReuseHeap.map ProcessInfo.record)) ∧
      (∀ published : List Nat,
        enumerationCycle { scenarioBuilder with processRoots_ := published } pidReuseHeap
          = enumerationCycle scenarioBuilder pidReuseHeap) ∧
      ((enumerationCycle scenarioBuilder []).processRoots_ = [] ∧
        ∀ fuel, readForest (enumerationCycle scenarioBuilder []).heap fuel
          (enumerationCycle scenarioBuilder []).processRoots_ = some [])) :=
  ⟨by decide, readForest_scenario 1,
    C12_cycle_publishes_reconciliation_of_enumeration scenarioBuilder pidReuseHeap (by decide)⟩

/-! ### start() and terminateProcess() -/

theorem collectorStart_spec {σ : Type} (init : σ → Bool × σ) (collector_ : σ)
    (ctl : EngineControl) :
    ((init collector_).1 = false →
      SystemDataCollector.start init collector_ ctl
        = some (false, (init collector_).2, ctl)) ∧
    ((init collector_).1 = true → ctl.threadJoinable = false →
      SystemDataCollector.start init collector_ ctl
        = some (true, (init collector_).2, { running_ := true, threadJoinable := true })) ∧
    (∀ r, SystemDataCollector.start init collector_ ctl = some r →
      (r.1 = false ↔ (init collector_).1 = false)) := by
  unfold SystemDataCollector.start
  refine ⟨fun h => by simp [h], fun h hj => by simp [h, hj], fun r hr => ?_⟩
  cases hi : (init collector_).1 <;> cases hj : ctl.threadJoinable <;>
    simp [hi, hj] at hr <;> simp [← hr]

theorem builderStart_spec {σ : Type} (init : σ → Bool × σ) (collector_ : σ)
    (ctl : EngineControl) :
    ((init collector_).1 = false →
      ProcessTreeBuilder.start init collector_ ctl
        = some (false, (init collector_).2, ctl)) ∧
    ((init collector_).1 = true → ctl.threadJoinable = false →
      ProcessTreeBuilder.start init collector_ ctl
        = some (true, (init collector_).2, { running_ := true, threadJoinable := true })) ∧
    (∀ r, ProcessTreeBuilder.start init collector_ ctl = some r →
      (r.1 = false ↔ (init collector_).1 = false)) := by
  unfold ProcessTreeBuilder.start
  refine ⟨fun h => by simp [h], fun h hj => by simp [h, hj], fun r hr => ?_⟩
  cases hi : (init collector_).1 <;> cases hj : ctl.threadJoinable <;>
    simp [hi, hj] at hr <;> simp [← hr]

/-- C17: for both engines, on an engine that holds no thread yet, `start()` returns false exactly
when `initialize()` returns false, and then `running_` and the thread member are what they were
(false and empty on a constructed engine); when `initialize()` returns true, `start()` returns
true with `running_` set and the thread spawned. -/
theorem C17_start_fails_iff_init_fails {σ : Type} (init : σ → Bool × σ)
    (collector_ : σ) :
    (((init collector_).1 = false →
        SystemDataCollector.start init collector_ {}
          = some (false, (init collector_).2,
              { running_ := false, threadJoinable := false })) ∧
      ((init collector_).1 = true →
        SystemDataCollector.start init collector_ {}
          = some (true, (init collector_).2,
              { running_ := true, threadJoinable := true })) ∧
      (∀ ctl r, SystemDataCollector.start init collector_ ctl = some r →
        (r.1 = false ↔ (init collector_).1 = false)) ∧
      (∀ ctl, (init collector_).1 = false →
        SystemDataCollector.start init collector_ ctl
          = some (false, (init collector_).2, ctl))) ∧
    (((init collector_).1 = false →
        ProcessTreeBuilder.start init collector_ {}
          = some (false, (init collector_).2,
              { running_ := false, threadJoinable := false })) ∧
      ((init collector_).1 = true →
        ProcessTreeBuilder.start init collector_ {}
          = some (true, (init collector_).2,
              { running_ := true, threadJoinable := true })) ∧
      (∀ ctl r, ProcessTreeBuilder.start init collector_ ctl = some r →
        (r.1 = false ↔ (init collector_).1 = false)) ∧
      (∀ ctl, (init collector_).1 = false →
        ProcessTreeBuilder.start init collector_ ctl
          = some (false, (init collector_).2, ctl))) :=
  ⟨⟨(collectorStart_spec init collector_ {}).1,
      fun h => (collectorStart_spec init collector_ {}).2.1 h rfl,
      fun ctl => (collectorStart_spec init collector_ ctl).2.2,
      fun ctl => (collectorStart_spec init collector_ ctl).1⟩,
    ⟨(builderStart_spec init collector_ {}).1,
      fun h => (builderStart_spec init collector_ {}).2.1 h rfl,
      fun ctl => (builderStart_spec init collector_ ctl).2.2,
      fun ctl => (builderStart_spec init collector_ ctl).1⟩⟩

/-- C20: `terminateProcess(pid)` makes the terminate call of the process source once, with that
pid, returns the flag that the call returned, and leaves the builder (heap and `processRoots_`,
so the published forest) as it was; a source that logs its terminate calls has logged exactly
`pid` afterwards. -/
theorem C20_terminateProcess_delegates_once {σ : Type} (terminate : σ → Nat → Bool × σ)
    (collector_ : σ) (self : ProcessTreeBuilder) (pid : Nat) :
    (ProcessTreeBuilder.terminateProcess terminate collector_ self pid).1
      = (terminate collector_ pid).1 ∧
    (ProcessTreeBuilder.terminateProcess terminate collector_ self pid).2.1
      = (terminate collector_ pid).2 ∧
    (ProcessTreeBuilder.terminateProcess terminate collector_ self pid).2.2 = self ∧
    (∀ fuel, readForest
        (ProcessTreeBuilder.terminateProcess terminate collector_ self pid).2.2.heap fuel
        (ProcessTreeBuilder.terminateProcess terminate collector_ self pid).2.2.processRoots_
      = readForest self.heap fuel self.processRoots_) ∧
    (∀ (answer : Bool) (log : List Nat),
      (ProcessTreeBuilder.terminateProcess (loggingTerminate answer) log self pid).1 = answer ∧
      (ProcessTreeBuilder.terminateProcess (loggingTerminate answer) log self pid).2.1
        = log ++ [pid]) :=
  ⟨rfl, rfl, rfl, fun _ => rfl, fun _ _ => ⟨rfl, rfl⟩⟩

/-! ### Publishing: the merge step and `refresh()` -/

/-- What an iteration publishes: nothing if no category is due, and otherwise the merge of the
scratch snapshot, stamped with the wall-clock time. -/
theorem collectionLoopIteration_published {σ : Type} (src : ISystemCollector σ)
    (now : Int) (wallMs : Nat) (self : SystemDataCollector σ) (locals : LoopLocals) :
    (collectionLoopIteration src now wallMs self locals).1.currentMetrics_
      = (if dueCategories self.config_ now locals = [] then self.currentMetrics_
         else mergeMetrics self.currentMetrics_
          { (src.run (dueCategories self.config_ now locals) (self.collector_, {})).2 with
            timestampMs := wallMs }) ∧
    (collectionLoopIteration src now wallMs self locals).1.config_ = self.config_ := by
  by_cases h1 : (self.config_.cpuSampleIntervalMs : Int) ≤ elapsedMs now locals.lastCpuSample <;>
  by_cases h2 : (self.config_.memorySampleIntervalMs : Int)
      ≤ elapsedMs now locals.lastMemorySample <;>
  by_cases h3 : (self.config_.diskSampleIntervalMs : Int)
      ≤ elapsedMs now locals.lastDiskSample <;>
  by_cases h4 : (self.config_.networkSampleIntervalMs : Int)
      ≤ elapsedMs now locals.lastNetworkSample <;>
  simp [collectionLoopIteration, publish, sampleNetwork, sampleDisk, sampleMemory, sampleCpu,
    dueCategories, ISystemCollector.run, ISystemCollector.call, h1, h2, h3, h4]

theorem collectAllMetrics_eq_run {σ : Type} (src : ISystemCollector σ) (wallMs : Nat)
    (self : SystemDataCollector σ) :
    (collectAllMetrics src wallMs self).collector_
      = (src.run [Category.cpu, Category.memory, Category.disk, Category.network]
          (self.collector_, {})).1 ∧
    (collectAllMetrics src wallMs self).currentMetrics_
      = { (src.run [Category.cpu, Category.memory, Category.disk, Category.network]
            (self.collector_, {})).2 with timestampMs := wallMs } ∧
    (collectAllMetrics src wallMs self).config_ = self.config_ := by
  simp [collectAllMetrics, ISystemCollector.run, ISystemCollector.call]

/-- C13: `refresh()` makes the four collection calls, CPU, memory, disk, network in this order,
on a fresh zero-initialised snapshot, whatever the configured intervals and the last-sample
times; the published snapshot afterwards is that scratch snapshot, stamped with the wall-clock
time, in every field; and the last-sample times of the loop are what they were. -/
theorem C13_refresh_samples_all_four_and_publishes_wholesale {σ : Type}
    (src : ISystemCollector σ) (wallMs : Nat) (self : SystemDataCollector σ)
    (locals : LoopLocals) :
    (refresh src wallMs self).collector_
      = (src.collectNetworkMetrics
          (src.collectDiskMetrics
            (src.collectMemoryMetrics
              (src.collectCPUMetrics self.collector_ {}).1
              (src.collectCPUMetrics self.collector_ {}).2).1
            (src.collectMemoryMetrics
              (src.collectCPUMetrics self.collector_ {}).1
              (src.collectCPUMetrics self.collector_ {}).2).2).1
          (src.collectDiskMetrics
            (src.collectMemoryMetrics
              (src.collectCPUMetrics self.collector_ {}).1
              (src.collectCPUMetrics self.collector_ {}).2).1
            (src.collectMemoryMetrics
              (src.collectCPUMetrics self.collector_ {}).1
              (src.collectCPUMetrics self.collector_ {}).2).2).2).1 ∧
    (refresh src wallMs self).collector_
      = (src.run [Category.cpu, Category.memory, Category.disk, Category.network]
          (self.collector_, {})).1 ∧
    (refresh src wallMs self).currentMetrics_
      = { (src.run [Category.cpu, Category.memory, Category.disk, Category.network]
            (self.collector_, {})).2 with timestampMs := wallMs } ∧
    (step src (self, locals) (Event.refresh wallMs)).1 = refresh src wallMs self ∧
    (step src (self, locals) (Event.refresh wallMs)).2 = locals := by
  refine ⟨rfl, (collectAllMetrics_eq_run src wallMs self).1,
    (collectAllMetrics_eq_run src wallMs self).2.1, rfl, rfl⟩

/-- C14: a tick 6000 ms after loop start with the default configuration, every category last
sampled at 5000 ms: CPU, disk and network are due, their calls are made and all fail softly.
The published CPU fields are the previous ones (25, `[20, 30]`), but the published disk and
network rates (4096, 2048, 100, 200 before the tick) are 0. -/
theorem C14_failed_disk_network_sample_overwrites :
    dueCategories publishedAll.config_ 6000000000 sampledAtFiveSeconds
      = [Category.cpu, Category.disk, Category.network] ∧
    (failingSource.run [Category.cpu, Category.disk, Category.network] ((), {})).2 = {} ∧
    (collectionLoopIteration failingSource 6000000000 6000 publishedAll
        sampledAtFiveSeconds).1.currentMetrics_
      = { cpuUsagePercent := 25, perCoreCpuUsage := [20, 30],
          totalMemoryBytes := 8000, usedMemoryBytes := 4000, memoryUsagePercent := 50,
          diskReadBytesPerSec := 0, diskWriteBytesPerSec := 0,
          networkRecvBytesPerSec := 0, networkSendBytesPerSec := 0, timestampMs := 6000 } := by
  have h1 : elapsedMs 6000000000 5000000000 = 1000 := by decide
  refine ⟨?_, ?_, ?_⟩
  · simp [dueCategories, publishedAll, sampledAtFiveSeconds, h1]
  · simp [ISystemCollector.run, ISystemCollector.call, failingSource]
  · simp [collectionLoopIteration, publish, sampleNetwork, sampleDisk, sampleMemory, sampleCpu,
      mergeMetrics, failingSource, publishedAll, sampledAtFiveSeconds, h1]

/-! ### Invariants of the published snapshot -/

theorem percentagesInRange_default : ({} : SystemMetrics).PercentagesInRange := by
  simp [SystemMetrics.PercentagesInRange]

theorem percentagesInRange_run {σ : Type} {src : ISystemCollector σ}
    (hsrc : WritesPercentagesInRange src) :
    ∀ (calls : List Category) (s : σ × SystemMetrics), s.2.PercentagesInRange →
      (src.run calls s).2.PercentagesInRange
  | [], _, h => h
  | c :: calls, s, h => by
    show (src.run calls (src.call c s)).2.PercentagesInRange
    exact percentagesInRange_run hsrc calls _ (hsrc c s.1 s.2 h)

theorem percentagesInRange_timestamp {m : SystemMetrics} (h : m.PercentagesInRange)
    (wallMs : Nat) : ({ m with timestampMs := wallMs } : SystemMetrics).PercentagesInRange := h

theorem percentagesInRange_mergeMetrics {cur new : SystemMetrics} (hc : cur.PercentagesInRange)
    (hn : new.PercentagesInRange) : (mergeMetrics cur new).PercentagesInRange := by
  obtain ⟨c1, c2, c3⟩ := hc
  obtain ⟨n1, n2, n3⟩ := hn
  unfold mergeMetrics SystemMetrics.PercentagesInRange
  by_cases h1 : new.cpuUsagePercent > 0 <;> by_cases h2 : new.totalMemoryBytes > 0 <;>
    simp only [h1, h2, if_true, if_false] <;>
    exact ⟨by assumption, by assumption, by assumption⟩

theorem percentagesInRange_step {σ : Type} {src : ISystemCollector σ}
    (hsrc : WritesPercentagesInRange src) (s : SystemDataCollector σ × LoopLocals)
    (h : s.1.currentMetrics_.PercentagesInRange) (e : Event) :
    (step src s e).1.currentMetrics_.PercentagesInRange := by
  cases e with
  | tick now wallMs =>
    show (collectionLoopIteration src now wallMs s.1 s.2).1.currentMetrics_.PercentagesInRange
    rw [(collectionLoopIteration_published src now wallMs s.1 s.2).1]
    split
    · exact h
    · exact percentagesInRange_mergeMetrics h
        (percentagesInRange_timestamp
          (percentagesInRange_run hsrc _ _ percentagesInRange_default) wallMs)
  | refresh wallMs =>
    show (collectAllMetrics src wallMs s.1).currentMetrics_.PercentagesInRange
    rw [(collectAllMetrics_eq_run src wallMs s.1).2.1]
    exact percentagesInRange_timestamp
      (percentagesInRange_run hsrc _ _ percentagesInRange_default) wallMs

theorem percentagesInRange_runEvents {σ : Type} {src : ISystemCollector σ}
    (hsrc : WritesPercentagesInRange src) :
    ∀ (events : List Event) (s : SystemDataCollector σ × LoopLocals),
      s.1.currentMetrics_.PercentagesInRange →
        (runEvents src s events).1.currentMetrics_.PercentagesInRange
  | [], _, h => h
  | e :: events, s, h => by
    show (runEvents src (step src s e) events).1.currentMetrics_.PercentagesInRange
    exact percentagesInRange_runEvents hsrc events _ (percentagesInRange_step hsrc s h e)

/-- C18: if every percentage that the metric source writes lies in [0, 100], then, starting from
the zero snapshot, after any sequence of loop ticks and `refresh()` calls the published overall
CPU percent, every published per-core percent and the published memory percent lie in
[0, 100]. -/
theorem C18_published_percentages_in_range {σ : Type} (src : ISystemCollector σ)
    (hsrc : WritesPercentagesInRange src) (s : SystemDataCollector σ × LoopLocals)
    (hzero : s.1.currentMetrics_ = {}) (events : List Event) :
    (0 ≤ (runEvents src s events).1.currentMetrics_.cpuUsagePercent ∧
      (runEvents src s events).1.currentMetrics_.cpuUsagePercent ≤ 100) ∧
    (∀ p ∈ (runEvents src s events).1.currentMetrics_.perCoreCpuUsage,
      0 ≤ p ∧ p ≤ 100) ∧
    (0 ≤ (runEvents src s events).1.currentMetrics_.memoryUsagePercent ∧
      (runEvents src s events).1.currentMetrics_.memoryUsagePercent ≤ 100) :=
  percentagesInRange_runEvents hsrc events s (by rw [hzero]; exact percentagesInRange_default)

theorem writesPercentagesInRange_fixedSource (reading : SystemMetrics)
    (h : reading.PercentagesInRange) : WritesPercentagesInRange (fixedSource reading) := by
  obtain ⟨r1, r2, r3⟩ := h
  intro c s m hm
  obtain ⟨m1, m2, m3⟩ := hm
  cases c <;> exact ⟨by assumption, by assumption, by assumption⟩

/-- C18 on a source that reads 50 % CPU, per-core 45 % and 55 %, and 40 % memory, with one tick
1000 ms after loop start followed by a `refresh()`. -/
theorem C18_fixed_source_witness :
    (WritesPercentagesInRange
        (fixedSource { cpuUsagePercent := 50, perCoreCpuUsage := [45, 55],
                       memoryUsagePercent := 40 }) ∧
      (freshCollector, sampledAtStart).1.currentMetrics_ = {}) ∧
    ((0 ≤ (runEvents (fixedSource { cpuUsagePercent := 50, perCoreCpuUsage := [45, 55],
                                    memoryUsagePercent := 40 })
            (freshCollector, sampledAtStart)
            [Event.tick 1000000000 1000, Event.refresh 1200]).1.currentMetrics_.cpuUsagePercent ∧
        (runEvents (fixedSource { cpuUsagePercent := 50, perCoreCpuUsage := [45, 55],
                                  memoryUsagePercent := 40 })
            (freshCollector, sampledAtStart)
            [Event.tick 1000000000 1000, Event.refresh 1200]).1.currentMetrics_.cpuUsagePercent
          ≤ 100) ∧
      (∀ p ∈ (runEvents (fixedSource { cpuUsagePercent := 50, perCoreCpuUsage := [45, 55],
                                       memoryUsagePercent := 40 })
            (freshCollector, sampledAtStart)
            [Event.tick 1000000000 1000, Event.refresh 1200]).1.currentMetrics_.perCoreCpuUsage,
        0 ≤ p ∧ p ≤ 100) ∧
      (0 ≤ (runEvents (fixedSource { cpuUsagePercent := 50, perCoreCpuUsage := [45, 55],
                                     memoryUsagePercent := 40 })
            (freshCollector, sampledAtStart)
            [Event.tick 1000000000 1000,
              Event.refresh 1200]).1.currentMetrics_.memoryUsagePercent ∧
        (runEvents (fixedSource { cpuUsagePercent := 50, perCoreCpuUsage := [45, 55],
                                  memoryUsagePercent := 40 })
            (freshCollector, sampledAtStart)
            [Event.tick 1000000000 1000,
              Event.refresh 1200]).1.currentMetrics_.memoryUsagePercent ≤ 100)) := by
  have hsrc : WritesPercentagesInRange
      (fixedSource { cpuUsagePercent := 50, perCoreCpuUsage := [45, 55],
                     memoryUsagePercent := 40 }) := by
    apply writesPercentagesInRange_fixedSource
    simp only [SystemMetrics.PercentagesInRange, List.mem_cons, List.mem_singleton,
      List.not_mem_nil, or_false]
    refine ⟨by norm_num, ?_, by norm_num⟩
    rintro p (rfl | rfl) <;> norm_num
  exact ⟨⟨hsrc, rfl⟩,
    C18_published_percentages_in_range _ hsrc (freshCollector, sampledAtStart) rfl _⟩

/-! ### The number of per-core values -/

theorem run_cons {σ : Type} (src : ISystemCollector σ) (c : Category) (calls : List Category)
    (s : σ × SystemMetrics) : src.run (c :: calls) s = src.run calls (src.call c s) := rfl

theorem cpuFields_run_of_not_mem {σ : Type} {src : ISystemCollector σ} {k : Nat}
    (hsrc : WritesCores src k) :
    ∀ (calls : List Category) (s : σ × SystemMetrics), Category.cpu ∉ calls →
      (src.run calls s).2.cpuUsagePercent = s.2.cpuUsagePercent ∧
      (src.run calls s).2.perCoreCpuUsage = s.2.perCoreCpuUsage
  | [], _, _ => ⟨rfl, rfl⟩
  | c :: calls, s, h => by
    have hc : c ≠ Category.cpu := fun e => h (e ▸ List.mem_cons_self _ _)
    obtain ⟨h1, h2⟩ := cpuFields_run_of_not_mem hsrc calls (src.call c s)
      (fun hm => h (List.mem_cons_of_mem _ hm))
    obtain ⟨h3, h4⟩ := hsrc.2 c s.1 s.2 hc
    rw [run_cons]
    exact ⟨h1.trans h3, h2.trans h4⟩

theorem dueCategories_eq_cpu_append (config : Configuration) (now : Int) (locals : LoopLocals) :
    ∃ tail, Category.cpu ∉ tail ∧
      dueCategories config now locals
        = (if elapsedMs now locals.lastCpuSample ≥ (config.cpuSampleIntervalMs : Int)
            then [Category.cpu] else []) ++ tail := by
  refine ⟨(if elapsedMs now locals.lastMemorySample ≥ (config.memorySampleIntervalMs : Int)
      then [Category.memory] else [])
    ++ (if elapsedMs now locals.lastDiskSample ≥ (config.diskSampleIntervalMs : Int)
      then [Category.disk] else [])
    ++ (if elapsedMs now locals.lastNetworkSample ≥ (config.networkSampleIntervalMs : Int)
      then [Category.network] else []), ?_, ?_⟩
  · split_ifs <;> simp
  · simp only [dueCategories, List.append_assoc]

/-- The scratch snapshot of an iteration has `k` per-core values whenever its overall CPU value
is positive. -/
theorem scratch_cores {σ : Type} {src : ISystemCollector σ} {k : Nat}
    (hsrc : WritesCores src k) (config : Configuration) (now : Int) (locals : LoopLocals)
    (c : σ)
    (hpos : (src.run (dueCategories config now locals) (c, {})).2.cpuUsagePercent > 0) :
    (src.run (dueCategories config now locals) (c, {})).2.perCoreCpuUsage.length = k := by
  obtain ⟨tail, htail, hdue⟩ := dueCategories_eq_cpu_append config now locals
  rw [hdue] at hpos ⊢
  split at hpos
  · rename_i hcpu
    rw [if_pos hcpu, List.singleton_append, run_cons,
      (cpuFields_run_of_not_mem hsrc tail _ htail).2]
    exact hsrc.1 c {}
  · rw [List.nil_append, (cpuFields_run_of_not_mem hsrc tail _ htail).1] at hpos
    exact absurd hpos (by norm_num)

theorem cores_step {σ : Type} {src : ISystemCollector σ} {k : Nat}
    (hsrc : WritesCores src k) (s : SystemDataCollector σ × LoopLocals)
    (h : s.1.currentMetrics_.perCoreCpuUsage.length = k) (e : Event) :
    (step src s e).1.currentMetrics_.perCoreCpuUsage.length = k := by
  cases e with
  | tick now wallMs =>
    show (collectionLoopIteration src now wallMs s.1 s.2).1.currentMetrics_.perCoreCpuUsage.length
      = k
    rw [(collectionLoopIteration_published src now wallMs s.1 s.2).1]
    split
    · exact h
    · have hsc := scratch_cores hsrc s.1.config_ now s.2 s.1.collector_
      unfold mergeMetrics
      by_cases h1 : (src.run (dueCategories s.1.config_ now s.2)
          (s.1.collector_, {})).2.cpuUsagePercent > 0
      · by_cases h2 : (src.run (dueCategories s.1.config_ now s.2)
            (s.1.collector_, {})).2.totalMemoryBytes > 0 <;>
          simp only [h1, h2, if_true, if_false] <;> exact hsc h1
      · by_cases h2 : (src.run (dueCategories s.1.config_ now s.2)
            (s.1.collector_, {})).2.totalMemoryBytes > 0 <;>
          simp only [h1, h2, if_true, if_false] <;> exact h
  | refresh wallMs =>
    show (collectAllMetrics src wallMs s.1).currentMetrics_.perCoreCpuUsage.length = k
    rw [(collectAllMetrics_eq_run src wallMs s.1).2.1]
    show (src.run [Category.cpu, Category.memory, Category.disk, Category.network]
      (s.1.collector_, {})).2.perCoreCpuUsage.length = k
    rw [run_cons, (cpuFields_run_of_not_mem hsrc _ _ (by decide)).2]
    exact hsrc.1 _ _

theorem cores_runEvents {σ : Type} {src : ISystemCollector σ} {k : Nat}
    (hsrc : WritesCores src k) :
    ∀ (events : List Event) (s : SystemDataCollector σ × LoopLocals),
      s.1.currentMetrics_.perCoreCpuUsage.length = k →
        (runEvents src s events).1.currentMetrics_.perCoreCpuUsage.length = k
  | [], _, h => h
  | e :: events, s, h => by
    show (runEvents src (step src s e) events).1.currentMetrics_.perCoreCpuUsage.length = k
    exact cores_runEvents hsrc events _ (cores_step hsrc s h e)

/-- C19: if every CPU collection call of the metric source writes `k` per-core values (and the
other calls leave the CPU fields alone), then once the published per-core sequence has length
`k` it has length `k` after every later sequence of loop ticks and `refresh()` calls. -/
theorem C19_per_core_length_stable {σ : Type} (src : ISystemCollector σ) (k : Nat)
    (hsrc : WritesCores src k) (s : SystemDataCollector σ × LoopLocals)
    (hk : s.1.currentMetrics_.perCoreCpuUsage.length = k) (events : List Event) :
    (runEvents src s events).1.currentMetrics_.perCoreCpuUsage.length = k :=
  cores_runEvents hsrc events s hk

theorem writesCores_fixedSource (reading : SystemMetrics) :
    WritesCores (fixedSource reading) reading.perCoreCpuUsage.length := by
  refine ⟨fun _ _ => rfl, ?_⟩
  intro c s m hc
  cases c
  · exact absurd rfl hc
  · exact ⟨rfl, rfl⟩
  · exact ⟨rfl, rfl⟩
  · exact ⟨rfl, rfl⟩

/-- C19 on a source that reads two per-core values, from a collector that has published two,
with one tick 2000 ms after loop start followed by a `refresh()` and another tick. -/
theorem C19_two_cores_witness :
    (WritesCores (fixedSource { cpuUsagePercent := 50, perCoreCpuUsage := [45, 55] }) 2 ∧
      (busyCollector, sampledAtStart).1.currentMetrics_.perCoreCpuUsage.length = 2) ∧
    (runEvents (fixedSource { cpuUsagePercent := 50, perCoreCpuUsage := [45, 55] })
        (busyCollector, sampledAtStart)
        [Event.tick 2000000000 2000, Event.refresh 2500,
          Event.tick 2100000000 2100]).1.currentMetrics_.perCoreCpuUsage.length = 2 :=
  ⟨⟨writesCores_fixedSource { cpuUsagePercent := 50, perCoreCpuUsage := [45, 55] }, rfl⟩,
    C19_per_core_length_stable
      (fixedSource { cpuUsagePercent := 50, perCoreCpuUsage := [45, 55] }) 2
      (writesCores_fixedSource { cpuUsagePercent := 50, perCoreCpuUsage := [45, 55] })
      (busyCollector, sampledAtStart) rfl _⟩

/-! ### The cadence of a category under regular ticks -/

theorem mem_dueCategories_iff (config : Configuration) (now : Int) (locals : LoopLocals)
    (c : Category) :
    c ∈ dueCategories config now locals ↔
      (config.sampleIntervalMs c : Int) ≤ elapsedMs now (locals.lastSample c) := by
  obtain ⟨h1, h2, h3, h4⟩ := mem_dueCategories config now locals
  cases c
  · exact h1
  · exact h2
  · exact h3
  · exact h4

theorem lastSample_iteration {σ : Type} (src : ISystemCollector σ) (now : Int) (wallMs : Nat)
    (self : SystemDataCollector σ) (locals : LoopLocals) (c : Category) :
    (collectionLoopIteration src now wallMs self locals).2.lastSample c
      = if c ∈ dueCategories self.config_ now locals then now else locals.lastSample c := by
  obtain ⟨h1, h2, h3, h4⟩ := collectionLoopIteration_last src now wallMs self locals
  cases c
  · exact h1
  · exact h2
  · exact h3
  · exact h4

theorem nodup_dueCategories (config : Configuration) (now : Int) (locals : LoopLocals) :
    (dueCategories config now locals).Nodup := by
  unfold dueCategories
  split_ifs <;> decide

theorem count_dueCategories (config : Configuration) (now : Int) (locals : LoopLocals)
    (c : Category) :
    (dueCategories config now locals).count c
      = if c ∈ dueCategories config now locals then 1 else 0 := by
  split
  · rename_i h
    exact List.count_eq_one_of_mem (nodup_dueCategories config now locals) h
  · rename_i h
    exact List.count_eq_zero_of_not_mem h

theorem recordingSource_call (c : Category) (log : List Category) (m : SystemMetrics) :
    recordingSource.call c (log, m) = (log ++ [c], m) := by
  cases c <;> rfl

theorem recordingSource_run :
    ∀ (calls : List Category) (log : List Category) (m : SystemMetrics),
      (recordingSource.run calls (log, m)).1 = log ++ calls
  | [], log, _ => by simp [ISystemCollector.run]
  | c :: calls, log, m => by
    rw [run_cons, recordingSource_call, recordingSource_run calls]
    simp

theorem elapsedMs_ticks (start : Int) (a b : Nat) (h : b ≤ a) :
    elapsedMs (start + (a : Int) * 100000000) (start + (b : Int) * 100000000)
      = (((a - b) * 100 : Nat) : Int) := by
  unfold elapsedMs
  have e : start + (a : Int) * 100000000 - (start + (b : Int) * 100000000)
      = (((a - b) * 100 : Nat) : Int) * 1000000 := by
    push_cast [Nat.cast_sub h]
    ring
  rw [e, Int.mul_tdiv_cancel _ (by norm_num)]

theorem regularTicks_succ (start : Int) (n : Nat) :
    regularTicks start (n + 1)
      = regularTicks start n
        ++ [Event.tick (start + ((n + 1 : Nat) : Int) * 100000000) ((n + 1) * 100)] := by
  unfold regularTicks
  rw [List.range_succ, List.map_append]
  rfl

theorem afterTicks_succ (config : Configuration) (start : Int) (n : Nat) :
    afterTicks config start (n + 1)
      = collectionLoopIteration recordingSource (start + ((n + 1 : Nat) : Int) * 100000000)
          ((n + 1) * 100) (afterTicks config start n).1 (afterTicks config start n).2 := by
  unfold afterTicks runEvents
  rw [regularTicks_succ, List.foldl_append]
  rfl

/-- After the iterations `0, …, n` a category with interval `I ≥ 1`, which takes `m` ticks
(`I` rounded up to whole ticks), has been sampled `q` times and last at tick `m * q`, where
`m * q ≤ n < m * (q + 1)`. -/
theorem afterTicks_invariant (config : Configuration) (start : Int) (c : Category)
    (hI : 1 ≤ config.sampleIntervalMs c) :
    ∀ n : Nat, ∃ q : Nat,
      (config.sampleIntervalMs c + 99) / 100 * q ≤ n ∧
      n < (config.sampleIntervalMs c + 99) / 100 * q + (config.sampleIntervalMs c + 99) / 100 ∧
      (afterTicks config start n).2.lastSample c
        = start + ((((config.sampleIntervalMs c + 99) / 100 * q : Nat)) : Int) * 100000000 ∧
      (afterTicks config start n).1.collector_.count c = q ∧
      (afterTicks config start n).1.config_ = config
  | 0 => by
    refine ⟨0, by simp, by omega, ?_, ?_, ?_⟩
    · have hnot : c ∉ dueCategories config (start + ((0 : Nat) : Int) * 100000000)
          (LoopLocals.atStart start) := by
        rw [mem_dueCategories_iff]
        have hl : (LoopLocals.atStart start).lastSample c
            = start + ((0 : Nat) : Int) * 100000000 := by
          cases c <;> simp [LoopLocals.atStart, LoopLocals.lastSample]
        rw [hl, elapsedMs_ticks start 0 0 (le_refl _)]
        push_cast
        omega
      show (collectionLoopIteration recordingSource (start + ((0 : Nat) : Int) * 100000000) _ _
        (LoopLocals.atStart start)).2.lastSample c = _
      rw [lastSample_iteration, if_neg hnot]
      cases c <;> simp [LoopLocals.atStart, LoopLocals.lastSample]
    · have hnot : c ∉ dueCategories config (start + ((0 : Nat) : Int) * 100000000)
          (LoopLocals.atStart start) := by
        rw [mem_dueCategories_iff]
        have hl : (LoopLocals.atStart start).lastSample c
            = start + ((0 : Nat) : Int) * 100000000 := by
          cases c <;> simp [LoopLocals.atStart, LoopLocals.lastSample]
        rw [hl, elapsedMs_ticks start 0 0 (le_refl _)]
        push_cast
        omega
      show (collectionLoopIteration recordingSource (start + ((0 : Nat) : Int) * 100000000) _
        { config_ := config, collector_ := [], currentMetrics_ := {} }
        (LoopLocals.atStart start)).1.collector_.count c = 0
      rw [(collectionLoopIteration_calls _ _ _ _ _).1, recordingSource_run, List.nil_append]
      exact List.count_eq_zero_of_not_mem hnot
    · exact (collectionLoopIteration_published _ _ _ _ _).2
  | n + 1 => by
    obtain ⟨q, hq1, hq2, hlast, hcount, hcfg⟩ := afterTicks_invariant config start c hI n
    rw [afterTicks_succ]
    have hel : elapsedMs (start + ((n + 1 : Nat) : Int) * 100000000)
        ((afterTicks config start n).2.lastSample c)
        = (((n + 1 - (config.sampleIntervalMs c + 99) / 100 * q) * 100 : Nat) : Int) := by
      rw [hlast]
      exact elapsedMs_ticks start (n + 1) _ (by omega)
    have hdue : c ∈ dueCategories (afterTicks config start n).1.config_
        (start + ((n + 1 : Nat) : Int) * 100000000) (afterTicks config start n).2 ↔
        n + 1 = (config.sampleIntervalMs c + 99) / 100 * q
          + (config.sampleIntervalMs c + 99) / 100 := by
      rw [mem_dueCategories_iff, hcfg, hel]
      constructor
      · intro h
        have h' : config.sampleIntervalMs c
            ≤ (n + 1 - (config.sampleIntervalMs c + 99) / 100 * q) * 100 := by
          exact_mod_cast h
        omega
      · intro h
        have h' : config.sampleIntervalMs c
            ≤ (n + 1 - (config.sampleIntervalMs c + 99) / 100 * q) * 100 := by
          omega
        exact_mod_cast h'
    have hcnt : (collectionLoopIteration recordingSource
        (start + ((n + 1 : Nat) : Int) * 100000000) ((n + 1) * 100)
        (afterTicks config start n).1 (afterTicks config start n).2).1.collector_.count c
        = q + (if c ∈ dueCategories (afterTicks config start n).1.config_
            (start + ((n + 1 : Nat) : Int) * 100000000) (afterTicks config start n).2
            then 1 else 0) := by
      rw [(collectionLoopIteration_calls _ _ _ _ _).1, recordingSource_run, List.count_append,
        hcount, count_dueCategories]
    have hcfg' : (collectionLoopIteration recordingSource
        (start + ((n + 1 : Nat) : Int) * 100000000) ((n + 1) * 100)
        (afterTicks config start n).1 (afterTicks config start n).2).1.config_ = config := by
      rw [(collectionLoopIteration_published _ _ _ _ _).2, hcfg]
    by_cases hd : c ∈ dueCategories (afterTicks config start n).1.config_
        (start + ((n + 1 : Nat) : Int) * 100000000) (afterTicks config start n).2
    · have hn := hdue.1 hd
      refine ⟨q + 1, ?_, ?_, ?_, ?_, hcfg'⟩
      · rw [Nat.mul_succ]; omega
      · rw [Nat.mul_succ]; omega
      · rw [lastSample_iteration, if_pos hd, Nat.mul_succ, ← hn]
      · rw [hcnt, if_pos hd]
    · have hn : n + 1 ≠ (config.sampleIntervalMs c + 99) / 100 * q
          + (config.sampleIntervalMs c + 99) / 100 := fun h => hd (hdue.2 h)
      refine ⟨q, by omega, by omega, ?_, ?_, hcfg'⟩
      · rw [lastSample_iteration, if_neg hd, hlast]
      · rw [hcnt, if_neg hd, Nat.add_zero]

/-- The number of samples within `T` ms: `T` divided by the interval rounded up to whole ticks
of 100 ms. -/
theorem samplesWithin_eq (config : Configuration) (start : Int) (T : Nat) (c : Category)
    (hI : 1 ≤ config.sampleIntervalMs c) :
    samplesWithin config start T c = T / (100 * ((config.sampleIntervalMs c + 99) / 100)) := by
  obtain ⟨q, hq1, hq2, _, hcount, _⟩ := afterTicks_invariant config start c hI (T / 100)
  unfold samplesWithin
  rw [hcount, ← Nat.div_div_eq_div_mul]
  symm
  apply Nat.div_eq_of_lt_le
  · rw [Nat.mul_comm]; exact hq1
  · rw [Nat.succ_mul, Nat.mul_comm]; exact hq2

/-- C15, as stated, fails: with a CPU interval of 150 ms (which `validate` accepts) and ticks
exactly every 100 ms, the CPU has been sampled 6 times within 1200 ms, and ⌊1200 / 150⌋ = 8. -/
theorem C15_interval_150_off_by_two :
    samplesWithin { cpuSampleIntervalMs := 150 } 0 1200 Category.cpu = 6 ∧
    ¬ (samplesWithin { cpuSampleIntervalMs := 150 } 0 1200 Category.cpu ≤ 1200 / 150 + 1 ∧
        1200 / 150 ≤ samplesWithin { cpuSampleIntervalMs := 150 } 0 1200 Category.cpu + 1) := by
  have h : samplesWithin { cpuSampleIntervalMs := 150 } 0 1200 Category.cpu = 6 := by
    rw [samplesWithin_eq _ _ _ _ (by decide)]
    decide
  rw [h]
  decide

/-- C15, amended: with ticks exactly every 100 ms from loop start, for every interval `I ≥ 1` ms
and every elapsed time `T`, a category has been sampled ⌊T / P⌋ times within `T`, where `P` is
`I` rounded up to a multiple of 100 ms; when `I` is a multiple of 100 ms this is ⌊T / I⌋. -/
theorem C15_samples_within_rounded_interval (config : Configuration) (start : Int) (T : Nat)
    (c : Category) (hI : 1 ≤ config.sampleIntervalMs c) :
    samplesWithin config start T c = T / (100 * ((config.sampleIntervalMs c + 99) / 100)) ∧
    (100 ∣ config.sampleIntervalMs c →
      samplesWithin config start T c = T / config.sampleIntervalMs c) := by
  refine ⟨samplesWithin_eq config start T c hI, fun hdvd => ?_⟩
  rw [samplesWithin_eq config start T c hI]
  obtain ⟨k, hk⟩ := hdvd
  rw [hk]
  congr 1
  omega

/-- C15, amended, on the default configuration: within 5000 ms the CPU (interval 1000 ms) has
been sampled 5 times. -/
theorem C15_default_cpu_witness :
    1 ≤ ({} : Configuration).sampleIntervalMs Category.cpu ∧
    samplesWithin {} 0 5000 Category.cpu
      = 5000 / (100 * ((({} : Configuration).sampleIntervalMs Category.cpu + 99) / 100)) ∧
    (100 ∣ ({} : Configuration).sampleIntervalMs Category.cpu →
      samplesWithin {} 0 5000 Category.cpu
        = 5000 / ({} : Configuration).sampleIntervalMs Category.cpu) :=
  ⟨by decide, C15_samples_within_rounded_interval {} 0 5000 Category.cpu (by decide)⟩

/-! ### Configuration: loadFromArgs, validate -/

theorem digitChar_facts (d : Nat) (hd : d < 10) :
    (Nat.digitChar d).isDigit = true ∧ (Nat.digitChar d).toNat - '0'.toNat = d ∧
    isSpace (Nat.digitChar d) = false ∧ Nat.digitChar d ≠ '-' ∧ Nat.digitChar d ≠ '+' := by
  interval_cases d <;> decide

/-- Reading back the digits that `decimalDigitsAux` puts in front of `acc` gives `n`, and then
goes on with `acc`. -/
theorem readDigits_decimalDigitsAux : ∀ (fuel n : Nat) (acc : List Char), n < fuel →
    readDigits (decimalDigitsAux fuel n acc) none = readDigits acc (some n)
  | 0, _, _, h => by omega
  | fuel + 1, n, acc, h => by
    rw [decimalDigitsAux]
    split
    · rename_i hn
      obtain ⟨h1, h2, -⟩ := digitChar_facts n hn
      rw [readDigits, if_pos h1, h2]
      simp
    · rename_i hn
      rw [readDigits_decimalDigitsAux fuel (n / 10) _ (by omega)]
      obtain ⟨h1, h2, -⟩ := digitChar_facts (n % 10) (Nat.mod_lt _ (by omega))
      rw [readDigits, if_pos h1, h2]
      simp only [Option.getD_some]
      rw [Nat.div_add_mod' n 10]

theorem readDigits_decimalDigits (n : Nat) : readDigits (decimalDigits n) none = some n := by
  rw [decimalDigits, readDigits_decimalDigitsAux _ _ _ (Nat.lt_succ_self n), readDigits]

/-- The text `decimalDigits n` starts with a digit. -/
theorem decimalDigitsAux_head : ∀ (fuel n : Nat) (acc : List Char), n < fuel →
    ∃ d rest, d < 10 ∧ decimalDigitsAux fuel n acc = Nat.digitChar d :: rest
  | 0, _, _, h => by omega
  | fuel + 1, n, acc, h => by
    rw [decimalDigitsAux]
    split
    · rename_i hn
      exact ⟨n, acc, hn, rfl⟩
    · exact decimalDigitsAux_head fuel (n / 10) _ (by omega)

/-- The function `std::stoi` reads the decimal text of every `int` value back as that value. -/
theorem stoi_decimal (v : Int) (hlo : -2147483648 ≤ v) (hhi : v ≤ 2147483647) :
    stoi (decimal v) = .ok v := by
  obtain ⟨d, rest, hd, hrest⟩ := decimalDigitsAux_head (v.natAbs + 1) v.natAbs []
    (Nat.lt_succ_self _)
  obtain ⟨-, -, h3, h4, h5⟩ := digitChar_facts d hd
  have hread := readDigits_decimalDigits v.natAbs
  rw [decimalDigits] at hread
  by_cases hneg : v < 0
  · have hs : (decimal v).toList = '-' :: decimalDigitsAux (v.natAbs + 1) v.natAbs [] := by
      simp [decimal, decimalDigits, hneg]
    have hv : -((v.natAbs : Nat) : Int) = v := by omega
    simp only [stoi, hs]
    rw [List.dropWhile_cons_of_neg (by decide)]
    simp only [List.head?_cons, List.drop_succ_cons, List.drop_zero]
    have e1 : ((some '-' : Option Char) == some '-') = true := rfl
    simp only [e1, Bool.true_or, if_true, hread, hv]
    rw [if_neg (by omega)]
  · have hs : (decimal v).toList = decimalDigitsAux (v.natAbs + 1) v.natAbs [] := by
      simp [decimal, decimalDigits, hneg]
    have hv : ((v.natAbs : Nat) : Int) = v := by omega
    have hm : ((some (Nat.digitChar d) : Option Char) == some '-') = false := by
      simpa using h4
    have hp : ((some (Nat.digitChar d) : Option Char) == some '+') = false := by
      simpa using h5
    simp only [stoi, hs]
    rw [hrest, List.dropWhile_cons_of_neg (by simp [h3])]
    simp only [List.head?_cons, hm, hp, Bool.or_self, Bool.false_eq_true, if_false]
    rw [← hrest, hread]
    simp only [hv]
    rw [if_neg (by omega)]

/-- An integer option followed by a text that `std::stoi` accepts sets its own field and nothing
else. -/
theorem loadFromArgs_int_option (stod : String → Except ParseError ℚ) (c : Configuration)
    (prog text : String) (v : Int) (h : stoi text = .ok v) :
    c.loadFromArgs stod [prog, "--cpu-interval", text]
      = .returned { c with cpuSampleIntervalMs := toUInt32 v } ∧
    c.loadFromArgs stod [prog, "--memory-interval", text]
      = .returned { c with memorySampleIntervalMs := toUInt32 v } ∧
    c.loadFromArgs stod [prog, "--fps", text]
      = .returned { c with targetFrameRateHz := toUInt32 v } := by
  refine ⟨?_, ?_, ?_⟩ <;>
    simp [Configuration.loadFromArgs, loadFromArgsLoop, h]

/-- A threshold option followed by a text that `std::stod` accepts sets its own field and nothing
else. -/
theorem loadFromArgs_threshold_option (stod : String → Except ParseError ℚ) (c : Configuration)
    (prog text : String) (x : ℚ) (h : stod text = .ok x) :
    c.loadFromArgs stod [prog, "--cpu-threshold", text]
      = .returned { c with cpuAlertThreshold := x } ∧
    c.loadFromArgs stod [prog, "--memory-threshold", text]
      = .returned { c with memoryAlertThreshold := x } := by
  refine ⟨?_, ?_⟩ <;>
    simp [Configuration.loadFromArgs, loadFromArgsLoop, h]

theorem loadFromArgs_flag (stod : String → Except ParseError ℚ) (c : Configuration)
    (prog : String) :
    c.loadFromArgs stod [prog, "--no-colors"] = .returned { c with useColors := false } ∧
    c.loadFromArgs stod [prog, "--expand-tree"]
      = .returned { c with expandTreeByDefault := true } := by
  refine ⟨?_, ?_⟩ <;>
    simp [Configuration.loadFromArgs, loadFromArgsLoop]

/-- C22: for every configuration `c` and every `int` value `v`, `loadFromArgs` on
`[prog, "--cpu-interval", v]` (with `v` in decimal) returns with `cpuSampleIntervalMs` set to
`v mod 2^32` and every other field as in `c`; likewise `--memory-interval` and `--fps` set only
`memorySampleIntervalMs` and `targetFrameRateHz`; `--cpu-threshold` and `--memory-threshold`
followed by a text that `std::stod` converts to `x` set only their own threshold, to `x`;
`--no-colors` only sets `useColors` to false and `--expand-tree` only sets `expandTreeByDefault`
to true. -/
theorem C22_loadFromArgs_option_changes_only_its_field
    (stod : String → Except ParseError ℚ) (c : Configuration) (prog : String)
    (v : Int) (hlo : -2147483648 ≤ v) (hhi : v ≤ 2147483647)
    (text : String) (x : ℚ) (hx : stod text = .ok x) :
    c.loadFromArgs stod [prog, "--cpu-interval", decimal v]
      = .returned { c with cpuSampleIntervalMs := (v % 2 ^ 32).toNat } ∧
    c.loadFromArgs stod [prog, "--memory-interval", decimal v]
      = .returned { c with memorySampleIntervalMs := (v % 2 ^ 32).toNat } ∧
    c.loadFromArgs stod [prog, "--fps", decimal v]
      = .returned { c with targetFrameRateHz := (v % 2 ^ 32).toNat } ∧
    c.loadFromArgs stod [prog, "--cpu-threshold", text]
      = .returned { c with cpuAlertThreshold := x } ∧
    c.loadFromArgs stod [prog, "--memory-threshold", text]
      = .returned { c with memoryAlertThreshold := x } ∧
    c.loadFromArgs stod [prog, "--no-colors"] = .returned { c with useColors := false } ∧
    c.loadFromArgs stod [prog, "--expand-tree"]
      = .returned { c with expandTreeByDefault := true } := by
  obtain ⟨h1, h2, h3⟩ := loadFromArgs_int_option stod c prog (decimal v) v
    (stoi_decimal v hlo hhi)
  obtain ⟨h4, h5⟩ := loadFromArgs_threshold_option stod c prog text x hx
  obtain ⟨h6, h7⟩ := loadFromArgs_flag stod c prog
  exact ⟨h1, h2, h3, h4, h5, h6, h7⟩

/-- C22 on the default configuration with the value -1, which is stored as 2^32 - 1, and a
threshold text that converts to 85. -/
theorem C22_minus_one_witness :
    (-2147483648 ≤ (-1 : Int) ∧ (-1 : Int) ≤ 2147483647 ∧
      (fun _ : String => (Except.ok 85 : Except ParseError ℚ)) "85" = .ok 85) ∧
    decimal (-1) = "-1" ∧
    Configuration.loadFromArgs (fun _ => .ok 85) ["sysmon", "--cpu-interval", "-1"] {}
      = .returned { cpuSampleIntervalMs := 4294967295 } ∧
    Configuration.loadFromArgs (fun _ => .ok 85) ["sysmon", "--memory-threshold", "85"] {}
      = .returned { memoryAlertThreshold := 85 } := by
  have h := C22_loadFromArgs_option_changes_only_its_field (fun _ => .ok 85) {} "sysmon" (-1)
    (by decide) (by decide) "85" 85 rfl
  exact ⟨⟨by decide, by decide, rfl⟩, by decide, h.1, h.2.2.2.2.1⟩

/-- C23: a default-constructed `Configuration` has a CPU interval of 1000 ms, a memory interval
of 5000 ms, a target frame rate of 30 and alert thresholds of 90 for CPU and memory, these are
the defaults that the lines of the usage text state, and the default configuration passes
`validate()`. -/
theorem C23_default_configuration_is_documented_and_valid :
    (({} : Configuration).cpuSampleIntervalMs = 1000 ∧
      ({} : Configuration).memorySampleIntervalMs = 5000 ∧
      ({} : Configuration).targetFrameRateHz = 30 ∧
      ({} : Configuration).cpuAlertThreshold = 90 ∧
      ({} : Configuration).memoryAlertThreshold = 90) ∧
    (usageText[1]? = some ("  --cpu-interval <ms>       CPU sampling interval (default: "
        ++ decimal ({} : Configuration).cpuSampleIntervalMs ++ ")\n") ∧
      usageText[2]? = some ("  --memory-interval <ms>    Memory sampling interval (default: "
        ++ decimal ({} : Configuration).memorySampleIntervalMs ++ ")\n") ∧
      usageText[3]? = some ("  --fps <rate>              Target frame rate (default: "
        ++ decimal ({} : Configuration).targetFrameRateHz ++ ")\n") ∧
      usageText[4]? = some ("  --cpu-threshold <pct>     CPU alert threshold (default: "
        ++ decimal 90 ++ ")\n") ∧
      usageText[5]? = some ("  --memory-threshold <pct>  Memory alert threshold (default: "
        ++ decimal 90 ++ ")\n")) ∧
    ({} : Configuration).validate = true := by
  refine ⟨⟨rfl, rfl, rfl, rfl, rfl⟩, ⟨?_, ?_, ?_, ?_, ?_⟩, ?_⟩ <;> decide

/-- The function `validate()` accepts exactly the configurations within the three ranges. -/
theorem validate_iff (c : Configuration) :
    c.validate = true ↔
      (100 ≤ c.cpuSampleIntervalMs ∧ c.cpuSampleIntervalMs ≤ 10000) ∧
      (1000 ≤ c.memorySampleIntervalMs ∧ c.memorySampleIntervalMs ≤ 3600000) ∧
      (1 ≤ c.targetFrameRateHz ∧ c.targetFrameRateHz ≤ 120) := by
  unfold Configuration.validate
  split_ifs <;> simp <;> omega

/-- C24: `validate()` returns true if and only if `100 ≤ cpuSampleIntervalMs ≤ 10000` and
`1000 ≤ memorySampleIntervalMs ≤ 3600000` and `1 ≤ targetFrameRateHz ≤ 120`; two configurations
that agree on these three fields get the same result, whatever their other fields are.  (The
member function is `const`: it is a function of the configuration and returns only the
flag.) -/
theorem C24_validate_iff_three_ranges :
    (∀ c : Configuration, c.validate = true ↔
      (100 ≤ c.cpuSampleIntervalMs ∧ c.cpuSampleIntervalMs ≤ 10000) ∧
      (1000 ≤ c.memorySampleIntervalMs ∧ c.memorySampleIntervalMs ≤ 3600000) ∧
      (1 ≤ c.targetFrameRateHz ∧ c.targetFrameRateHz ≤ 120)) ∧
    (∀ c d : Configuration, c.cpuSampleIntervalMs = d.cpuSampleIntervalMs →
      c.memorySampleIntervalMs = d.memorySampleIntervalMs →
      c.targetFrameRateHz = d.targetFrameRateHz → c.validate = d.validate) ∧
    (∀ (c : Configuration) (disk network process maxDisplay : Nat) (cpuAlert memoryAlert : ℚ),
      ({ c with diskSampleIntervalMs := disk, networkSampleIntervalMs := network,
                processSampleIntervalMs := process, cpuAlertThreshold := cpuAlert,
                memoryAlertThreshold := memoryAlert,
                maxProcessDisplay := maxDisplay } : Configuration).validate = c.validate) := by
  refine ⟨validate_iff, ?_, ?_⟩
  · intro c d h1 h2 h3
    simp only [Configuration.validate, h1, h2, h3]
  · intro c disk network process maxDisplay cpuAlert memoryAlert
    rfl

/-! ### Ticks in which nothing is due -/

/-- C25: in an iteration of the collection loop in which no category is due, the published
snapshot is unchanged in every field, `timestampMs` included, and the four last-sample times are
unchanged; and an iteration that changes the published `timestampMs` is one in which at least
one category is due, that is, sampled. -/
theorem C25_idle_tick_changes_nothing {σ : Type} (src : ISystemCollector σ)
    (now : Int) (wallMs : Nat) (self : SystemDataCollector σ) (locals : LoopLocals) :
    (dueCategories self.config_ now locals = [] →
      (collectionLoopIteration src now wallMs self locals).1.currentMetrics_
        = self.currentMetrics_ ∧
      (collectionLoopIteration src now wallMs self locals).1.collector_ = self.collector_ ∧
      (collectionLoopIteration src now wallMs self locals).2.lastCpuSample
        = locals.lastCpuSample ∧
      (collectionLoopIteration src now wallMs self locals).2.lastMemorySample
        = locals.lastMemorySample ∧
      (collectionLoopIteration src now wallMs self locals).2.lastDiskSample
        = locals.lastDiskSample ∧
      (collectionLoopIteration src now wallMs self locals).2.lastNetworkSample
        = locals.lastNetworkSample) ∧
    ((collectionLoopIteration src now wallMs self locals).1.currentMetrics_.timestampMs
        ≠ self.currentMetrics_.timestampMs →
      dueCategories self.config_ now locals ≠ [] ∧
      (collectionLoopIteration src now wallMs self locals).1.collector_
        = (src.run (dueCategories self.config_ now locals) (self.collector_, {})).1) := by
  obtain ⟨hpub, -⟩ := collectionLoopIteration_published src now wallMs self locals
  obtain ⟨hcalls, -⟩ := collectionLoopIteration_calls src now wallMs self locals
  obtain ⟨h1, h2, h3, h4⟩ := collectionLoopIteration_last src now wallMs self locals
  constructor
  · intro hdue
    rw [hpub, hcalls, h1, h2, h3, h4, hdue]
    simp [ISystemCollector.run]
  · intro hts
    refine ⟨?_, hcalls⟩
    intro hdue
    apply hts
    rw [hpub, if_pos hdue]

/-- C25 on a collector with the default configuration, 50 ms after every category was sampled:
nothing is due and nothing changes; and 1000 ms after, the timestamp changes and CPU, disk and
network are due. -/
theorem C25_idle_and_busy_witness :
    dueCategories publishedAll.config_ 5050000000 sampledAtFiveSeconds = [] ∧
    (collectionLoopIteration failingSource 5050000000 5050 publishedAll
        sampledAtFiveSeconds).1.currentMetrics_ = publishedAll.currentMetrics_ ∧
    (collectionLoopIteration failingSource 6000000000 6000 publishedAll
        sampledAtFiveSeconds).1.currentMetrics_.timestampMs = 6000 ∧
    dueCategories publishedAll.config_ 6000000000 sampledAtFiveSeconds
      = [Category.cpu, Category.disk, Category.network] := by
  have hidle : dueCategories publishedAll.config_ 5050000000 sampledAtFiveSeconds = [] := by
    decide
  have h := C25_idle_tick_changes_nothing failingSource 5050000000 5050 publishedAll
    sampledAtFiveSeconds
  have hbusy : dueCategories publishedAll.config_ 6000000000 sampledAtFiveSeconds
      = [Category.cpu, Category.disk, Category.network] := by decide
  refine ⟨hidle, (h.1 hidle).1, ?_, hbusy⟩
  rw [(collectionLoopIteration_published failingSource 6000000000 6000 publishedAll
    sampledAtFiveSeconds).1, hbusy]
  rfl

/-! ### Order of roots and children, conservation of memory totals -/

/-- The root of a tree read off the heap carries the record of the object, and its children are
read from the `children` of the object. -/
theorem readTree_record {heap : Heap} : ∀ {k a : Nat} {t : ProcessNode},
    readTree heap k a = some t →
      t.record = (deref heap a).record ∧
      ∃ j, readForest heap j (deref heap a).children = some t.children
  | 0, _, _, h => by simp [readTree] at h
  | k + 1, a, t, h => by
    obtain ⟨cs, -, hcs, rfl⟩ := readTree_succ_eq_some h
    exact ⟨rfl, k, hcs⟩

/-- The records of the roots of a forest read off the heap are the records of the objects, in
the order of the vector. -/
theorem readForest_records {heap : Heap} {k : Nat} :
    ∀ {as : List Nat} {forest : List ProcessNode}, readForest heap k as = some forest →
      forest.map ProcessNode.record = as.map (fun a => (deref heap a).record)
  | [], forest, h => by
    rw [readForest_nil] at h
    cases h
    rfl
  | a :: as, forest, h => by
    obtain ⟨t, ts, ht, hts, rfl⟩ := readForest_cons_eq_some h
    rw [List.map_cons, List.map_cons, (readTree_record ht).1, readForest_records hts]

theorem record_buildTree (heap : Heap) (processes : List Nat) (x : Nat) :
    (deref (buildTree heap processes).1 x).record = (deref heap x).record := by
  obtain ⟨h1, h2, h3, h4, h5, h6⟩ := buildTree_data heap processes x
  simp only [ProcessInfo.record, h1, h2, h3, h4, h5, h6]

/-- C26: `buildTree` preserves the order of the enumeration.  The vector of roots it leaves is a
subsequence of the input vector, and the elements it appends to the `children` of any object are
a subsequence of the input vector; so the children of a record that had none are a subsequence
of the input vector.  Accordingly, in the forest read off the heap, the records of the roots,
and the records of the children of the node of every input record that had no children, are
subsequences of the input records. -/
theorem C26_buildTree_preserves_enumeration_order (heap : Heap) (processes : List Nat)
    (hvalid : ∀ a ∈ processes, a < heap.length) :
    List.Sublist (buildTree heap processes).2 processes ∧
    (∀ x, x < heap.length →
      ∃ moved, (deref (buildTree heap processes).1 x).children
          = (deref heap x).children ++ moved ∧
        List.Sublist moved processes) ∧
    (∀ x ∈ processes, (deref heap x).children = [] →
      List.Sublist (deref (buildTree heap processes).1 x).children processes) ∧
    (∀ k forest,
      readForest (buildTree heap processes).1 k (buildTree heap processes).2 = some forest →
      List.Sublist (forest.map ProcessNode.record)
        (processes.map (fun a => (deref heap a).record))) ∧
    (∀ x ∈ processes, (deref heap x).children = [] → ∀ k t,
      readTree (buildTree heap processes).1 k x = some t →
      List.Sublist (t.children.map ProcessNode.record)
        (processes.map (fun a => (deref heap a).record))) := by
  have hroots : List.Sublist (buildTree heap processes).2 processes := by
    rw [buildTree_roots heap processes hvalid]
    exact List.filter_sublist _
  have hchildren : ∀ x ∈ processes, (deref heap x).children = [] →
      List.Sublist (deref (buildTree heap processes).1 x).children processes := by
    intro x hx hleaf
    rw [buildTree_children heap processes hvalid x (hvalid x hx), hleaf, List.nil_append]
    exact List.filter_sublist _
  have hrecord : (fun a => (deref (buildTree heap processes).1 a).record)
      = fun a => (deref heap a).record := by
    funext a
    exact record_buildTree heap processes a
  refine ⟨hroots, ?_, hchildren, ?_, ?_⟩
  · intro x hx
    exact ⟨_, buildTree_children heap processes hvalid x hx, List.filter_sublist _⟩
  · intro k forest hf
    rw [readForest_records hf, hrecord]
    exact hroots.map _
  · intro x hx hleaf k t ht
    obtain ⟨j, hj⟩ := (readTree_record ht).2
    rw [readForest_records hj, hrecord]
    exact (hchildren x hx hleaf).map _

/-- C26 on two interleaved families enumerated in the order 4, 1, 0, 3, 2 of their addresses: the
roots are 1, 0 and the children of 1 are 4, 2, as in the enumeration. -/
theorem C26_interleaved_witness :
    (∀ a ∈ [4, 1, 0, 3, 2], a < interleavedHeap.length) ∧
    (buildTree interleavedHeap [4, 1, 0, 3, 2]).2 = [1, 0] ∧
    (deref (buildTree interleavedHeap [4, 1, 0, 3, 2]).1 1).children = [4, 2] ∧
    List.Sublist (buildTree interleavedHeap [4, 1, 0, 3, 2]).2 [4, 1, 0, 3, 2] ∧
    List.Sublist (deref (buildTree interleavedHeap [4, 1, 0, 3, 2]).1 1).children
      [4, 1, 0, 3, 2] := by
  have h := C26_buildTree_preserves_enumeration_order interleavedHeap [4, 1, 0, 3, 2]
    (by decide)
  exact ⟨by decide, by rfl, by rfl, h.1, h.2.2.1 1 (by decide) (by rfl)⟩

/-- The totals of the roots of a forest add up to the memory of all its nodes, modulo `2^64`. -/
theorem sum_totalMemory_forest_mod : ∀ forest : List ProcessNode,
    (forest.map getTotalMemoryWithChildren).sum % 2 ^ 64
      = ((descendantsOfForest forest).map ProcessNode.memoryBytes).sum % 2 ^ 64
  | [] => by simp [descendantsOfForest]
  | root :: rest => by
    have h1 := getTotalMemoryWithChildren_mod root
    have h2 := sum_totalMemory_forest_mod rest
    rw [descendantsOfForest]
    simp only [List.map_cons, List.sum_cons, List.map_append, List.sum_append]
    omega

theorem memoryBytes_info (n : ProcessNode) : n.info.memoryBytes = n.memoryBytes := by
  cases n
  rfl

/-- C27: for an enumeration of distinct records without children, the forest that `buildTree`
leaves can be read off the heap, and the sum of `getTotalMemoryWithChildren` over its roots is
congruent modulo `2^64` to the sum of `memoryBytes` over all records of the enumeration. -/
theorem C27_reconciliation_conserves_memory_total (heap : Heap) (processes : List Nat)
    (hvalid : ∀ a ∈ processes, a < heap.length) (hnodup : processes.Nodup)
    (hleaf : ∀ a ∈ processes, (deref heap a).children = [])
    (k : Nat) (hk : processes.length ≤ k) :
    ∃ forest, readForest (buildTree heap processes).1 k (buildTree heap processes).2
        = some forest ∧
      (forest.map getTotalMemoryWithChildren).sum % 2 ^ 64
        = (processes.map (fun a => (deref heap a).memoryBytes)).sum % 2 ^ 64 := by
  obtain ⟨forest, hf, hperm⟩ := buildTree_forest heap processes hvalid hnodup hleaf k hk
  refine ⟨forest, hf, ?_⟩
  rw [sum_totalMemory_forest_mod]
  have h := (hperm.map ProcessInfo.memoryBytes).sum_eq
  simp only [List.map_map] at h
  have e1 : (ProcessInfo.memoryBytes ∘ ProcessNode.info) = ProcessNode.memoryBytes := by
    funext n
    exact memoryBytes_info n
  have e2 : (ProcessInfo.memoryBytes ∘ fun x => (deref heap x).data)
      = fun a => (deref heap a).memoryBytes := by
    funext a
    rfl
  rw [e1, e2] at h
  rw [h]

/-- C27 on two interleaved families with 100, 200, 30, 40 and 50 bytes: the totals of the two
roots, 250 and 170, add up to 420. -/
theorem C27_interleaved_witness :
    ((∀ a ∈ [4, 1, 0, 3, 2], a < interleavedHeap.length) ∧ [4, 1, 0, 3, 2].Nodup ∧
      (∀ a ∈ [4, 1, 0, 3, 2], (deref interleavedHeap a).children = []) ∧
      [4, 1, 0, 3, 2].length ≤ 5) ∧
    ([4, 1, 0, 3, 2].map (fun a => (deref interleavedHeap a).memoryBytes)).sum % 2 ^ 64 = 420 ∧
    ∃ forest,
      readForest (buildTree interleavedHeap [4, 1, 0, 3, 2]).1 5
        (buildTree interleavedHeap [4, 1, 0, 3, 2]).2 = some forest ∧
      (forest.map getTotalMemoryWithChildren).sum % 2 ^ 64 = 420 := by
  obtain ⟨forest, hf, hsum⟩ := C27_reconciliation_conserves_memory_total interleavedHeap
    [4, 1, 0, 3, 2] (by decide) (by decide) (by decide) 5 (by decide)
  have hrec : ([4, 1, 0, 3, 2].map (fun a => (deref interleavedHeap a).memoryBytes)).sum
      % 2 ^ 64 = 420 := by decide
  exact ⟨⟨by decide, by decide, by decide, by decide⟩, hrec, forest, hf, hsum.trans hrec⟩

/-! ### Before the first interval has elapsed -/

theorem sameFields_refl (m : SystemMetrics) (c : Category) : m.SameFields m c := by
  cases c <;> simp [SystemMetrics.SameFields]

theorem sameFields_trans {m1 m2 m3 : SystemMetrics} {c : Category}
    (h12 : m1.SameFields m2 c) (h23 : m2.SameFields m3 c) : m1.SameFields m3 c := by
  cases c <;> simp only [SystemMetrics.SameFields] at h12 h23 ⊢
  · exact ⟨h12.1.trans h23.1, h12.2.trans h23.2⟩
  · exact ⟨h12.1.trans h23.1, h12.2.1.trans h23.2.1, h12.2.2.trans h23.2.2⟩
  · exact ⟨h12.1.trans h23.1, h12.2.trans h23.2⟩
  · exact ⟨h12.1.trans h23.1, h12.2.trans h23.2⟩

/-- Calls of other categories leave the fields of a category alone. -/
theorem sameFields_run_of_not_mem {σ : Type} {src : ISystemCollector σ}
    (hsrc : WritesOwnFields src) (c : Category) :
    ∀ (calls : List Category) (s : σ × SystemMetrics), c ∉ calls →
      (src.run calls s).2.SameFields s.2 c
  | [], s, _ => sameFields_refl s.2 c
  | c' :: calls, s, h => by
    have hc : c' ≠ c := fun e => h (e ▸ List.mem_cons_self _ _)
    rw [run_cons]
    exact sameFields_trans
      (sameFields_run_of_not_mem hsrc c calls (src.call c' s)
        (fun hm => h (List.mem_cons_of_mem _ hm)))
      (hsrc c' c hc s.1 s.2)

theorem logged_call {σ : Type} (src : ISystemCollector σ) (c : Category)
    (s : (σ × List Category) × SystemMetrics) :
    src.logged.call c s
      = (((src.call c (s.1.1, s.2)).1, s.1.2 ++ [c]), (src.call c (s.1.1, s.2)).2) := by
  cases c <;> rfl

/-- The logged source makes the calls of the source and appends their categories to the log. -/
theorem logged_run {σ : Type} (src : ISystemCollector σ) :
    ∀ (calls : List Category) (s : (σ × List Category) × SystemMetrics),
      src.logged.run calls s
        = (((src.run calls (s.1.1, s.2)).1, s.1.2 ++ calls), (src.run calls (s.1.1, s.2)).2)
  | [], s => by simp [ISystemCollector.run]
  | c :: calls, s => by
    rw [run_cons, logged_run src calls, logged_call, run_cons]
    simp

theorem writesOwnFields_logged {σ : Type} {src : ISystemCollector σ}
    (hsrc : WritesOwnFields src) : WritesOwnFields src.logged := by
  intro c c' hc s m
  rw [logged_call]
  exact hsrc c c' hc s.1 m

theorem writesOwnFields_fixedSource (reading : SystemMetrics) :
    WritesOwnFields (fixedSource reading) := by
  intro c c' hc s m
  cases c <;> cases c' <;> first
    | exact absurd rfl hc
    | simp [SystemMetrics.SameFields, ISystemCollector.call, fixedSource]

/-- Less than `interval` milliseconds after `start`, the whole milliseconds elapsed since a
later time point are fewer than `interval`. -/
theorem elapsedMs_lt_of_lt (now start last : Int) (interval : Nat) (hpos : 0 < interval)
    (hlast : start ≤ last) (hnow : now - start < (interval : Int) * 1000000) :
    elapsedMs now last < (interval : Int) := by
  unfold elapsedMs
  by_cases h : 0 ≤ now - last
  · rw [Int.tdiv_eq_ediv h (by norm_num)]
    omega
  · have : Int.tdiv (now - last) 1000000 ≤ 0 := by
      have h' : Int.tdiv (-(now - last)) 1000000 ≥ 0 :=
        Int.tdiv_nonneg (by omega) (by norm_num)
      rw [Int.neg_tdiv] at h'
      omega
    omega

/-- The merge keeps the zero-initialised fields of a category that the scratch snapshot does not
carry. -/
theorem zeroInitialised_mergeMetrics (old scratch : SystemMetrics) (c : Category)
    (hold : old.ZeroInitialised c) (hscratch : scratch.ZeroInitialised c) :
    (mergeMetrics old scratch).ZeroInitialised c := by
  cases c <;>
    simp only [SystemMetrics.ZeroInitialised, SystemMetrics.SameFields] at hold hscratch ⊢
  · obtain ⟨h1, h2⟩ := hold
    obtain ⟨h3, h4⟩ := hscratch
    simp only [mergeMetrics, h3]
    split_ifs <;> simp_all
  · obtain ⟨h1, h2, h3⟩ := hold
    obtain ⟨h4, h5, h6⟩ := hscratch
    simp only [mergeMetrics, h4]
    split_ifs <;> simp_all
  · simp only [mergeMetrics]
    exact hscratch
  · simp only [mergeMetrics]
    exact hscratch

theorem zeroInitialised_timestamp (m : SystemMetrics) (wallMs : Nat) (c : Category)
    (h : m.ZeroInitialised c) :
    ({ m with timestampMs := wallMs } : SystemMetrics).ZeroInitialised c := by
  cases c <;> exact h

/-- An iteration less than the interval of `c` after loop start, when `c` has not been sampled
since loop start: `c` is not due, and nothing that concerns `c` changes. -/
theorem early_tick {σ : Type} {src : ISystemCollector σ} (hsrc : WritesOwnFields src)
    (c : Category) (start now : Int) (wallMs : Nat)
    (self : SystemDataCollector (σ × List Category)) (locals : LoopLocals)
    (hpos : 0 < self.config_.sampleIntervalMs c)
    (hlast : start ≤ locals.lastSample c)
    (hnow : now - start < (self.config_.sampleIntervalMs c : Int) * 1000000)
    (hlog : c ∉ self.collector_.2) (hzero : self.currentMetrics_.ZeroInitialised c) :
    (collectionLoopIteration src.logged now wallMs self locals).1.config_ = self.config_ ∧
    (collectionLoopIteration src.logged now wallMs self locals).2.lastSample c
      = locals.lastSample c ∧
    c ∉ (collectionLoopIteration src.logged now wallMs self locals).1.collector_.2 ∧
    (collectionLoopIteration src.logged now wallMs self locals).1.currentMetrics_.ZeroInitialised
      c := by
  have hdue : c ∉ dueCategories self.config_ now locals := by
    rw [mem_dueCategories_iff]
    have := elapsedMs_lt_of_lt now start (locals.lastSample c) _ hpos hlast hnow
    omega
  obtain ⟨hpub, hconfig⟩ := collectionLoopIteration_published src.logged now wallMs self locals
  obtain ⟨hcalls, -⟩ := collectionLoopIteration_calls src.logged now wallMs self locals
  refine ⟨hconfig, ?_, ?_, ?_⟩
  · rw [lastSample_iteration, if_neg hdue]
  · rw [hcalls, logged_run]
    simp only [List.mem_append, not_or]
    exact ⟨hlog, hdue⟩
  · rw [hpub]
    split
    · exact hzero
    · apply zeroInitialised_mergeMetrics _ _ _ hzero
      apply zeroInitialised_timestamp
      exact sameFields_run_of_not_mem (writesOwnFields_logged hsrc) c _ _ hdue

/-- Iterations that all happen less than the interval of `c` after loop start. -/
theorem early_ticks {σ : Type} {src : ISystemCollector σ} (hsrc : WritesOwnFields src)
    (c : Category) (start : Int) (interval : Nat) (hpos : 0 < interval) :
    ∀ (times : List (Int × Nat)) (s : SystemDataCollector (σ × List Category) × LoopLocals),
      (∀ t ∈ times, t.1 - start < (interval : Int) * 1000000) →
      s.1.config_.sampleIntervalMs c = interval → start ≤ s.2.lastSample c →
      c ∉ s.1.collector_.2 → s.1.currentMetrics_.ZeroInitialised c →
      c ∉ (runEvents src.logged s (ticksAt times)).1.collector_.2 ∧
      (runEvents src.logged s (ticksAt times)).1.currentMetrics_.ZeroInitialised c
  | [], s, _, _, _, hlog, hzero => ⟨hlog, hzero⟩
  | t :: times, s, hearly, hconfig, hlast, hlog, hzero => by
    obtain ⟨e1, e2, e3, e4⟩ := early_tick hsrc c start t.1 t.2 s.1 s.2
      (by rw [hconfig]; exact hpos) hlast
      (by rw [hconfig]; exact hearly t (List.mem_cons_self _ _)) hlog hzero
    have := early_ticks hsrc c start interval hpos times
      (collectionLoopIteration src.logged t.1 t.2 s.1 s.2)
      (fun t' ht' => hearly t' (List.mem_cons_of_mem _ ht'))
      (by rw [e1]; exact hconfig) (by rw [e2]; exact hlast) e3 e4
    exact this

/-- C28: the last-sample times of `collectionLoop` start out as clock readings taken when the
loop is entered (at `start` or later).  So for a category `c` with an interval above zero, on a
source whose calls write only the fields of their own category, after any iterations that all
happen less than the interval of `c` after loop start, and without `refresh()`, the source has
not been called for `c` and `getMetrics()` returns the fields of `c` as a default-constructed
`SystemMetrics` has them. -/
theorem C28_no_sample_before_first_interval {σ : Type} (src : ISystemCollector σ)
    (hsrc : WritesOwnFields src) (config : Configuration) (collector : σ)
    (start t1 t2 t3 t4 : Int)
    (h1 : start ≤ t1) (h2 : start ≤ t2) (h3 : start ≤ t3) (h4 : start ≤ t4)
    (c : Category) (hpos : 0 < config.sampleIntervalMs c) (times : List (Int × Nat))
    (hearly : ∀ t ∈ times, t.1 - start < (config.sampleIntervalMs c : Int) * 1000000) :
    c ∉ (runEvents src.logged
          ({ config_ := config, collector_ := (collector, []), currentMetrics_ := {} },
            collectionLoopEntry t1 t2 t3 t4) (ticksAt times)).1.collector_.2 ∧
    (runEvents src.logged
          ({ config_ := config, collector_ := (collector, []), currentMetrics_ := {} },
            collectionLoopEntry t1 t2 t3 t4) (ticksAt times)).1.getMetrics.ZeroInitialised c := by
  apply early_ticks hsrc c start (config.sampleIntervalMs c) hpos times _ hearly rfl
  · cases c
    · exact h1
    · exact h2
    · exact h3
    · exact h4
  · simp
  · exact sameFields_refl _ c

/-- C28 on the default configuration and a source with fixed readings, for the memory category
(interval 5000 ms) and iterations 1000 ms and 2000 ms after loop start, the four clock readings
at loop entry being 10 ns apart: CPU, disk and network
are sampled twice, memory is not, and the published memory fields are still zero. -/
theorem C28_memory_witness :
    (WritesOwnFields (fixedSource steadyReading) ∧
      (0 : Int) ≤ 10 ∧ 0 < ({} : Configuration).sampleIntervalMs Category.memory ∧
      ∀ t ∈ [((1000000050 : Int), 1000), (2000000100, 2000)],
        t.1 - 0 < (({} : Configuration).sampleIntervalMs Category.memory : Int) * 1000000) ∧
    (runEvents (fixedSource steadyReading).logged
      ({ config_ := {}, collector_ := ((), []), currentMetrics_ := {} },
        collectionLoopEntry 10 20 30 40)
      (ticksAt [(1000000050, 1000), (2000000100, 2000)])).1.collector_.2
      = [Category.cpu, Category.disk, Category.network,
         Category.cpu, Category.disk, Category.network] ∧
    Category.memory ∉ (runEvents (fixedSource steadyReading).logged
      ({ config_ := {}, collector_ := ((), []), currentMetrics_ := {} },
        collectionLoopEntry 10 20 30 40)
      (ticksAt [(1000000050, 1000), (2000000100, 2000)])).1.collector_.2 ∧
    (runEvents (fixedSource steadyReading).logged
      ({ config_ := {}, collector_ := ((), []), currentMetrics_ := {} },
        collectionLoopEntry 10 20 30 40)
      (ticksAt [(1000000050, 1000), (2000000100, 2000)])).1.getMetrics.ZeroInitialised
        Category.memory := by
  have hearly : ∀ t ∈ [((1000000050 : Int), 1000), (2000000100, 2000)],
      t.1 - 0 < (({} : Configuration).sampleIntervalMs Category.memory : Int) * 1000000 := by
    decide
  have h := C28_no_sample_before_first_interval
    (fixedSource steadyReading)
    (writesOwnFields_fixedSource _) {} () 0 10 20 30 40
    (by decide) (by decide) (by decide) (by decide) Category.memory (by decide)
    [(1000000050, 1000), (2000000100, 2000)] hearly
  exact ⟨⟨writesOwnFields_fixedSource _, by decide, by decide, hearly⟩, by decide, h.1, h.2⟩

/-! ### The process lines of the widget -/

theorem toInt32_of_lt (x : Nat) (h : x < 2147483648) : toInt32 x = (x : Int) := by
  unfold toInt32
  rw [Nat.mod_eq_of_lt (by omega), if_pos h]

mutual
/-- From `count` lines on, `addProcess` pushes the lines of the nodes it would visit without a
limit, until the limit is reached. -/
theorem addProcess_eq (config_ : Configuration) (hmax : config_.maxProcessDisplay < 2147483648) :
    ∀ (proc : ProcessNode) (depth : Nat) (lines : List ProcessLine) (count : Nat),
      count ≤ config_.maxProcessDisplay →
      addProcess config_ proc depth (lines, (count : Int))
        = (lines ++ ((visited config_.expandTreeByDefault proc depth).take
              (config_.maxProcessDisplay - count)).map lineOf,
           ((count + min (config_.maxProcessDisplay - count)
              (visited config_.expandTreeByDefault proc depth).length : Nat) : Int))
  | .mk pid ppid name cpu mem t children, depth, lines, count, hcount => by
    rw [addProcess, visited, toInt32_of_lt _ hmax]
    by_cases hfull : (count : Int) ≥ (config_.maxProcessDisplay : Int)
    · have e : config_.maxProcessDisplay - count = 0 := by omega
      simp [hfull, e]
    · have hlt : count < config_.maxProcessDisplay := by omega
      obtain ⟨m, hm⟩ : ∃ m, config_.maxProcessDisplay - count = m + 1 :=
        ⟨config_.maxProcessDisplay - count - 1, by omega⟩
      have hm' : config_.maxProcessDisplay - (count + 1) = m := by omega
      simp only [hfull, if_false]
      by_cases hopen : (config_.expandTreeByDefault || depth == 0) = true
      · have ih := addProcessLoop_eq config_ hmax children (depth + 1)
          (lines ++ [processLine pid name cpu mem depth]) (count + 1) (by omega)
        rw [if_pos hopen, if_pos hopen]
        have ec : ((count : Int) + 1) = ((count + 1 : Nat) : Int) := by push_cast; ring
        rw [ec, ih, hm, hm']
        simp only [List.take_succ_cons, List.map_cons, List.length_cons, List.append_assoc,
          List.singleton_append]
        refine Prod.ext ?_ ?_
        · simp [lineOf, ProcessNode.pid, ProcessNode.name, ProcessNode.cpuPercent,
            ProcessNode.memoryBytes]
        · simp only
          congr 1
          omega
      · rw [if_neg hopen, if_neg hopen, hm]
        simp only [List.take_succ_cons, List.take_nil, List.map_cons, List.map_nil,
          List.length_cons, List.length_nil]
        refine Prod.ext ?_ ?_
        · simp [lineOf, ProcessNode.pid, ProcessNode.name, ProcessNode.cpuPercent,
            ProcessNode.memoryBytes]
        · simp only
          push_cast
          omega
theorem addProcessLoop_eq (config_ : Configuration)
    (hmax : config_.maxProcessDisplay < 2147483648) :
    ∀ (procs : List ProcessNode) (depth : Nat) (lines : List ProcessLine) (count : Nat),
      count ≤ config_.maxProcessDisplay →
      addProcessLoop config_ procs depth (lines, (count : Int))
        = (lines ++ ((visitedLoop config_.expandTreeByDefault procs depth).take
              (config_.maxProcessDisplay - count)).map lineOf,
           ((count + min (config_.maxProcessDisplay - count)
              (visitedLoop config_.expandTreeByDefault procs depth).length : Nat) : Int))
  | [], depth, lines, count, hcount => by
    simp [addProcessLoop, visitedLoop]
  | proc :: rest, depth, lines, count, hcount => by
    rw [addProcessLoop, addProcess_eq config_ hmax proc depth lines count hcount,
      addProcessLoop_eq config_ hmax rest depth _ _ (by omega), visitedLoop]
    refine Prod.ext ?_ ?_
    · simp only [List.take_append_eq_append_take, List.map_append, List.append_assoc]
      congr 3
      congr 1
      omega
    · simp only [List.length_append]
      congr 1
      omega
end

mutual
theorem visited_expanded : ∀ (proc : ProcessNode) (depth : Nat),
    visited true proc depth = proc.withDepth depth
  | .mk pid ppid name cpu mem t children, depth => by
    rw [visited, ProcessNode.withDepth, visitedLoop_expanded children (depth + 1)]
    simp
theorem visitedLoop_expanded : ∀ (procs : List ProcessNode) (depth : Nat),
    visitedLoop true procs depth = forestWithDepth procs depth
  | [], _ => by rw [visitedLoop, forestWithDepth]
  | proc :: rest, depth => by
    rw [visitedLoop, forestWithDepth, visited_expanded proc depth,
      visitedLoop_expanded rest depth]
end

theorem visitedLoop_collapsed_children : ∀ (procs : List ProcessNode),
    visitedLoop false procs 1 = procs.map (fun child => (child, 1))
  | [] => by rw [visitedLoop, List.map_nil]
  | .mk pid ppid name cpu mem t children :: rest => by
    rw [visitedLoop, visitedLoop_collapsed_children rest, visited]
    simp

theorem visitedLoop_collapsed : ∀ (procs : List ProcessNode),
    visitedLoop false procs 0
      = procs.flatMap (fun root => (root, 0) :: root.children.map (fun child => (child, 1)))
  | [] => by rw [visitedLoop, List.flatMap_nil]
  | .mk pid ppid name cpu mem t children :: rest => by
    rw [visitedLoop, visitedLoop_collapsed rest, visited, List.flatMap_cons]
    simp [visitedLoop_collapsed_children, ProcessNode.children]

/-- Without a limit, `addProcess` visits the visible nodes, in pre-order. -/
theorem visitedLoop_eq_visibleNodes (expandTree : Bool) (forest : List ProcessNode) :
    visitedLoop expandTree forest 0 = visibleNodes expandTree forest := by
  cases expandTree
  · rw [visitedLoop_collapsed]
    rfl
  · rw [visitedLoop_expanded]
    rfl

mutual
theorem withDepth_nodes : ∀ (node : ProcessNode) (depth : Nat),
    (node.withDepth depth).map Prod.fst = node :: node.descendants
  | .mk pid ppid name cpu mem t children, depth => by
    rw [ProcessNode.withDepth, List.map_cons, forestWithDepth_nodes children (depth + 1),
      ProcessNode.descendants]
theorem forestWithDepth_nodes : ∀ (forest : List ProcessNode) (depth : Nat),
    (forestWithDepth forest depth).map Prod.fst = descendantsOfForest forest
  | [], _ => by rw [forestWithDepth, descendantsOfForest, List.map_nil]
  | root :: rest, depth => by
    rw [forestWithDepth, List.map_append, withDepth_nodes root depth,
      forestWithDepth_nodes rest depth, descendantsOfForest, List.cons_append]
end

/-- C29: for every forest and every `maxProcessDisplay` below `2^31`, the process lines of the
widget are the lines of the first `maxProcessDisplay` visible nodes in pre-order, each with its
depth as indentation; so their number is `min(maxProcessDisplay, V)` for `V` the number of
visible nodes, and never above `maxProcessDisplay`.  The visible nodes are all nodes of the
forest when `expandTreeByDefault` is true, otherwise the roots and their direct children. -/
theorem C29_widget_lines_are_first_visible_nodes (config_ : Configuration)
    (hmax : config_.maxProcessDisplay < 2 ^ 31) (forest : List ProcessNode) :
    createProcessTreeWidget config_ forest
      = ((visibleNodes config_.expandTreeByDefault forest).take
          config_.maxProcessDisplay).map lineOf ∧
    (createProcessTreeWidget config_ forest).length
      = min config_.maxProcessDisplay (visibleNodes config_.expandTreeByDefault forest).length ∧
    (createProcessTreeWidget config_ forest).length ≤ config_.maxProcessDisplay ∧
    (visibleNodes true forest).map Prod.fst = descendantsOfForest forest ∧
    (visibleNodes false forest).map Prod.fst
      = forest.flatMap (fun root => root :: root.children) := by
  have h : createProcessTreeWidget config_ forest
      = ((visibleNodes config_.expandTreeByDefault forest).take
          config_.maxProcessDisplay).map lineOf := by
    have := addProcessLoop_eq config_ (by omega) forest 0 [] 0 (Nat.zero_le _)
    rw [createProcessTreeWidget]
    simp only [Nat.cast_zero] at this
    rw [this, visitedLoop_eq_visibleNodes]
    simp
  refine ⟨h, ?_, ?_, ?_, ?_⟩
  · rw [h, List.length_map, List.length_take]
  · rw [h, List.length_map, List.length_take]
    exact Nat.min_le_left _ _
  · exact forestWithDepth_nodes forest 0
  · simp only [visibleNodes, Bool.false_eq_true, if_false, List.map_flatMap]
    congr 1
    funext root
    simp [Function.comp_def]

/-- C29 on a forest of five processes with a limit of 3: collapsed, the four visible nodes are
pids 1, 2, 4, 5 and the lines are those of 1, 2, 4; expanded, all five are visible and the lines
are those of 1, 2, 3. -/
theorem C29_limit_three_witness :
    ((3 : Nat) < 2 ^ 31) ∧
    (createProcessTreeWidget { maxProcessDisplay := 3 } widgetForest).map ProcessLine.pid
      = [1, 2, 4] ∧
    (createProcessTreeWidget { maxProcessDisplay := 3, expandTreeByDefault := true }
        widgetForest).map ProcessLine.pid = [1, 2, 3] ∧
    (createProcessTreeWidget { maxProcessDisplay := 3, expandTreeByDefault := true }
        widgetForest).map ProcessLine.label = ["init", "  shell", "    job"] ∧
    (createProcessTreeWidget { maxProcessDisplay := 3 } widgetForest).length
      = min 3 (visibleNodes false widgetForest).length ∧
    (visibleNodes false widgetForest).length = 4 := by
  have h := C29_widget_lines_are_first_visible_nodes { maxProcessDisplay := 3 }
    (by decide) widgetForest
  exact ⟨by decide, by decide, by decide, by decide, h.2.1, by decide⟩

/-! ### Termination of reconciliation and snapshotting -/

/-- A step of the second loop either increments the iterator and leaves the vector alone, or
erases the element at the iterator; the distance from the iterator to the end drops by one. -/
theorem secondPassStep_progress (s next : Heap × List Nat × Nat)
    (h : secondPassStep s = some next) :
    ((next.2.1 = s.2.1 ∧ next.2.2 = s.2.2 + 1) ∨
      (next.2.1 = s.2.1.eraseIdx s.2.2 ∧ next.2.1.length + 1 = s.2.1.length ∧
        next.2.2 = s.2.2)) ∧
    next.2.2 ≤ next.2.1.length ∧
    (next.2.1.length - next.2.2) + 1 = s.2.1.length - s.2.2 := by
  unfold secondPassStep at h
  cases hget : s.2.1[s.2.2]? with
  | none => rw [hget] at h; simp at h
  | some proc =>
    have hlt : s.2.2 < s.2.1.length := by
      by_contra hge
      rw [List.getElem?_eq_none (by omega)] at hget
      simp at hget
    rw [hget] at h
    simp only at h
    cases hp : (deref s.1 proc).parent with
    | none =>
      rw [hp] at h
      simp only [Option.some.injEq] at h
      subst h
      refine ⟨Or.inl ⟨rfl, rfl⟩, ?_, ?_⟩ <;> simp only <;> omega
    | some parent =>
      rw [hp] at h
      simp only [Option.some.injEq] at h
      subst h
      have hlen : (s.2.1.eraseIdx s.2.2).length = s.2.1.length - 1 := by
        rw [List.length_eraseIdx, if_pos hlt]
      refine ⟨Or.inr ⟨rfl, ?_, rfl⟩, ?_, ?_⟩ <;> simp only <;> omega

/-- With the iterator in front of `rest`, the second loop is left after at most one evaluation
of its condition per element of `rest` and one more, and what it leaves is what `secondPass`
computes. -/
theorem secondPassLoop_eq : ∀ (rest : List Nat) (heap : Heap) (pre : List Nat) (fuel : Nat),
    rest.length < fuel →
    secondPassLoop fuel (heap, pre ++ rest, pre.length)
      = some ((secondPass heap rest).1, pre ++ (secondPass heap rest).2)
  | [], heap, pre, 0, h => by simp at h
  | [], heap, pre, fuel + 1, _ => by
    simp [secondPassLoop, secondPassStep, secondPass]
  | it :: rest, heap, pre, 0, h => by simp at h
  | it :: rest, heap, pre, fuel + 1, h => by
    have hget : (pre ++ it :: rest)[pre.length]? = some it := by
      rw [List.getElem?_append_right (le_refl _)]
      simp
    rw [secondPassLoop, secondPassStep]
    simp only [hget]
    cases hp : (deref heap it).parent with
    | some parent =>
      have herase : (pre ++ it :: rest).eraseIdx pre.length = pre ++ rest := by
        rw [List.eraseIdx_append_of_length_le (le_refl _)]
        simp
      simp only [herase]
      rw [secondPassLoop_eq rest _ pre fuel (by simpa using h), secondPass]
      simp only [hp]
    | none =>
      have hsplit : pre ++ it :: rest = (pre ++ [it]) ++ rest := by simp
      have hlen : pre.length + 1 = (pre ++ [it]).length := by simp
      simp only
      rw [hsplit, hlen, secondPassLoop_eq rest heap (pre ++ [it]) fuel (by simpa using h),
        secondPass]
      simp only [hp, List.append_assoc, List.singleton_append]

/-- The loop over the children on the heap computes what the loop over the children of the
subtree computes, once the recursive calls do. -/
theorem totalLoopOn_cpu (heap : Heap) (k : Nat)
    (ih : ∀ a t, readTree heap k a = some t →
      totalCpuOn heap k a = some (getTotalCpuWithChildren t)) :
    ∀ (children : List Nat) (cs : List ProcessNode) (total : ℚ),
      readForest heap k children = some cs →
      totalLoopOn (totalCpuOn heap k) (fun x y => x + y) children total
        = some (totalCpuLoop total cs)
  | [], cs, total, h => by
    rw [readForest_nil] at h
    cases h
    rfl
  | child :: rest, cs, total, h => by
    obtain ⟨t, ts, ht, hts, rfl⟩ := readForest_cons_eq_some h
    rw [totalLoopOn, ih child t ht]
    simp only
    rw [totalLoopOn_cpu heap k ih rest ts _ hts, totalCpuLoop]

/-- Called on an object whose subtree can be read with `fuel`, `getTotalCpuWithChildren` returns
within `fuel` levels of recursion, with the total of the subtree. -/
theorem totalCpuOn_eq (heap : Heap) : ∀ (fuel a : Nat) (t : ProcessNode),
    readTree heap fuel a = some t → totalCpuOn heap fuel a = some (getTotalCpuWithChildren t)
  | 0, _, _, h => by simp [readTree] at h
  | fuel + 1, a, t, h => by
    obtain ⟨cs, ha, hcs, rfl⟩ := readTree_succ_eq_some h
    rw [totalCpuOn, deref_of_lt ha]
    simp only
    rw [totalLoopOn_cpu heap fuel (totalCpuOn_eq heap fuel) _ cs _ hcs, getTotalCpuWithChildren]

theorem totalLoopOn_memory (heap : Heap) (k : Nat)
    (ih : ∀ a t, readTree heap k a = some t →
      totalMemoryOn heap k a = some (getTotalMemoryWithChildren t)) :
    ∀ (children : List Nat) (cs : List ProcessNode) (total : Nat),
      readForest heap k children = some cs →
      totalLoopOn (totalMemoryOn heap k) (fun x y => (x + y) % 2 ^ 64) children total
        = some (totalMemoryLoop total cs)
  | [], cs, total, h => by
    rw [readForest_nil] at h
    cases h
    rfl
  | child :: rest, cs, total, h => by
    obtain ⟨t, ts, ht, hts, rfl⟩ := readForest_cons_eq_some h
    rw [totalLoopOn, ih child t ht]
    simp only
    rw [totalLoopOn_memory heap k ih rest ts _ hts, totalMemoryLoop]

/-- Called on an object whose subtree can be read with `fuel`, `getTotalMemoryWithChildren`
returns within `fuel` levels of recursion, with the total of the subtree. -/
theorem totalMemoryOn_eq (heap : Heap) : ∀ (fuel a : Nat) (t : ProcessNode),
    readTree heap fuel a = some t →
      totalMemoryOn heap fuel a = some (getTotalMemoryWithChildren t)
  | 0, _, _, h => by simp [readTree] at h
  | fuel + 1, a, t, h => by
    obtain ⟨cs, ha, hcs, rfl⟩ := readTree_succ_eq_some h
    rw [totalMemoryOn, deref_of_lt ha]
    simp only
    rw [totalLoopOn_memory heap fuel (totalMemoryOn_eq heap fuel) _ cs _ hcs,
      getTotalMemoryWithChildren]

/-- What holds of every tree that is read holds along a forest that is read. -/
theorem map_of_readForest {α : Type} (heap : Heap) (k : Nat) (f : Nat → Option α)
    (g : ProcessNode → α)
    (hfg : ∀ a t, readTree heap k a = some t → f a = some (g t)) :
    ∀ (as : List Nat) (forest : List ProcessNode), readForest heap k as = some forest →
      as.map f = forest.map (fun t => some (g t))
  | [], forest, h => by
    rw [readForest_nil] at h
    cases h
    rfl
  | a :: as, forest, h => by
    obtain ⟨t, ts, ht, hts, rfl⟩ := readForest_cons_eq_some h
    rw [List.map_cons, List.map_cons, hfg a t ht, map_of_readForest heap k f g hfg as ts hts]

theorem readTree_of_readForest (heap : Heap) (k : Nat) :
    ∀ (as : List Nat) (forest : List ProcessNode), readForest heap k as = some forest →
      ∀ a ∈ as, ∃ t, readTree heap k a = some t
  | [], _, _, a, ha => by simp at ha
  | b :: as, forest, h, a, ha => by
    obtain ⟨t, ts, ht, hts, rfl⟩ := readForest_cons_eq_some h
    rcases List.mem_cons.1 ha with rfl | ha'
    · exact ⟨t, ht⟩
    · exact readTree_of_readForest heap k as ts hts a ha'

/-- The subtree of a tree of a forest has fewer nodes than the forest. -/
theorem descendants_length_lt_of_mem : ∀ (cs : List ProcessNode) (c : ProcessNode), c ∈ cs →
    c.descendants.length < (descendantsOfForest cs).length
  | [], _, h => by simp at h
  | d :: cs, c, h => by
    rw [descendantsOfForest]
    simp only [List.length_cons, List.length_append]
    rcases List.mem_cons.1 h with rfl | h'
    · omega
    · have := descendants_length_lt_of_mem cs c h'
      omega

/-- A child owns a strictly smaller subtree than its parent. -/
theorem descendants_length_child_lt (n c : ProcessNode) (h : c ∈ n.children) :
    c.descendants.length < n.descendants.length := by
  cases n with
  | mk pid ppid name cpu mem t cs =>
    rw [ProcessNode.descendants]
    exact descendants_length_lt_of_mem cs c h

/-- After `buildTree`, the subtree of every element of the enumeration can be read within as many
levels as there are elements. -/
theorem buildTree_readTree (heap : Heap) (processes : List Nat)
    (hvalid : ∀ a ∈ processes, a < heap.length) (hnodup : processes.Nodup)
    (hleaf : ∀ a ∈ processes, (deref heap a).children = []) (a : Nat) (ha : a ∈ processes) :
    ∃ t, readTree (buildTree heap processes).1 processes.length a = some t := by
  have R := buildTree_reconciled heap processes hvalid hnodup hleaf
  obtain ⟨j, hj⟩ := exists_atDepth R _ a ha (le_refl _)
  exact readTree_isSome R processes.length j a ha hj (by omega)

/-- C30: reconciliation and snapshotting terminate for every enumeration of distinct records
without children.  Every step of the second loop of `buildTree` either increments the iterator
or erases one element of the vector, so the distance from the iterator to the end drops by one,
and the loop is left after at most one evaluation of its condition per record and one more, with
the result of `buildTree`.  On the heap that `buildTree` leaves, `getProcessTree`, and for every
record `deepCopy`, `getTotalCpuWithChildren` and `getTotalMemoryWithChildren`, return within as
many levels of recursion as there are records; every recursive call is on a child, whose subtree
has fewer nodes. -/
theorem C30_reconciliation_and_snapshot_terminate (heap : Heap) (processes : List Nat)
    (hvalid : ∀ a ∈ processes, a < heap.length) (hnodup : processes.Nodup)
    (hleaf : ∀ a ∈ processes, (deref heap a).children = []) :
    (∀ s next, secondPassStep s = some next →
      ((next.2.1 = s.2.1 ∧ next.2.2 = s.2.2 + 1) ∨
        (next.2.1 = s.2.1.eraseIdx s.2.2 ∧ next.2.1.length + 1 = s.2.1.length ∧
          next.2.2 = s.2.2)) ∧
      (next.2.1.length - next.2.2) + 1 = s.2.1.length - s.2.2) ∧
    secondPassLoop (processes.length + 1)
        (firstPass (buildPidMap heap processes (fun _ => none)) heap processes, processes, 0)
      = some (buildTree heap processes) ∧
    (∃ result, getProcessTree processes.length
        { heap := (buildTree heap processes).1,
          processRoots_ := (buildTree heap processes).2 } = some result) ∧
    (∀ a ∈ processes, ∃ t,
      readTree (buildTree heap processes).1 processes.length a = some t ∧
      (∃ result, deepCopy processes.length (buildTree heap processes).1 a = some result) ∧
      totalCpuOn (buildTree heap processes).1 processes.length a
        = some (getTotalCpuWithChildren t) ∧
      totalMemoryOn (buildTree heap processes).1 processes.length a
        = some (getTotalMemoryWithChildren t) ∧
      ∀ c ∈ t.children, c.descendants.length < t.descendants.length) := by
  refine ⟨?_, ?_, ?_, ?_⟩
  · intro s next h
    obtain ⟨h1, -, h3⟩ := secondPassStep_progress s next h
    exact ⟨h1, h3⟩
  · have := secondPassLoop_eq processes
      (firstPass (buildPidMap heap processes (fun _ => none)) heap processes) []
      (processes.length + 1) (Nat.lt_succ_self _)
    simpa [buildTree] using this
  · obtain ⟨forest, hf, -⟩ := buildTree_forest heap processes hvalid hnodup hleaf
      processes.length (le_refl _)
    obtain ⟨heap', copy, h, -⟩ := getProcessTree_spec processes.length
      { heap := (buildTree heap processes).1, processRoots_ := (buildTree heap processes).2 }
      forest hf
    exact ⟨_, h⟩
  · intro a ha
    obtain ⟨t, ht⟩ := buildTree_readTree heap processes hvalid hnodup hleaf a ha
    obtain ⟨heap', hcopy, -⟩ := deepCopy_spec processes.length _ a t ht
    exact ⟨t, ht, ⟨_, hcopy⟩, totalCpuOn_eq _ _ a t ht, totalMemoryOn_eq _ _ a t ht,
      fun c hc => descendants_length_child_lt t c hc⟩

/-- C30 on two interleaved families of five records: the second loop is left within six
evaluations of its condition, and the snapshot and the totals of pid 20 (at address 1) return
within five levels of recursion. -/
theorem C30_interleaved_witness :
    ((∀ a ∈ [4, 1, 0, 3, 2], a < interleavedHeap.length) ∧ [4, 1, 0, 3, 2].Nodup ∧
      (∀ a ∈ [4, 1, 0, 3, 2], (deref interleavedHeap a).children = [])) ∧
    secondPassLoop 6
        (firstPass (buildPidMap interleavedHeap [4, 1, 0, 3, 2] (fun _ => none))
          interleavedHeap [4, 1, 0, 3, 2], [4, 1, 0, 3, 2], 0)
      = some (buildTree interleavedHeap [4, 1, 0, 3, 2]) ∧
    (∃ result, getProcessTree 5
        { heap := (buildTree interleavedHeap [4, 1, 0, 3, 2]).1,
          processRoots_ := (buildTree interleavedHeap [4, 1, 0, 3, 2]).2 } = some result) ∧
    totalMemoryOn (buildTree interleavedHeap [4, 1, 0, 3, 2]).1 5 1 = some 280 := by
  have h := C30_reconciliation_and_snapshot_terminate interleavedHeap [4, 1, 0, 3, 2]
    (by decide) (by decide) (by decide)
  exact ⟨⟨by decide, by decide, by decide⟩, h.2.1, h.2.2.1, by decide⟩

/-! ### Threads, the mutex and the published state -/

theorem sequentially_append {α κ : Type} (effect : κ → α → α) (init : α)
    (history : List (Thread × κ)) (e : Thread × κ) :
    sequentially effect init (history ++ [e]) = effect e.2 (sequentially effect init history) := by
  unfold sequentially
  rw [List.foldl_append]
  rfl

theorem callsOf_append_same {κ : Type} (t : Thread) (call : κ) (history : List (Thread × κ)) :
    callsOf t (history ++ [(t, call)]) = callsOf t history ++ [call] := by
  simp [callsOf, List.filter_append]

theorem callsOf_append_other {κ : Type} {t t' : Thread} (hne : t' ≠ t) (call : κ)
    (history : List (Thread × κ)) :
    callsOf t' (history ++ [(t, call)]) = callsOf t' history := by
  have h : decide (t = t') = false := by simpa using fun e => hne e.symm
  simp [callsOf, List.filter_append, h]

theorem applyStores_of_loads {α : Type} : ∀ (body : List (Access α)) (v : α),
    (∀ a ∈ body, a = Access.load) → applyStores body v = v
  | [], _, _ => rfl
  | a :: body, v, h => by
    have ha := h a (List.mem_cons_self _ _)
    subst ha
    rw [applyStores]
    exact applyStores_of_loads body v (fun b hb => h b (List.mem_cons_of_mem _ hb))

theorem CriticalSection.tail {α : Type} {a : Access α} {body : List (Access α)}
    (h : CriticalSection (a :: body)) : CriticalSection body := by
  rcases h with h | h
  · exact Or.inl (fun b hb => h b (List.mem_cons_of_mem _ hb))
  · exact Or.inr (fun b hb => h b (List.mem_cons_of_mem _ hb))

/-- A call that a thread has still to make is one of its calls. -/
theorem Disciplined.mem_calls {α κ : Type} {accesses : κ → List (Access α)}
    {effect : κ → α → α} {init : α} {calls : Thread → List κ} {m : Machine α κ}
    (h : Disciplined accesses effect init calls m) {t : Thread} {e : κ × List (Access α)}
    (he : e ∈ m.pending t) : e.1 ∈ calls t := by
  rw [← h.conform t]
  exact List.mem_append_right _ (List.mem_map_of_mem _ he)

theorem step_nil {α κ : Type} (m : Machine α κ) (t : Thread) (hp : m.pending t = []) :
    m.step t = m := by
  unfold Machine.step
  rw [hp]

theorem step_over {α κ : Type} (m : Machine α κ) (t : Thread) (call : κ)
    (later : List (κ × List (Access α))) (hp : m.pending t = (call, []) :: later) :
    m.step t = { m with pending := Function.update m.pending t later
                        completed := m.completed ++ [(t, call)] } := by
  unfold Machine.step
  rw [hp]
  rfl

theorem advance_unlock_left {α κ : Type} (m : Machine α κ) (t : Thread) (call : κ)
    (body : List (Access α)) (later : List (κ × List (Access α))) :
    m.advance t call (body ++ [Access.unlock]) later
      = { m with pending :=
            Function.update m.pending t ((call, body ++ [Access.unlock]) :: later) } := by
  cases body <;> rfl

theorem step_lock {α κ : Type} (m : Machine α κ) (t : Thread) (call : κ)
    (body : List (Access α)) (later : List (κ × List (Access α)))
    (hp : m.pending t = (call, Access.lock :: (body ++ [Access.unlock])) :: later) :
    m.step t = if m.owner = none then
        { m with owner := some t
                 pending :=
                   Function.update m.pending t ((call, body ++ [Access.unlock]) :: later) }
      else m := by
  unfold Machine.step
  rw [hp]
  simp only
  split
  · rw [advance_unlock_left]
  · rfl

theorem step_unlock {α κ : Type} (m : Machine α κ) (t : Thread) (call : κ)
    (later : List (κ × List (Access α))) (hp : m.pending t = (call, [Access.unlock]) :: later) :
    m.step t = { m with owner := none
                        unguarded :=
                          if m.owner = some t then m.unguarded else m.unguarded ++ [t]
                        pending := Function.update m.pending t later
                        completed := m.completed ++ [(t, call)] } := by
  unfold Machine.step
  rw [hp]
  rfl

theorem step_load {α κ : Type} (m : Machine α κ) (t : Thread) (call : κ)
    (body : List (Access α)) (later : List (κ × List (Access α)))
    (hp : m.pending t = (call, Access.load :: (body ++ [Access.unlock])) :: later) :
    m.step t = { m with loads := m.loads ++ [(t, m.published, m.completed)]
                        unguarded :=
                          if m.owner = some t then m.unguarded else m.unguarded ++ [t]
                        pending :=
                          Function.update m.pending t
                            ((call, body ++ [Access.unlock]) :: later) } := by
  unfold Machine.step
  rw [hp]
  simp only
  rw [advance_unlock_left]

theorem step_store {α κ : Type} (m : Machine α κ) (t : Thread) (call : κ) (assign : α → α)
    (body : List (Access α)) (later : List (κ × List (Access α)))
    (hp : m.pending t = (call, Access.store assign :: (body ++ [Access.unlock])) :: later) :
    m.step t = { m with published := assign m.published, stores := m.stores ++ [t]
                        unguarded :=
                          if m.owner = some t then m.unguarded else m.unguarded ++ [t]
                        pending :=
                          Function.update m.pending t
                            ((call, body ++ [Access.unlock]) :: later) } := by
  unfold Machine.step
  rw [hp]
  simp only
  rw [advance_unlock_left]

/-- A thread that does not hold the mutex ends a call without accesses. -/
theorem Disciplined.preserved_over {α κ : Type} {accesses : κ → List (Access α)}
    {effect : κ → α → α} {init : α} {calls : Thread → List κ} {m : Machine α κ}
    (h : Disciplined accesses effect init calls m) (t : Thread) (ho : m.owner ≠ some t)
    (call : κ) (later : List (κ × List (Access α)))
    (hp : m.pending t = (call, []) :: later) (heff : ∀ v, effect call v = v) :
    Disciplined accesses effect init calls
      { m with pending := Function.update m.pending t later
               completed := m.completed ++ [(t, call)] } where
  free := fun hfree => by
    show m.published = _
    rw [sequentially_append, heff]
    exact h.free hfree
  outside := fun t' ht' e he => by
    by_cases htt : t' = t
    · subst htt
      simp only [Function.update_same] at he
      exact h.outside t' ho e (by rw [hp]; exact List.mem_cons_of_mem _ he)
    · simp only [Function.update_noteq htt] at he
      exact h.outside t' ht' e he
  inside := fun t' ht' => by
    have htt : t' ≠ t := fun e => ho (e ▸ ht')
    obtain ⟨c, body, l, h1, h2, h3, h4, h5, h6⟩ := h.inside t' ht'
    refine ⟨c, body, l, by simp only [Function.update_noteq htt]; exact h1, h2, h3, ?_, ?_, h6⟩
    · show applyStores body m.published = _
      rw [sequentially_append, heff]
      exact h4
    · intro hne hall
      show m.published = _
      rw [sequentially_append, heff]
      exact h5 hne hall
  loads := fun e he => by
    obtain ⟨h1, h2, h3⟩ := h.loads e he
    exact ⟨h1, h2.trans (List.prefix_append _ _), h3⟩
  stores := h.stores
  unguarded := h.unguarded
  conform := fun t' => by
    by_cases htt : t' = t
    · subst htt
      have := h.conform t'
      rw [hp] at this
      simp only [Function.update_same]
      rw [callsOf_append_same, ← this]
      simp
    · simp only [Function.update_noteq htt]
      rw [callsOf_append_other htt]
      exact h.conform t'

/-- A thread takes the free mutex. -/
theorem Disciplined.preserved_lock {α κ : Type} {accesses : κ → List (Access α)}
    {effect : κ → α → α} {init : α} {calls : Thread → List κ} {m : Machine α κ}
    (h : Disciplined accesses effect init calls m) (t : Thread) (hfree : m.owner = none)
    (call : κ) (body : List (Access α)) (later : List (κ × List (Access α)))
    (hp : m.pending t = (call, Access.lock :: (body ++ [Access.unlock])) :: later)
    (hacc : accesses call = Access.lock :: (body ++ [Access.unlock]))
    (hcs : CriticalSection body) (heff : ∀ v, applyStores body v = effect call v) :
    Disciplined accesses effect init calls
      { m with owner := some t
               pending :=
                 Function.update m.pending t ((call, body ++ [Access.unlock]) :: later) } where
  free := fun e => by simp at e
  outside := fun t' ht' e he => by
    simp only [ne_eq, Option.some.injEq] at ht'
    have htt : t' ≠ t := fun e => ht' e.symm
    simp only [Function.update_noteq htt] at he
    exact h.outside t' (by rw [hfree]; simp) e he
  inside := fun t' ht' => by
    simp only [Option.some.injEq] at ht'
    subst ht'
    refine ⟨call, body, later, by simp, hcs, ?_, ?_, ?_, ?_⟩
    · intro a ha
      rw [hacc]
      exact List.mem_cons_of_mem _ (List.mem_append_left _ ha)
    · show applyStores body m.published = _
      rw [heff, h.free hfree]
    · intro _ _
      exact h.free hfree
    · intro e he
      exact h.outside t (by rw [hfree]; simp) e (by rw [hp]; exact List.mem_cons_of_mem _ he)
  loads := h.loads
  stores := h.stores
  unguarded := h.unguarded
  conform := fun t' => by
    by_cases htt : t' = t
    · subst htt
      have := h.conform t'
      rw [hp] at this
      simp only [Function.update_same]
      exact this
    · simp only [Function.update_noteq htt]
      exact h.conform t'

/-- The thread that holds the mutex releases it: its call is over. -/
theorem Disciplined.preserved_unlock {α κ : Type} {accesses : κ → List (Access α)}
    {effect : κ → α → α} {init : α} {calls : Thread → List κ} {m : Machine α κ}
    (h : Disciplined accesses effect init calls m) (t : Thread) (ho : m.owner = some t)
    (call : κ) (later : List (κ × List (Access α)))
    (hp : m.pending t = (call, [Access.unlock]) :: later) :
    Disciplined accesses effect init calls
      { m with owner := none
               unguarded := if m.owner = some t then m.unguarded else m.unguarded ++ [t]
               pending := Function.update m.pending t later
               completed := m.completed ++ [(t, call)] } := by
  obtain ⟨c, body, l, h1, -, -, h4, -, h6⟩ := h.inside t ho
  rw [hp] at h1
  have hbody : body = [] := by
    cases body with
    | nil => rfl
    | cons b body' =>
      simp only [List.cons_append, List.cons.injEq, Prod.mk.injEq] at h1
      have := congrArg List.length h1.1.2.2
      simp at this
  subst hbody
  simp only [List.nil_append, List.cons.injEq, Prod.mk.injEq, and_true, true_and] at h1
  obtain ⟨rfl, rfl⟩ := h1
  refine ⟨fun _ => ?_, ?_, fun t' ht' => by simp at ht', ?_, h.stores, ?_, ?_⟩
  · show m.published = _
    rw [sequentially_append]
    exact h4
  · intro t' _ e he
    by_cases htt : t' = t
    · subst htt
      simp only [Function.update_same] at he
      exact h6 e he
    · simp only [Function.update_noteq htt] at he
      exact h.outside t' (by rw [ho]; simpa using fun e => htt e.symm) e he
  · intro e he
    obtain ⟨e1, e2, e3⟩ := h.loads e he
    exact ⟨e1, e2.trans (List.prefix_append _ _), e3⟩
  · show (if m.owner = some t then m.unguarded else m.unguarded ++ [t]) = []
    rw [if_pos ho]
    exact h.unguarded
  · intro t'
    by_cases htt : t' = t
    · subst htt
      have := h.conform t'
      rw [hp] at this
      simp only [Function.update_same]
      rw [callsOf_append_same, ← this]
      simp
    · simp only [Function.update_noteq htt]
      rw [callsOf_append_other htt]
      exact h.conform t'

/-- The thread that holds the mutex makes a copy or an assignment. -/
theorem Disciplined.preserved_access {α κ : Type} {accesses : κ → List (Access α)}
    {effect : κ → α → α} {init : α} {calls : Thread → List κ} {m : Machine α κ}
    (h : Disciplined accesses effect init calls m) (t : Thread) (ho : m.owner = some t)
    (call : κ) (a : Access α) (body : List (Access α)) (later : List (κ × List (Access α)))
    (hp : m.pending t = (call, a :: (body ++ [Access.unlock])) :: later)
    (published : α) (loads : List (Thread × α × List (Thread × κ))) (stores : List Thread)
    (hkind : (a = Access.load ∧ published = m.published ∧
        loads = m.loads ++ [(t, m.published, m.completed)] ∧ stores = m.stores) ∨
      (∃ assign, a = Access.store assign ∧ published = assign m.published ∧
        loads = m.loads ∧ stores = m.stores ++ [t])) :
    Disciplined accesses effect init calls
      { m with published := published, loads := loads, stores := stores
               unguarded := if m.owner = some t then m.unguarded else m.unguarded ++ [t]
               pending :=
                 Function.update m.pending t ((call, body ++ [Access.unlock]) :: later) } := by
  obtain ⟨c, body0, l, h1, hcs, hmem, h4, h5, h6⟩ := h.inside t ho
  rw [hp] at h1
  have hbody : body0 = a :: body := by
    cases body0 with
    | nil =>
      simp only [List.nil_append, List.cons.injEq, Prod.mk.injEq] at h1
      have := congrArg List.length h1.1.2.2
      simp at this
    | cons b body' =>
      simp only [List.cons_append, List.cons.injEq, Prod.mk.injEq] at h1
      obtain ⟨⟨-, rfl, h13⟩, -⟩ := h1
      rw [List.append_cancel_right h13]
  subst hbody
  simp only [List.cons_append, List.cons.injEq, Prod.mk.injEq, and_true, true_and] at h1
  obtain ⟨rfl, rfl⟩ := h1
  have hcall : call ∈ calls t := h.mem_calls (by rw [hp]; exact List.mem_cons_self _ _)
  have hpub : applyStores body published = effect call (sequentially effect init m.completed) ∧
      (body ≠ [] → (∀ b ∈ body, b = Access.load) →
        published = sequentially effect init m.completed) ∧
      (a = Access.load → m.published = sequentially effect init m.completed) := by
    rcases hkind with ⟨rfl, rfl, -, -⟩ | ⟨assign, rfl, rfl, -, -⟩
    · have hall : ∀ b ∈ Access.load :: body, b = Access.load := by
        rcases hcs with hcs | hcs
        · exact hcs
        · obtain ⟨f, hf⟩ := hcs _ (List.mem_cons_self _ _)
          cases hf
      have hval := h5 (by simp) hall
      rw [applyStores] at h4
      exact ⟨h4, fun _ _ => hval, fun _ => hval⟩
    · rw [applyStores] at h4
      refine ⟨h4, ?_, fun e => by cases e⟩
      intro hne hall
      exfalso
      rcases hcs with hcs | hcs
      · have := hcs _ (List.mem_cons_self _ _)
        cases this
      · cases body with
        | nil => exact hne rfl
        | cons b body' =>
          obtain ⟨f, hf⟩ := hcs b (List.mem_cons_of_mem _ (List.mem_cons_self _ _))
          have := hall b (List.mem_cons_self _ _)
          rw [this] at hf
          cases hf
  refine ⟨fun e => absurd (ho.symm.trans e) (by simp), ?_, ?_, ?_, ?_, ?_, ?_⟩
  · intro t' ht' e he
    simp only [ne_eq] at ht'
    have htt : t' ≠ t := fun e => ht' (by rw [e]; exact ho)
    simp only [Function.update_noteq htt] at he
    exact h.outside t' ht' e he
  · intro t' ht'
    have htt : t' = t := by
      have : m.owner = some t' := ht'
      rw [ho] at this
      exact (Option.some.inj this).symm
    subst htt
    exact ⟨call, body, later, by simp, hcs.tail,
      fun b hb => hmem b (List.mem_cons_of_mem _ hb), hpub.1, hpub.2.1, h6⟩
  · intro e he
    rcases hkind with ⟨rfl, -, rfl, -⟩ | ⟨assign, -, -, rfl, -⟩
    · rcases List.mem_append.1 he with he | he
      · exact h.loads e he
      · simp only [List.mem_singleton] at he
        subst he
        exact ⟨hpub.2.2 rfl, List.prefix_refl _, call, hcall,
          hmem _ (List.mem_cons_self _ _)⟩
    · exact h.loads e he
  · intro t' ht'
    rcases hkind with ⟨-, -, -, rfl⟩ | ⟨assign, rfl, -, -, rfl⟩
    · exact h.stores t' ht'
    · rcases List.mem_append.1 ht' with ht' | ht'
      · exact h.stores t' ht'
      · simp only [List.mem_singleton] at ht'
        subst ht'
        exact ⟨call, hcall, assign, hmem _ (List.mem_cons_self _ _)⟩
  · show (if m.owner = some t then m.unguarded else m.unguarded ++ [t]) = []
    rw [if_pos ho]
    exact h.unguarded
  · intro t'
    by_cases htt : t' = t
    · subst htt
      have := h.conform t'
      rw [hp] at this
      simp only [Function.update_same]
      exact this
    · simp only [Function.update_noteq htt]
      exact h.conform t'

/-- Every transition of the machine keeps the discipline, when each call is a critical
section between a lock and an unlock (or touches nothing). -/
theorem Disciplined.after_step {α κ : Type} {accesses : κ → List (Access α)}
    {effect : κ → α → α} {init : α} {calls : Thread → List κ} {m : Machine α κ}
    (hcalls : ∀ call, Bracketed (accesses call) (effect call))
    (h : Disciplined accesses effect init calls m) (t : Thread) :
    Disciplined accesses effect init calls (m.step t) := by
  rcases hp : m.pending t with _ | ⟨⟨call, accs⟩, later⟩
  · rw [step_nil m t hp]
    exact h
  · by_cases ho : m.owner = some t
    · obtain ⟨c, body, l, h1, hcs, -, -, -, -⟩ := h.inside t ho
      rw [hp] at h1
      simp only [List.cons.injEq, Prod.mk.injEq] at h1
      obtain ⟨⟨rfl, rfl⟩, rfl⟩ := h1
      cases body with
      | nil =>
        rw [step_unlock m t call later hp]
        exact h.preserved_unlock t ho call later hp
      | cons a body =>
        have ha : a = Access.load ∨ ∃ assign, a = Access.store assign := by
          rcases hcs with hcs | hcs
          · exact Or.inl (hcs a (List.mem_cons_self _ _))
          · exact Or.inr (hcs a (List.mem_cons_self _ _))
        rcases ha with rfl | ⟨assign, rfl⟩
        · rw [step_load m t call body later hp]
          exact h.preserved_access t ho call Access.load body later hp _ _ _
            (Or.inl ⟨rfl, rfl, rfl, rfl⟩)
        · rw [step_store m t call assign body later hp]
          exact h.preserved_access t ho call (Access.store assign) body later hp _ _ _
            (Or.inr ⟨assign, rfl, rfl, rfl, rfl⟩)
    · have hacc : accs = accesses call :=
        h.outside t ho (call, accs) (by rw [hp]; exact List.mem_cons_self _ _)
      subst hacc
      rcases hcalls call with ⟨hnil, heff⟩ | ⟨body, hbody, hcs, heff⟩
      · rw [hnil] at hp
        rw [step_over m t call later hp]
        exact h.preserved_over t ho call later hp heff
      · rw [hbody] at hp
        rw [step_lock m t call body later hp]
        split
        · next hfree => exact h.preserved_lock t hfree call body later hp hbody hcs heff
        · exact h

/-- The discipline holds along every schedule. -/
theorem Disciplined.after_run {α κ : Type} {accesses : κ → List (Access α)}
    {effect : κ → α → α} {init : α} {calls : Thread → List κ}
    (hcalls : ∀ call, Bracketed (accesses call) (effect call)) :
    ∀ (schedule : List Thread) (m : Machine α κ),
      Disciplined accesses effect init calls m →
      Disciplined accesses effect init calls (m.run schedule)
  | [], _, h => h
  | t :: schedule, m, h =>
    Disciplined.after_run hcalls schedule (m.step t) (h.after_step hcalls t)

/-- The discipline holds before any thread has run. -/
theorem disciplined_start {α κ : Type} (accesses : κ → List (Access α))
    (effect : κ → α → α) (init : α) (calls : Thread → List κ) :
    Disciplined accesses effect init calls (Machine.start init accesses calls) where
  free := fun _ => rfl
  outside := fun t _ e he => by
    simp only [Machine.start, List.mem_map] at he
    obtain ⟨call, -, rfl⟩ := he
    rfl
  inside := fun t ht => by simp [Machine.start] at ht
  loads := fun e he => by simp [Machine.start] at he
  stores := fun t ht => by simp [Machine.start] at ht
  unguarded := rfl
  conform := fun t => by
    simp [Machine.start, callsOf, Function.comp_def]

/-- What the discipline gives for every run of bracketed calls from the start. -/
theorem machine_safe {α κ : Type} (accesses : κ → List (Access α))
    (effect : κ → α → α) (hcalls : ∀ call, Bracketed (accesses call) (effect call))
    (init : α) (calls : Thread → List κ) (schedule : List Thread) :
    Disciplined accesses effect init calls
      ((Machine.start init accesses calls).run schedule) :=
  Disciplined.after_run hcalls schedule _ (disciplined_start accesses effect init calls)

/-- The assignments of the merge block, made in order, are the merge. -/
theorem applyStores_mergeAccesses (newMetrics current : SystemMetrics) :
    applyStores (mergeAccesses newMetrics) current = mergeMetrics current newMetrics := by
  unfold mergeAccesses mergeMetrics
  by_cases h1 : newMetrics.cpuUsagePercent > 0 <;>
  by_cases h2 : newMetrics.totalMemoryBytes > 0 <;>
  simp [h1, h2, applyStores]

theorem mergeAccesses_stores (newMetrics : SystemMetrics) :
    ∀ a ∈ mergeAccesses newMetrics, ∃ assign, a = Access.store assign := by
  intro a ha
  unfold mergeAccesses at ha
  simp only [List.mem_append, List.mem_cons, List.mem_singleton, List.not_mem_nil,
    or_false] at ha
  rcases ha with (ha | ha) | ha
  · split at ha
    · simp only [List.mem_cons, List.mem_singleton, List.not_mem_nil, or_false] at ha
      rcases ha with rfl | rfl <;> exact ⟨_, rfl⟩
    · simp at ha
  · split at ha
    · simp only [List.mem_cons, List.mem_singleton, List.not_mem_nil, or_false] at ha
      rcases ha with rfl | rfl | rfl <;> exact ⟨_, rfl⟩
    · simp at ha
  · rcases ha with rfl | rfl | rfl | rfl | rfl <;> exact ⟨_, rfl⟩

/-- Every call of the metric engine is nothing or one critical section with the effect of the
call. -/
theorem metricsCall_bracketed (call : MetricsCall) : Bracketed call.accesses call.effect := by
  cases call with
  | collectionLoopIteration updated newMetrics =>
    cases updated
    · exact Or.inl ⟨rfl, fun _ => rfl⟩
    · refine Or.inr ⟨mergeAccesses newMetrics, rfl, Or.inr (mergeAccesses_stores newMetrics), ?_⟩
      intro v
      rw [applyStores_mergeAccesses]
      rfl
  | refresh newMetrics =>
    exact Or.inr ⟨[Access.store (fun _ => newMetrics)], rfl,
      Or.inr (fun a ha => ⟨_, List.mem_singleton.1 ha⟩), fun _ => rfl⟩
  | getMetrics =>
    exact Or.inr ⟨[Access.load], rfl, Or.inl (fun a ha => List.mem_singleton.1 ha),
      fun _ => rfl⟩

/-- Every call of the process engine is nothing or one critical section with the effect of the
call. -/
theorem processCall_bracketed (call : ProcessCall) : Bracketed call.accesses call.effect := by
  cases call with
  | enumerationLoopIteration forest =>
    exact Or.inr ⟨[Access.store (fun _ => forest)], rfl,
      Or.inr (fun a ha => ⟨_, List.mem_singleton.1 ha⟩), fun _ => rfl⟩
  | getProcessTree =>
    exact Or.inr ⟨[Access.load], rfl, Or.inl (fun a ha => List.mem_singleton.1 ha),
      fun _ => rfl⟩
  | refresh => exact Or.inl ⟨rfl, fun _ => rfl⟩
  | terminateProcess pid => exact Or.inl ⟨rfl, fun _ => rfl⟩

/-- The effect of an iteration as a call is that of the function `publish`. -/
theorem publish_effect {σ : Type} (wallMs : Nat) (s : SystemDataCollector σ × LoopLocals) :
    (publish wallMs s).1.currentMetrics_
      = (MetricsCall.collectionLoopIteration s.2.updated
          { s.2.newMetrics with timestampMs := wallMs }).effect s.1.currentMetrics_ := by
  by_cases h : s.2.updated = true <;> simp [publish, MetricsCall.effect, h]

/-- The effect of `refresh()` as a call is that of the function `refresh`. -/
theorem refresh_effect {σ : Type} (src : ISystemCollector σ) (wallMs : Nat)
    (self : SystemDataCollector σ) :
    (refresh src wallMs self).currentMetrics_
      = (MetricsCall.refresh (refresh src wallMs self).currentMetrics_).effect
          self.currentMetrics_ := rfl

/-! ### Who writes the published state, and under which lock -/

theorem store_mem_metricsCall {call : MetricsCall} {f : SystemMetrics → SystemMetrics}
    (h : Access.store f ∈ call.accesses) :
    (∃ updated newMetrics, call = MetricsCall.collectionLoopIteration updated newMetrics) ∨
    (∃ newMetrics, call = MetricsCall.refresh newMetrics) := by
  cases call with
  | collectionLoopIteration updated newMetrics => exact Or.inl ⟨_, _, rfl⟩
  | refresh newMetrics => exact Or.inr ⟨_, rfl⟩
  | getMetrics => simp [MetricsCall.accesses] at h

theorem load_mem_metricsCall {call : MetricsCall} (h : Access.load ∈ call.accesses) :
    call = MetricsCall.getMetrics := by
  cases call with
  | collectionLoopIteration updated newMetrics =>
    exfalso
    cases updated
    · simp [MetricsCall.accesses] at h
    · simp only [MetricsCall.accesses, if_true, List.mem_cons, List.mem_append,
        List.mem_singleton] at h
      rcases h with h | h | h
      · cases h
      · obtain ⟨f, hf⟩ := mergeAccesses_stores newMetrics _ h
        cases hf
      · simp at h
  | refresh newMetrics => simp [MetricsCall.accesses] at h
  | getMetrics => rfl

theorem store_mem_processCall {call : ProcessCall}
    {f : List ProcessNode → List ProcessNode} (h : Access.store f ∈ call.accesses) :
    ∃ forest, call = ProcessCall.enumerationLoopIteration forest := by
  cases call with
  | enumerationLoopIteration forest => exact ⟨_, rfl⟩
  | getProcessTree => simp [ProcessCall.accesses] at h
  | refresh => simp [ProcessCall.accesses] at h
  | terminateProcess pid => simp [ProcessCall.accesses] at h

theorem load_mem_processCall {call : ProcessCall} (h : Access.load ∈ call.accesses) :
    call = ProcessCall.getProcessTree := by
  cases call with
  | enumerationLoopIteration forest => simp [ProcessCall.accesses] at h
  | getProcessTree => rfl
  | refresh => simp [ProcessCall.accesses] at h
  | terminateProcess pid => simp [ProcessCall.accesses] at h

/-- The calls of a thread that are over are the first of the calls it has to make. -/
theorem Disciplined.callsOf_prefix {α κ : Type} {accesses : κ → List (Access α)}
    {effect : κ → α → α} {init : α} {calls : Thread → List κ} {m : Machine α κ}
    (h : Disciplined accesses effect init calls m) (t : Thread) :
    callsOf t m.completed <+: calls t :=
  ⟨_, h.conform t⟩

/-- Who copies and who assigns the published snapshot in a run of the metric engine. -/
theorem metricsRun_threads (init : SystemMetrics) (iterations : List (Bool × SystemMetrics))
    (requests : Nat → List MetricsRequest) (schedule : List Thread) :
    (∀ e ∈ (metricsRun init iterations requests schedule).loads,
      ∃ id, e.1 = Thread.caller id ∧ MetricsRequest.getMetrics ∈ requests id) ∧
    (∀ t ∈ (metricsRun init iterations requests schedule).stores,
      (t = Thread.worker ∧ ∃ newMetrics, (true, newMetrics) ∈ iterations) ∨
        ∃ id newMetrics, t = Thread.caller id ∧
          MetricsRequest.refresh newMetrics ∈ requests id) := by
  have h := machine_safe MetricsCall.accesses MetricsCall.effect metricsCall_bracketed init
    (metricsCalls iterations requests) schedule
  constructor
  · intro e he
    obtain ⟨-, -, call, hcall, hload⟩ := h.loads e he
    have hc := load_mem_metricsCall hload
    subst hc
    cases ht : e.1 with
    | worker =>
      rw [ht] at hcall
      simp [metricsCalls] at hcall
    | caller id =>
      rw [ht] at hcall
      simp only [metricsCalls, List.mem_map] at hcall
      obtain ⟨r, hr, hrc⟩ := hcall
      cases r with
      | refresh w => cases hrc
      | getMetrics => exact ⟨id, rfl, hr⟩
  · intro t ht
    obtain ⟨call, hcall, f, hf⟩ := h.stores t ht
    cases t with
    | worker =>
      left
      refine ⟨rfl, ?_⟩
      simp only [metricsCalls, List.mem_map] at hcall
      obtain ⟨⟨updated, newMetrics⟩, hi, rfl⟩ := hcall
      cases updated
      · simp [MetricsCall.accesses] at hf
      · exact ⟨newMetrics, hi⟩
    | caller id =>
      right
      simp only [metricsCalls, List.mem_map] at hcall
      obtain ⟨r, hr, rfl⟩ := hcall
      cases r with
      | refresh w => exact ⟨id, w, rfl, hr⟩
      | getMetrics => simp [MetricsRequest.call, MetricsCall.accesses] at hf

/-- Who copies and who assigns the published forest in a run of the process engine. -/
theorem processRun_threads (init : List ProcessNode) (forests : List (List ProcessNode))
    (requests : Nat → List ProcessRequest) (schedule : List Thread) :
    (∀ e ∈ (processRun init forests requests schedule).loads,
      ∃ id, e.1 = Thread.caller id ∧ ProcessRequest.getProcessTree ∈ requests id) ∧
    (∀ t ∈ (processRun init forests requests schedule).stores, t = Thread.worker) := by
  have h := machine_safe ProcessCall.accesses ProcessCall.effect processCall_bracketed init
    (processCalls forests requests) schedule
  constructor
  · intro e he
    obtain ⟨-, -, call, hcall, hload⟩ := h.loads e he
    have hc := load_mem_processCall hload
    subst hc
    cases ht : e.1 with
    | worker =>
      rw [ht] at hcall
      simp [processCalls] at hcall
    | caller id =>
      rw [ht] at hcall
      simp only [processCalls, List.mem_map] at hcall
      obtain ⟨r, hr, hrc⟩ := hcall
      cases r with
      | getProcessTree => exact ⟨id, rfl, hr⟩
      | refresh => cases hrc
      | terminateProcess pid => cases hrc
  · intro t ht
    obtain ⟨call, hcall, f, hf⟩ := h.stores t ht
    cases t with
    | worker => rfl
    | caller id =>
      exfalso
      simp only [processCalls, List.mem_map] at hcall
      obtain ⟨r, hr, rfl⟩ := hcall
      cases r <;> simp [ProcessRequest.call, ProcessCall.accesses] at hf

/-- C21, as stated, fails for the metric engine: `refresh()` runs `collectAllMetrics()` on the
thread of its caller, and that assigns to `currentMetrics_`.  In the run where the worker makes
no iteration and caller 0 calls `refresh()`, the one assignment to the published snapshot is made
by caller 0, not by the worker thread, and it changes the snapshot; so it is not true that in
every run every assignment is made by the worker thread. -/
theorem C21_refresh_assigns_on_caller_thread :
    (metricsRun {} [] refreshRequest
      [Thread.caller 0, Thread.caller 0, Thread.caller 0]).stores = [Thread.caller 0] ∧
    (metricsRun {} [] refreshRequest
      [Thread.caller 0, Thread.caller 0, Thread.caller 0]).completed
        = [(Thread.caller 0, MetricsCall.refresh steadyReading)] ∧
    (metricsRun {} [] refreshRequest
      [Thread.caller 0, Thread.caller 0, Thread.caller 0]).published.totalMemoryBytes = 8000 ∧
    (refresh (fixedSource steadyReading) 0 freshCollector).currentMetrics_.totalMemoryBytes
      ≠ freshCollector.currentMetrics_.totalMemoryBytes ∧
    ¬ (∀ (init : SystemMetrics) (iterations : List (Bool × SystemMetrics))
        (requests : Nat → List MetricsRequest) (schedule : List Thread),
        ∀ t ∈ (metricsRun init iterations requests schedule).stores, t = Thread.worker) := by
  have hstores : (metricsRun {} [] refreshRequest
      [Thread.caller 0, Thread.caller 0, Thread.caller 0]).stores = [Thread.caller 0] := by
    decide
  refine ⟨hstores, rfl, by decide, by decide, ?_⟩
  intro h
  have := h {} [] refreshRequest
    [Thread.caller 0, Thread.caller 0, Thread.caller 0] (Thread.caller 0)
    (by rw [hstores]; exact List.mem_singleton_self _)
  cases this

/-- C21, amended: in every run of either started engine, whatever iterations the worker thread
makes of the loop, whatever requests the callers make of the public member functions, and under
any schedule of the threads: no thread copies or assigns the published state, or releases the
mutex, without holding the mutex of the engine; every copy is made by a caller that calls
`getMetrics()` (`getProcessTree()`), and it is exactly the state that results from the initial
state by the calls that were over when the copy was made, each made as a whole, in the order in
which they ended, so no copy is a partially updated state; the calls of a thread that are over
are the first of the calls it has to make; whenever the mutex is free the published state is
that of the calls that are over; the published forest is assigned only by the worker thread;
the published metrics are assigned by the worker thread in an iteration that has an update and
by the threads that call `refresh()`, and by no other. -/
theorem C21_published_state_accessed_under_engine_lock
    (iterations : List (Bool × SystemMetrics)) (metricsRequests : Nat → List MetricsRequest)
    (forests : List (List ProcessNode)) (processRequests : Nat → List ProcessRequest)
    (initMetrics : SystemMetrics) (initForest : List ProcessNode) (schedule : List Thread) :
    ((metricsRun initMetrics iterations metricsRequests schedule).unguarded = [] ∧
      (∀ e ∈ (metricsRun initMetrics iterations metricsRequests schedule).loads,
        e.2.1 = sequentially MetricsCall.effect initMetrics e.2.2 ∧
        e.2.2 <+: (metricsRun initMetrics iterations metricsRequests schedule).completed ∧
        ∃ id, e.1 = Thread.caller id ∧ MetricsRequest.getMetrics ∈ metricsRequests id) ∧
      (∀ t, callsOf t (metricsRun initMetrics iterations metricsRequests schedule).completed
        <+: metricsCalls iterations metricsRequests t) ∧
      ((metricsRun initMetrics iterations metricsRequests schedule).owner = none →
        (metricsRun initMetrics iterations metricsRequests schedule).published
          = sequentially MetricsCall.effect initMetrics
              (metricsRun initMetrics iterations metricsRequests schedule).completed) ∧
      (∀ t ∈ (metricsRun initMetrics iterations metricsRequests schedule).stores,
        (t = Thread.worker ∧ ∃ newMetrics, (true, newMetrics) ∈ iterations) ∨
          ∃ id newMetrics, t = Thread.caller id ∧
            MetricsRequest.refresh newMetrics ∈ metricsRequests id)) ∧
    ((processRun initForest forests processRequests schedule).unguarded = [] ∧
      (∀ e ∈ (processRun initForest forests processRequests schedule).loads,
        e.2.1 = sequentially ProcessCall.effect initForest e.2.2 ∧
        e.2.2 <+: (processRun initForest forests processRequests schedule).completed ∧
        ∃ id, e.1 = Thread.caller id ∧ ProcessRequest.getProcessTree ∈ processRequests id) ∧
      (∀ t, callsOf t (processRun initForest forests processRequests schedule).completed
        <+: processCalls forests processRequests t) ∧
      ((processRun initForest forests processRequests schedule).owner = none →
        (processRun initForest forests processRequests schedule).published
          = sequentially ProcessCall.effect initForest
              (processRun initForest forests processRequests schedule).completed) ∧
      (∀ t ∈ (processRun initForest forests processRequests schedule).stores,
        t = Thread.worker)) := by
  have hm := machine_safe MetricsCall.accesses MetricsCall.effect metricsCall_bracketed
    initMetrics (metricsCalls iterations metricsRequests) schedule
  have hp := machine_safe ProcessCall.accesses ProcessCall.effect processCall_bracketed
    initForest (processCalls forests processRequests) schedule
  have hmt := metricsRun_threads initMetrics iterations metricsRequests schedule
  have hpt := processRun_threads initForest forests processRequests schedule
  refine ⟨⟨hm.unguarded, ?_, hm.callsOf_prefix, hm.free, hmt.2⟩,
    ⟨hp.unguarded, ?_, hp.callsOf_prefix, hp.free, hpt.2⟩⟩
  · intro e he
    exact ⟨(hm.loads e he).1, (hm.loads e he).2.1, hmt.1 e he⟩
  · intro e he
    exact ⟨(hp.loads e he).1, (hp.loads e he).2.1, hpt.1 e he⟩

/-- C21, amended, on a run in which the worker publishes two iterations (time stamps 1 and 2),
caller 0 calls `getMetrics()` twice and caller 1 calls `refresh()` (time stamp 7) and
`getMetrics()`.  After six steps the worker holds the mutex in the middle of its first merge
(the CPU fields are written, the memory fields are not) and no copy has been made, because the
callers wait for the mutex; in the whole run the copies carry the time stamps 1, 7 and 7, each
the state after the calls that were over, and the last assignment is made by caller 1.  In the
process engine the one copy is the forest that the worker has published. -/
theorem C21_busy_run_witness :
    ((metricsRun {} busyIterations busyRequests
          (busySchedule.take 6)).published.perCoreCpuUsage.length = 2 ∧
      (metricsRun {} busyIterations busyRequests
          (busySchedule.take 6)).published.totalMemoryBytes = 0 ∧
      (metricsRun {} busyIterations busyRequests (busySchedule.take 6)).loads.length = 0 ∧
      (metricsRun {} busyIterations busyRequests (busySchedule.take 6)).owner
        = some Thread.worker) ∧
    ((metricsRun {} busyIterations busyRequests busySchedule).loads.map
          (fun e => (e.1, e.2.1.timestampMs, e.2.2.map Prod.fst))
        = [(Thread.caller 0, 1, [Thread.worker]),
           (Thread.caller 0, 7,
             [Thread.worker, Thread.caller 0, Thread.worker, Thread.caller 1]),
           (Thread.caller 1, 7,
             [Thread.worker, Thread.caller 0, Thread.worker, Thread.caller 1,
              Thread.caller 0])] ∧
      (metricsRun {} busyIterations busyRequests busySchedule).stores.getLast?
        = some (Thread.caller 1) ∧
      (processRun [] [scenarioFan] busyProcessRequests busySchedule).loads.map
          (fun e => (e.1, e.2.1.map ProcessNode.pid, e.2.2.map Prod.fst))
        = [(Thread.caller 0, [1], [Thread.worker, Thread.caller 0])]) ∧
    (metricsRun {} busyIterations busyRequests busySchedule).unguarded = [] ∧
    (∀ e ∈ (metricsRun {} busyIterations busyRequests busySchedule).loads,
      e.2.1 = sequentially MetricsCall.effect {} e.2.2 ∧
      e.2.2 <+: (metricsRun {} busyIterations busyRequests busySchedule).completed ∧
      ∃ id, e.1 = Thread.caller id ∧ MetricsRequest.getMetrics ∈ busyRequests id) ∧
    (∀ t ∈ (processRun [] [scenarioFan] busyProcessRequests busySchedule).stores,
      t = Thread.worker) := by
  have h := C21_published_state_accessed_under_engine_lock busyIterations busyRequests
    [scenarioFan] busyProcessRequests {} [] busySchedule
  exact ⟨⟨by decide, by decide, by decide, by decide⟩, ⟨by decide, by decide, by decide⟩,
    h.1.1, h.1.2.1, h.2.2.2.2.2⟩

/-! ### Snapshot isolation: later iterations delete the forest they replace -/

theorem length_deleteObjects (garbage : Nat → ProcessInfo) (freed : List Nat) (heap : Heap) :
    (deleteObjects garbage freed heap).length = heap.length := by
  unfold deleteObjects
  exact List.length_mapIdx

theorem getElem?_deleteObjects_of_not_mem (garbage : Nat → ProcessInfo) (freed : List Nat)
    (heap : Heap) (x : Nat) (hx : x ∉ freed) :
    (deleteObjects garbage freed heap)[x]? = heap[x]? := by
  unfold deleteObjects
  rw [List.getElem?_mapIdx]
  cases heap[x]? with
  | none => rfl
  | some o => simp [hx]

theorem getElem?_deleteObjects_of_mem (garbage : Nat → ProcessInfo) (freed : List Nat)
    (heap : Heap) (x : Nat) (hx : x ∈ freed) (hlt : x < heap.length) :
    (deleteObjects garbage freed heap)[x]? = some (garbage x) := by
  unfold deleteObjects
  rw [List.getElem?_mapIdx, List.getElem?_eq_getElem hlt]
  simp [hx]

/-- Following `children` from an object of a set that is closed under `children` stays in the
set. -/
theorem subtreeAddrs_subset (heap : Heap) (S : Nat → Prop)
    (hclosed : ∀ x, S x → ∀ c ∈ (deref heap x).children, S c) :
    ∀ (k a : Nat), S a → ∀ x ∈ subtreeAddrs heap k a, S x
  | 0, _, _, x, hx => by simp [subtreeAddrs] at hx
  | k + 1, a, ha, x, hx => by
    rw [subtreeAddrs, List.mem_cons, List.mem_flatMap] at hx
    rcases hx with rfl | ⟨c, hc, hxc⟩
    · exact ha
    · exact subtreeAddrs_subset heap S hclosed k c (hclosed a ha c hc) x hxc

/-- The objects of a subtree that can be read are objects of the heap, and their children are
objects of the subtree. -/
theorem subtreeAddrs_of_readTree (heap : Heap) :
    ∀ (k a : Nat) (t : ProcessNode), readTree heap k a = some t →
      a ∈ subtreeAddrs heap k a ∧
      ∀ x ∈ subtreeAddrs heap k a, x < heap.length ∧
        ∀ c ∈ (deref heap x).children, c ∈ subtreeAddrs heap k a
  | 0, _, _, h => by simp [readTree] at h
  | k + 1, a, t, h => by
    obtain ⟨cs, ha, hcs, -⟩ := readTree_succ_eq_some h
    have hchild : ∀ c ∈ (deref heap a).children, ∃ tc, readTree heap k c = some tc :=
      readTree_of_readForest heap k _ cs hcs
    refine ⟨by rw [subtreeAddrs]; exact List.mem_cons_self _ _, ?_⟩
    intro x hx
    rw [subtreeAddrs, List.mem_cons, List.mem_flatMap] at hx
    rcases hx with rfl | ⟨c, hc, hxc⟩
    · refine ⟨ha, fun c hc => ?_⟩
      obtain ⟨tc, htc⟩ := hchild c hc
      rw [subtreeAddrs, List.mem_cons, List.mem_flatMap]
      exact Or.inr ⟨c, hc, (subtreeAddrs_of_readTree heap k c tc htc).1⟩
    · obtain ⟨tc, htc⟩ := hchild c hc
      obtain ⟨hlt, hcl⟩ := (subtreeAddrs_of_readTree heap k c tc htc).2 x hxc
      refine ⟨hlt, fun d hd => ?_⟩
      rw [subtreeAddrs, List.mem_cons, List.mem_flatMap]
      exact Or.inr ⟨c, hc, hcl d hd⟩

/-- The objects that a readable forest owns are objects of the heap, and their children are
among them. -/
theorem subtreeAddrs_of_readForest (heap : Heap) (k : Nat) (roots : List Nat)
    (forest : List ProcessNode) (h : readForest heap k roots = some forest) :
    (∀ r ∈ roots, r ∈ roots.flatMap (subtreeAddrs heap k)) ∧
    ∀ x ∈ roots.flatMap (subtreeAddrs heap k), x < heap.length ∧
      ∀ c ∈ (deref heap x).children, c ∈ roots.flatMap (subtreeAddrs heap k) := by
  have hroot := readTree_of_readForest heap k roots forest h
  constructor
  · intro r hr
    obtain ⟨t, ht⟩ := hroot r hr
    exact List.mem_flatMap.2 ⟨r, hr, (subtreeAddrs_of_readTree heap k r t ht).1⟩
  · intro x hx
    obtain ⟨r, hr, hxr⟩ := List.mem_flatMap.1 hx
    obtain ⟨t, ht⟩ := hroot r hr
    obtain ⟨hlt, hcl⟩ := (subtreeAddrs_of_readTree heap k r t ht).2 x hxr
    exact ⟨hlt, fun c hc => List.mem_flatMap.2 ⟨r, hr, hcl c hc⟩⟩

/-- More levels reach at least the same objects. -/
theorem subtreeAddrs_mono (heap : Heap) :
    ∀ (k k' a : Nat), k ≤ k' → ∀ x ∈ subtreeAddrs heap k a, x ∈ subtreeAddrs heap k' a
  | 0, _, _, _, x, hx => by simp [subtreeAddrs] at hx
  | k + 1, 0, _, h, _, _ => by omega
  | k + 1, k' + 1, a, h, x, hx => by
    rw [subtreeAddrs, List.mem_cons, List.mem_flatMap] at hx ⊢
    rcases hx with rfl | ⟨c, hc, hxc⟩
    · exact Or.inl rfl
    · exact Or.inr ⟨c, hc, subtreeAddrs_mono heap k k' c (by omega) x hxc⟩

/-- Two heaps with the same objects on a set that is closed under `children` have the same
subtrees there. -/
theorem subtreeAddrs_congr (heap heap' : Heap) (S : Nat → Prop)
    (hclosed : ∀ x, S x → ∀ c ∈ (deref heap x).children, S c)
    (hagree : ∀ x, S x → deref heap' x = deref heap x) :
    ∀ (k a : Nat), S a → subtreeAddrs heap' k a = subtreeAddrs heap k a
  | 0, _, _ => rfl
  | k + 1, a, ha => by
    rw [subtreeAddrs, subtreeAddrs, hagree a ha]
    congr 1
    apply List.flatMap_congr
    intro c hc
    exact subtreeAddrs_congr heap heap' S hclosed hagree k c (hclosed a ha c hc)

/-- An iteration of `enumerationLoop` on freshly enumerated objects keeps the published forest
apart from a snapshot: it deletes only objects of the forest it replaces, and the forest it
publishes consists of the enumerated objects. -/
theorem Apart.after_iteration {lo hi : Nat} {snapshot : Heap} {s : ProcessTreeBuilder}
    (h : Apart lo hi snapshot s) (e : Enumeration)
    (hleaf : ∀ o ∈ e.enumerated, o.children = []) :
    Apart lo hi snapshot (enumerationLoopIteration s e) := by
  obtain ⟨S, hroots, hS⟩ := h.live
  obtain ⟨hlen, hframe⟩ := enumerationCycle_frame s e.enumerated
  have hlen1 : (enumerationCycle s e.enumerated).heap.length
      = s.heap.length + e.enumerated.length := by
    show (buildTree _ _).1.length = _
    rw [length_buildTree, List.length_append]
  have hagree : ∀ x, S x → deref (enumerationCycle s e.enumerated).heap x = deref s.heap x :=
    fun x hx => deref_eq_of_getElem?_eq (hframe x (hS x hx).1)
  have hclosed : ∀ x, S x →
      ∀ c ∈ (deref (enumerationCycle s e.enumerated).heap x).children, S c := by
    intro x hx c hc
    rw [hagree x hx] at hc
    exact (hS x hx).2.2 c hc
  have hfreed : ∀ x ∈ s.processRoots_.flatMap
      (subtreeAddrs (enumerationCycle s e.enumerated).heap e.levels), S x := by
    intro x hx
    obtain ⟨r, hr, hxr⟩ := List.mem_flatMap.1 hx
    exact subtreeAddrs_subset _ S hclosed e.levels r (hroots r hr) x hxr
  have hvalid : ∀ a ∈ List.range' s.heap.length e.enumerated.length,
      a < (s.heap ++ e.enumerated).length := by
    intro a ha
    rw [List.mem_range'_1] at ha
    rw [List.length_append]
    exact ha.2
  refine ⟨?_, ?_, ⟨fun x => s.heap.length ≤ x ∧ x < s.heap.length + e.enumerated.length,
    ?_, ?_⟩⟩
  · show hi ≤ (deleteObjects _ _ _).length
    rw [length_deleteObjects, hlen1]
    have := h.length_le
    omega
  · intro x hlo hhi
    show (deleteObjects _ _ _)[x]? = _
    rw [getElem?_deleteObjects_of_not_mem _ _ _ _
      (fun hx => (hS x (hfreed x hx)).2.1 ⟨hlo, hhi⟩),
      hframe x (by have := h.length_le; omega)]
    exact h.snapshot_eq x hlo hhi
  · intro r hr
    have hr' : r ∈ (buildTree (s.heap ++ e.enumerated)
        (List.range' s.heap.length e.enumerated.length)).2 := hr
    rw [buildTree_roots _ _ hvalid] at hr'
    exact List.mem_range'_1.1 (List.mem_filter.1 hr').1
  · intro x hx
    have hnot : x ∉ s.processRoots_.flatMap
        (subtreeAddrs (enumerationCycle s e.enumerated).heap e.levels) := by
      intro hmem
      have := (hS x (hfreed x hmem)).1
      omega
    refine ⟨?_, ?_, ?_⟩
    · show x < (deleteObjects _ _ _).length
      rw [length_deleteObjects, hlen1]
      exact hx.2
    · have := h.length_le
      omega
    · intro c hc
      have hobj : deref (enumerationLoopIteration s e).heap x
          = deref (enumerationCycle s e.enumerated).heap x :=
        deref_eq_of_getElem?_eq (getElem?_deleteObjects_of_not_mem _ _ _ _ hnot)
      rw [hobj] at hc
      have hc' : c ∈ (deref (buildTree (s.heap ++ e.enumerated)
          (List.range' s.heap.length e.enumerated.length)).1 x).children := hc
      obtain ⟨a, rfl⟩ : ∃ a, x = s.heap.length + a := ⟨x - s.heap.length, by omega⟩
      rw [buildTree_children _ _ hvalid _ (by rw [List.length_append]; omega),
        deref_append_add, hleaf _ (deref_mem (by omega)), List.nil_append] at hc'
      exact List.mem_range'_1.1 (List.mem_filter.1 hc').1

theorem Apart.after_iterations {lo hi : Nat} {snapshot : Heap} :
    ∀ (cycles : List Enumeration) {s : ProcessTreeBuilder}, Apart lo hi snapshot s →
      (∀ e ∈ cycles, ∀ o ∈ e.enumerated, o.children = []) →
      Apart lo hi snapshot (cycles.foldl enumerationLoopIteration s)
  | [], _, h, _ => h
  | e :: cycles, _, h, hleaf =>
    Apart.after_iterations cycles (h.after_iteration e (hleaf e (List.mem_cons_self _ _)))
      (fun e' he' => hleaf e' (List.mem_cons_of_mem _ he'))

/-- C6: `getProcessTree` leaves the published forest as it is (the vector `processRoots_` and
every object that existed before the call), and the vector it returns owns an equal forest of
newly allocated objects.  After any number of later iterations of `enumerationLoop`, each of
which enumerates fresh objects (without children, as the platform collectors make them),
publishes their forest and deletes every object of the forest it replaces (whatever is found at
the addresses of deleted objects afterwards), every object that `getProcessTree` allocated is
as it was and the returned vector still owns the same forest.  The first such iteration does
delete the forest that was published when the copy was made: when its destructors recurse as
deep as the forest was read, every object of that forest is gone. -/
theorem C6_snapshot_isolated_from_later_cycles (fuel : Nat)
    (self : ProcessTreeBuilder) (forest : List ProcessNode)
    (hforest : readForest self.heap fuel self.processRoots_ = some forest) :
    ∃ self' copy,
      getProcessTree fuel self = some (self', copy) ∧
      self'.processRoots_ = self.processRoots_ ∧
      (∀ x, x < self.heap.length → self'.heap[x]? = self.heap[x]?) ∧
      readForest self'.heap fuel self'.processRoots_ = some forest ∧
      readForest self'.heap fuel copy = some forest ∧
      (∀ r ∈ copy, self.heap.length ≤ r ∧ r < self'.heap.length) ∧
      ∀ cycles : List Enumeration, (∀ e ∈ cycles, ∀ o ∈ e.enumerated, o.children = []) →
        (∀ x, self.heap.length ≤ x → x < self'.heap.length →
          (cycles.foldl enumerationLoopIteration self').heap[x]? = self'.heap[x]?) ∧
        readForest (cycles.foldl enumerationLoopIteration self').heap fuel copy
          = some forest ∧
        ∀ e rest, cycles = e :: rest → fuel ≤ e.levels →
          ∀ x ∈ self.processRoots_.flatMap (subtreeAddrs self.heap fuel),
            (enumerationLoopIteration self' e).heap[x]? = some (e.garbage x) := by
  obtain ⟨heap', copy, hget, i1, i2, i3, i4, i5⟩ := getProcessTree_spec fuel self forest hforest
  obtain ⟨hrootsIn, hliveClosed⟩ :=
    subtreeAddrs_of_readForest self.heap fuel self.processRoots_ forest hforest
  have hderef : ∀ x ∈ self.processRoots_.flatMap (subtreeAddrs self.heap fuel),
      deref heap' x = deref self.heap x :=
    fun x hx => deref_eq_of_getElem?_eq (i2 x (hliveClosed x hx).1)
  have hapart : Apart self.heap.length heap'.length heap'
      { self with heap := heap' } := by
    refine ⟨le_refl _, fun _ _ _ => rfl,
      ⟨fun x => x ∈ self.processRoots_.flatMap (subtreeAddrs self.heap fuel), hrootsIn, ?_⟩⟩
    intro x hx
    obtain ⟨hlt, hcl⟩ := hliveClosed x hx
    refine ⟨by show x < heap'.length; omega, fun h => by omega, fun c hc => ?_⟩
    have hc' : c ∈ (deref heap' x).children := hc
    rw [hderef x hx] at hc'
    exact hcl c hc'
  refine ⟨_, copy, hget, rfl, i2, readForest_of_agree self.heap heap' i2 fuel _ forest hforest,
    i3, fun r hr => ⟨(i4 r hr).1, (i4 r hr).2.1⟩, fun cycles hleaf => ?_⟩
  have hfinal := hapart.after_iterations cycles hleaf
  refine ⟨hfinal.snapshot_eq, ?_, ?_⟩
  · rw [← i3]
    apply readForest_congr
    intro a ha
    exact readTree_congr_region heap' _ self.heap.length heap'.length
      (fun x hlo hhi c hc => by
        obtain ⟨h1, h2, -⟩ := i5 x hlo hhi c hc
        exact ⟨by omega, h2⟩)
      (fun x hlo hhi => by rw [hfinal.snapshot_eq x hlo hhi])
      fuel a (i4 a ha).1 (i4 a ha).2.1
  · intro e rest _ hlevels x hx
    obtain ⟨hlen, hframe⟩ := enumerationCycle_frame { self with heap := heap' } e.enumerated
    have hclosed' : ∀ y, y ∈ self.processRoots_.flatMap (subtreeAddrs self.heap fuel) →
        ∀ c ∈ (deref self.heap y).children,
          c ∈ self.processRoots_.flatMap (subtreeAddrs self.heap fuel) :=
      fun y hy => (hliveClosed y hy).2
    have hagree : ∀ y, y ∈ self.processRoots_.flatMap (subtreeAddrs self.heap fuel) →
        deref (enumerationCycle { self with heap := heap' } e.enumerated).heap y
          = deref self.heap y := by
      intro y hy
      have hy1 : y < heap'.length := by have := (hliveClosed y hy).1; omega
      rw [deref_eq_of_getElem?_eq (hframe y hy1)]
      exact hderef y hy
    obtain ⟨r, hr, hxr⟩ := List.mem_flatMap.1 hx
    have hxr' : x ∈ subtreeAddrs
        (enumerationCycle { self with heap := heap' } e.enumerated).heap e.levels r := by
      rw [subtreeAddrs_congr self.heap _ _ hclosed' hagree e.levels r (hrootsIn r hr)]
      exact subtreeAddrs_mono self.heap fuel e.levels r hlevels x hxr
    show (deleteObjects _ _ _)[x]? = _
    apply getElem?_deleteObjects_of_mem
    · exact List.mem_flatMap.2 ⟨r, hr, hxr'⟩
    · have h1 := (hliveClosed x hx).1
      have h2 : heap'.length ≤
          (enumerationCycle { self with heap := heap' } e.enumerated).heap.length := hlen
      omega

/-- C6 on the builder that has published pid 1 with the children pid 2 and pid 3, followed by
an iteration that enumerates two records and one that enumerates nothing, with pid 999 and a
child pointer found at the address of every deleted object: the published root at address 0
is gone after the first iteration, the vector published before no longer owns the forest (its
root now reads pid 999), and the returned copy still does. -/
theorem C6_scenario_witness :
    (readForest scenarioBuilder.heap 3 scenarioBuilder.processRoots_ = some scenarioFan ∧
      ∀ e ∈ scenarioCycles, ∀ o ∈ e.enumerated, o.children = []) ∧
    (∃ self' copy,
      getProcessTree 3 scenarioBuilder = some (self', copy) ∧
      (deref (scenarioCycles.foldl enumerationLoopIteration self').heap 0).pid = 999 ∧
      (readForest (scenarioCycles.foldl enumerationLoopIteration self').heap 3
        scenarioBuilder.processRoots_).map (List.map ProcessNode.pid) = some [999]) ∧
    ∃ self' copy,
      getProcessTree 3 scenarioBuilder = some (self', copy) ∧
      (∀ x, scenarioBuilder.heap.length ≤ x → x < self'.heap.length →
        (scenarioCycles.foldl enumerationLoopIteration self').heap[x]? = self'.heap[x]?) ∧
      readForest (scenarioCycles.foldl enumerationLoopIteration self').heap 3 copy
        = some scenarioFan := by
  have hleaf : ∀ e ∈ scenarioCycles, ∀ o ∈ e.enumerated, o.children = [] := by decide
  obtain ⟨self', copy, hget, -, -, -, -, -, hcycles⟩ :=
    C6_snapshot_isolated_from_later_cycles 3 scenarioBuilder scenarioFan (readForest_scenario 1)
  obtain ⟨h1, h2, -⟩ := hcycles scenarioCycles hleaf
  exact ⟨⟨readForest_scenario 1, hleaf⟩, ⟨_, _, rfl, by decide, by decide⟩,
    self', copy, hget, h1, h2⟩

end sysmon
